import Mathlib

/-!
# Task Master: team invitations and membership, tasks and comments

A shallow embedding of the team slice of the Task Master REST API
(`src/controllers/teamController.js`, `src/services/teamService.js` and the
models `Team`, `TeamMember`, `TeamInvitation`) and of its task and comment
handlers (`taskController.js`, `commentController.js`, their services and the
models `Task` and `Comment`).

The document store is a record of three collections (lists in insertion
order) plus the ObjectId generator.  A handler is a function from the store,
the ambient inputs of one request (clock, uuid, storage failures) and the
request itself to the new store, the HTTP response and the events published.
Tasks and comments live in a store of their own, `TaskStore`: the two groups of
handlers share no collection.
-/

namespace TaskMaster

/-! ## Data model -/

/-- An ObjectId; the generator of the store hands them out in increasing order. -/
abbrev ObjectId := Nat

/-- A JavaScript `Date`, in milliseconds since the epoch. -/
abbrev Date := Nat

/-- Modelled from the spec: `shared/enums/teamRoles.js` is absent from the sources.
Section 3 gives the membership roles as owner, admin and member; the controller
and the tests use the strings 'owner', 'admin' and 'member' for them. -/
inductive TeamRole where
  | owner
  | admin
  | member
  deriving DecidableEq, Repr

namespace TeamRole

/-- The string value of a role, as stored in a document. -/
def toString : TeamRole → String
  | owner => "owner"
  | admin => "admin"
  | member => "member"

/-- Reading a role from a request body string; `none` for a string outside the enum. -/
def ofString? (r : String) : Option TeamRole :=
  if r = "owner" then some owner
  else if r = "admin" then some admin
  else if r = "member" then some member
  else none

end TeamRole

/-- The part of a `User` document the team handlers read (`req.user`). -/
structure User where
  _id : ObjectId
  email : String
  deriving DecidableEq, Repr

/-- A document of `models/Team.js`. -/
structure Team where
  _id : ObjectId
  name : String
  description : String
  owner : ObjectId
  avatar : Option String
  isActive : Bool
  deriving DecidableEq, Repr

/-- A document of `models/TeamMember.js`. -/
structure TeamMember where
  _id : ObjectId
  team : ObjectId
  user : ObjectId
  role : TeamRole
  deriving DecidableEq, Repr

/-- A document of `models/TeamInvitation.js`; `acceptedAt = none` is JavaScript `null`. -/
structure TeamInvitation where
  _id : ObjectId
  team : ObjectId
  email : String
  role : TeamRole
  token : String
  invitedBy : ObjectId
  expiresAt : Date
  acceptedAt : Option Date
  deriving DecidableEq, Repr

/-- The stored state: the three team collections and the ObjectId generator. -/
structure Store where
  teams : List Team
  members : List TeamMember
  invitations : List TeamInvitation
  nextId : ObjectId
  deriving DecidableEq, Repr

/-- The empty database. -/
def Store.empty : Store := ⟨[], [], [], 0⟩

/-- A socket room; the three families are the strings `user:<id>`, `task:<id>`
and `team:<id>` of the source. -/
inductive Room where
  | user (id : ObjectId)
  | task (id : ObjectId)
  | team (id : ObjectId)
  deriving DecidableEq, Repr

/-- One `io.to(room).emit(event, payload)` call of a team handler; the payload of
'team:member-joined' is the team id and the joining user. -/
structure Emitted where
  room : Room
  event : String
  teamId : ObjectId
  user : User
  deriving DecidableEq, Repr

/-- An HTTP response: status code and the `message` field of the JSON body. -/
structure Response where
  status : Nat
  message : String
  deriving DecidableEq, Repr

/-- What a storage call or a property access can throw inside a handler. -/
inductive AppError where
  | validationError
  | duplicateKey (field : String)
  | castError
  | other (message : String)
  deriving DecidableEq, Repr

/-- Modelled from the spec: `middleware/errorHandler.js` is absent from the sources.
Section 7 and `tests/unit/middleware/errorHandler.test.js` give its mapping: a
ValidationError is 400 'Validation error', a duplicate key (code 11000) is 400
'<field> already exists', a CastError is 400 'Invalid ID format', and every other
error is 500 with its message passed through. -/
def errorHandler : AppError → Response
  | .validationError => ⟨400, "Validation error"⟩
  | .duplicateKey field => ⟨400, field ++ " already exists"⟩
  | .castError => ⟨400, "Invalid ID format"⟩
  | .other message => ⟨500, message⟩

/-- Storage and publish calls of `acceptInvitation` that throw in this run; the
task and comment handlers read `publish` for their own `emit` calls. -/
structure Faults where
  memberCreate : Bool
  invitationSave : Bool
  publish : Bool
  deriving DecidableEq, Repr

/-- A run in which no call throws. -/
def Faults.none : Faults := ⟨false, false, false⟩

/-- The ambient inputs of one request: the clock reading of `new Date()` and
`Date.now()`, the value `uuidv4()` returns, the calls that throw, and the value
`toLowerCase` returns for an email with characters outside ASCII. -/
structure Env where
  now : Date
  uuid : String
  faults : Faults
  lowerCased : String
  deriving DecidableEq, Repr

/-- The result of handling one request. -/
structure Outcome where
  store : Store
  response : Response
  events : List Emitted
  deriving DecidableEq, Repr

/-- A handler that sends `res.status(status).json(message)` without writing. -/
def Outcome.reply (s : Store) (status : Nat) (message : String) : Outcome :=
  ⟨s, ⟨status, message⟩, []⟩

/-- The `catch (error) next(error)` path: the error handler answers, the store
is the one reached before the throw. -/
def Outcome.fail (s : Store) (e : AppError) : Outcome :=
  ⟨s, errorHandler e, []⟩

/-! ## Schema setters and validators -/

/-- JavaScript `WhiteSpace` and `LineTerminator` code points, removed by `trim`. -/
def isJsWhitespace (c : Char) : Bool :=
  let n := c.toNat
  n = 0x09 || n = 0x0A || n = 0x0B || n = 0x0C || n = 0x0D || n = 0x20 || n = 0xA0 ||
  n = 0x1680 || (0x2000 ≤ n && n ≤ 0x200A) || n = 0x2028 || n = 0x2029 || n = 0x202F ||
  n = 0x205F || n = 0x3000 || n = 0xFEFF

/-- The `trim: true` schema setter. -/
def jsTrim (v : String) : String :=
  String.mk ((v.data.dropWhile isJsWhitespace).reverse.dropWhile isJsWhitespace).reverse

/-- The `lowercase: true` schema setter (`toLowerCase`).  On a string of ASCII
characters it maps the letters A to Z to a to z.  For a string with other
characters the result follows the Unicode case tables of the engine, which are
not part of the sources: it is the string `lowerCased` that `toLowerCase`
returns in this request. -/
def jsToLowerCase (lowerCased : String) (v : String) : String :=
  if v.data.all (fun c => c.toNat < 128) then String.mk (v.data.map Char.toLower)
  else lowerCased

/-- JavaScript `length` of a string: the number of UTF-16 code units. -/
def jsLength (v : String) : Nat :=
  (v.data.map (fun c => if 0x10000 ≤ c.toNat then 2 else 1)).sum

/-- Modelled from the spec: `shared/constants/team.js` is absent from the sources.
Section 4.1 gives the time to live of an invitation as a fixed policy constant
of seven days, here in milliseconds. -/
def INVITATION_EXPIRES_IN : Nat := 7 * 24 * 60 * 60 * 1000

/-! ## Models: the storage calls the services make -/

/-- Schema validation of a team document: `name` is required and at most 100
code units, `description` at most 1000. -/
def Team.valid (doc : Team) : Bool :=
  doc.name ≠ "" && jsLength doc.name ≤ 100 && jsLength doc.description ≤ 1000

/-- The call `Team.create(teamData)`: setters, defaults, validation, insert. -/
def Team.create (s : Store) (name description : Option String) (owner : ObjectId) :
    Except AppError (Team × Store) :=
  let doc : Team := ⟨s.nextId, jsTrim (name.getD ""), jsTrim (description.getD ""), owner, none, true⟩
  if doc.valid then
    .ok (doc, { s with teams := s.teams ++ [doc], nextId := s.nextId + 1 })
  else .error .validationError

/-- The call `team.save()`: validation, then the stored document with this id is replaced. -/
def Team.save (s : Store) (doc : Team) : Except AppError Store :=
  if doc.valid then
    .ok { s with teams := s.teams.map (fun t => if t._id = doc._id then doc else t) }
  else .error .validationError

/-- The call `team.deleteOne()`. -/
def Team.deleteOne (s : Store) (doc : Team) : Store :=
  { s with teams := s.teams.filter (fun t => t._id ≠ doc._id) }

/-- The call `TeamMember.create(memberData)`; the unique index on (team, user)
rejects a second row for the pair with a duplicate key error. -/
def TeamMember.create (s : Store) (team user : ObjectId) (role : TeamRole) :
    Except AppError (TeamMember × Store) :=
  if s.members.any (fun m => m.team = team ∧ m.user = user) then
    .error (.duplicateKey "team")
  else
    let doc : TeamMember := ⟨s.nextId, team, user, role⟩
    .ok (doc, { s with members := s.members ++ [doc], nextId := s.nextId + 1 })

/-- The call `TeamMember.deleteMany({ team })`. -/
def TeamMember.deleteMany (s : Store) (team : ObjectId) : Store :=
  { s with members := s.members.filter (fun m => m.team ≠ team) }

/-- The call `member.deleteOne()`. -/
def TeamMember.deleteOne (s : Store) (doc : TeamMember) : Store :=
  { s with members := s.members.filter (fun m => m._id ≠ doc._id) }

/-- The call `TeamMember.findOneAndDelete({ team, user })`: the first matching row goes. -/
def TeamMember.findOneAndDelete (s : Store) (team user : ObjectId) : Store :=
  { s with members := s.members.eraseP (fun m => m.team = team ∧ m.user = user) }

/-- The call `TeamInvitation.create(data)`: the email setters, validation (email
and token required, role in the enum admin or member), then the insert, which
the unique index on `token` rejects for a token already stored. -/
def TeamInvitation.create (s : Store) (lowerCased : String) (team : ObjectId)
    (email role token : String) (invitedBy : ObjectId) (expiresAt : Date) :
    Except AppError (TeamInvitation × Store) :=
  let email := jsTrim (jsToLowerCase lowerCased email)
  match TeamRole.ofString? role with
  | some .owner => .error .validationError
  | none => .error .validationError
  | some r =>
    if email = "" ∨ token = "" then .error .validationError
    else if s.invitations.any (fun i => i.token = token) then .error (.duplicateKey "token")
    else
      let doc : TeamInvitation := ⟨s.nextId, team, email, r, token, invitedBy, expiresAt, none⟩
      .ok (doc, { s with invitations := s.invitations ++ [doc], nextId := s.nextId + 1 })

/-- The call `TeamInvitation.deleteMany({ team })`. -/
def TeamInvitation.deleteMany (s : Store) (team : ObjectId) : Store :=
  { s with invitations := s.invitations.filter (fun i => i.team ≠ team) }

/-- The call `invitation.save()`: the stored document with this id is replaced;
saving a document that is no longer stored throws. -/
def TeamInvitation.save (s : Store) (doc : TeamInvitation) : Except AppError Store :=
  if s.invitations.any (fun i => i._id = doc._id) then
    .ok { s with invitations := s.invitations.map (fun i => if i._id = doc._id then doc else i) }
  else .error (.other "No document found for query")

/-! ## services/teamService.js -/

namespace teamService

def createTeam (s : Store) (name description : Option String) (owner : ObjectId) :
    Except AppError (Team × Store) :=
  Team.create s name description owner

def createTeamMember (s : Store) (team user : ObjectId) (role : TeamRole) :
    Except AppError (TeamMember × Store) :=
  TeamMember.create s team user role

def findTeamByIdRaw (s : Store) (teamId : ObjectId) : Option Team :=
  s.teams.find? (fun t => t._id = teamId)

def findMembership (s : Store) (teamId userId : ObjectId) : Option TeamMember :=
  s.members.find? (fun m => m.team = teamId ∧ m.user = userId)

/-- The loop of `updateTeam` over the keys name, description and avatar of
`updates`: every key that is not `undefined` is assigned, through the schema setters. -/
def assignUpdates (team : Team) (name description avatar : Option String) : Team :=
  { team with
    name := match name with
      | some v => jsTrim v
      | none => team.name
    description := match description with
      | some v => jsTrim v
      | none => team.description
    avatar := match avatar with
      | some v => some v
      | none => team.avatar }

def updateTeam (s : Store) (team : Team) (name description avatar : Option String) :
    Except AppError (Team × Store) :=
  let team := assignUpdates team name description avatar
  match Team.save s team with
  | .ok s1 => .ok (team, s1)
  | .error e => .error e

def deleteTeam (s : Store) (team : Team) : Store :=
  let s1 := TeamMember.deleteMany s team._id
  let s2 := TeamInvitation.deleteMany s1 team._id
  Team.deleteOne s2 team

def createInvitation (s : Store) (env : Env) (teamId : ObjectId) (email role : String)
    (invitedBy : ObjectId) : Except AppError (String × Store) :=
  let token := env.uuid
  let expiresAt := env.now + INVITATION_EXPIRES_IN
  match TeamInvitation.create s env.lowerCased teamId email role token invitedBy expiresAt with
  | .ok (_, s1) => .ok (token, s1)
  | .error e => .error e

/-- The query `{ token, expiresAt: { $gt: now }, acceptedAt: null }` followed by
`populate('team')`, which yields `null` for a team that is not stored. -/
def findValidInvitation (s : Store) (token : String) (now : Date) :
    Option (TeamInvitation × Option Team) :=
  match s.invitations.find? (fun i => i.token = token ∧ now < i.expiresAt ∧ i.acceptedAt = none) with
  | some i => some (i, s.teams.find? (fun t => t._id = i.team))
  | none => none

def acceptInvitation (s : Store) (env : Env) (invitation : TeamInvitation) :
    Except AppError Store :=
  TeamInvitation.save s { invitation with acceptedAt := some env.now }

def deleteMember (s : Store) (member : TeamMember) : Store :=
  TeamMember.deleteOne s member

def findAndDeleteMember (s : Store) (teamId userId : ObjectId) : Store :=
  TeamMember.findOneAndDelete s teamId userId

end teamService

/-! ## controllers/teamController.js -/

namespace teamController

def createTeam (s : Store) (user : User) (name description : Option String) : Outcome :=
  match teamService.createTeam s name description user._id with
  | .error e => Outcome.fail s e
  | .ok (team, s1) =>
    match teamService.createTeamMember s1 team._id user._id TeamRole.owner with
    | .error e => Outcome.fail s1 e
    | .ok (_, s2) => ⟨s2, ⟨201, "Team created"⟩, []⟩

def updateTeam (s : Store) (user : User) (id : ObjectId)
    (name description avatar : Option String) : Outcome :=
  match teamService.findTeamByIdRaw s id with
  | none => Outcome.reply s 404 "Team not found"
  | some team =>
    match teamService.findMembership s team._id user._id with
    | none => Outcome.reply s 403 "Not authorized"
    | some membership =>
      if ¬ (membership.role = TeamRole.owner ∨ membership.role = TeamRole.admin) then
        Outcome.reply s 403 "Not authorized"
      else
        match teamService.updateTeam s team name description avatar with
        | .error e => Outcome.fail s e
        | .ok (_, s1) => ⟨s1, ⟨200, "Team updated"⟩, []⟩

def deleteTeam (s : Store) (user : User) (id : ObjectId) : Outcome :=
  match teamService.findTeamByIdRaw s id with
  | none => Outcome.reply s 404 "Team not found"
  | some team =>
    if team.owner ≠ user._id then Outcome.reply s 403 "Only owner can delete team"
    else ⟨teamService.deleteTeam s team, ⟨200, "Team deleted"⟩, []⟩

def inviteMember (s : Store) (env : Env) (user : User) (id : ObjectId)
    (email : String) (role : Option String) : Outcome :=
  let role := role.getD TeamRole.member.toString
  match teamService.findTeamByIdRaw s id with
  | none => Outcome.reply s 404 "Team not found"
  | some team =>
    match teamService.findMembership s team._id user._id with
    | none => Outcome.reply s 403 "Not authorized to invite"
    | some membership =>
      if ¬ (membership.role = TeamRole.owner ∨ membership.role = TeamRole.admin) then
        Outcome.reply s 403 "Not authorized to invite"
      else
        match teamService.createInvitation s env team._id email role user._id with
        | .error e => Outcome.fail s e
        | .ok (_, s1) => ⟨s1, ⟨201, "Invitation sent"⟩, []⟩

/-- The handler of `POST /teams/join/:token`.  Reading `invitation.team._id` of an
invitation whose team is not stored throws a TypeError.  The two writes and the
publish call throw when the run says so. -/
def acceptInvitation (s : Store) (env : Env) (user : User) (token : String) : Outcome :=
  match teamService.findValidInvitation s token env.now with
  | none => Outcome.reply s 400 "Invalid or expired invitation"
  | some (invitation, populated) =>
    if invitation.email ≠ user.email then
      Outcome.reply s 400 "Invitation is for a different email"
    else
      match populated with
      | none => Outcome.fail s (.other "Cannot read properties of null")
      | some team =>
        match teamService.findMembership s team._id user._id with
        | some _ => Outcome.reply s 400 "Already a member of this team"
        | none =>
          if env.faults.memberCreate then Outcome.fail s (.other "storage failure")
          else
            match teamService.createTeamMember s team._id user._id invitation.role with
            | .error e => Outcome.fail s e
            | .ok (_, s1) =>
              if env.faults.invitationSave then Outcome.fail s1 (.other "storage failure")
              else
                match teamService.acceptInvitation s1 env invitation with
                | .error e => Outcome.fail s1 e
                | .ok s2 =>
                  if env.faults.publish then Outcome.fail s2 (.other "publish failure")
                  else
                    ⟨s2, ⟨200, "Joined team successfully"⟩,
                      [⟨Room.team team._id, "team:member-joined", team._id, user⟩]⟩

def removeMember (s : Store) (user : User) (id memberId : ObjectId) : Outcome :=
  match teamService.findTeamByIdRaw s id with
  | none => Outcome.reply s 404 "Team not found"
  | some team =>
    match teamService.findMembership s team._id user._id with
    | none => Outcome.reply s 403 "Not authorized"
    | some requesterMembership =>
      if ¬ (requesterMembership.role = TeamRole.owner ∨
          requesterMembership.role = TeamRole.admin) then
        Outcome.reply s 403 "Not authorized"
      else
        match teamService.findMembership s team._id memberId with
        | none => Outcome.reply s 404 "Member not found"
        | some memberToRemove =>
          if memberToRemove.role = TeamRole.owner then
            Outcome.reply s 400 "Cannot remove team owner"
          else ⟨teamService.deleteMember s memberToRemove, ⟨200, "Member removed"⟩, []⟩

def leaveTeam (s : Store) (user : User) (id : ObjectId) : Outcome :=
  match teamService.findTeamByIdRaw s id with
  | none => Outcome.reply s 404 "Team not found"
  | some team =>
    if team.owner = user._id then
      Outcome.reply s 400 "Owner cannot leave team. Transfer ownership or delete team."
    else
      ⟨teamService.findAndDeleteMember s team._id user._id, ⟨200, "Left team successfully"⟩, []⟩

end teamController

/-! ## Requests and runs -/

/-- A request to one of the seven mutating team routes (`routes/teams.js`), with
its path parameters and body fields; `none` is a body field that is `undefined`.
Path parameters are well-formed ObjectIds and body fields are strings, so the
handlers are run on every input the validation middleware lets through and on
more (an empty name, an email that is no address, a role outside the enum). -/
inductive Request where
  | createTeam (name description : Option String)
  | updateTeam (id : ObjectId) (name description avatar : Option String)
  | deleteTeam (id : ObjectId)
  | inviteMember (id : ObjectId) (email : String) (role : Option String)
  | acceptInvitation (token : String)
  | removeMember (id memberId : ObjectId)
  | leaveTeam (id : ObjectId)
  deriving DecidableEq, Repr

/-- One authenticated request as the router sees it: the ambient inputs, the
user the `auth` middleware resolved, and the route with its arguments. -/
structure Call where
  env : Env
  user : User
  request : Request
  deriving DecidableEq, Repr

/-- Dispatch of one request to its handler. -/
def handle (s : Store) (c : Call) : Outcome :=
  match c.request with
  | .createTeam name description => teamController.createTeam s c.user name description
  | .updateTeam id name description avatar =>
    teamController.updateTeam s c.user id name description avatar
  | .deleteTeam id => teamController.deleteTeam s c.user id
  | .inviteMember id email role => teamController.inviteMember s c.env c.user id email role
  | .acceptInvitation token => teamController.acceptInvitation s c.env c.user token
  | .removeMember id memberId => teamController.removeMember s c.user id memberId
  | .leaveTeam id => teamController.leaveTeam s c.user id

/-- The store after a sequence of requests handled one at a time. -/
def run (s : Store) (cs : List Call) : Store :=
  cs.foldl (fun st c => (handle st c).store) s

/-- The stores reachable from the empty one by team handler requests. -/
inductive Reachable : Store → Prop where
  | empty : Reachable Store.empty
  | step (s : Store) (c : Call) : Reachable s → Reachable (handle s c).store

/-! ## Stores after a write, used to state what a handler leaves behind -/

/-- The store after `TeamMember.create` inserted a row for (team, user) with the role. -/
def Store.insertMember (s : Store) (team user : ObjectId) (role : TeamRole) : Store :=
  { s with members := s.members ++ [⟨s.nextId, team, user, role⟩], nextId := s.nextId + 1 }

/-- The store after `invitation.save()` stored `acceptedAt = now` on the invitation. -/
def Store.markAccepted (s : Store) (inv : TeamInvitation) (now : Date) : Store :=
  let accepted : TeamInvitation := { inv with acceptedAt := some now }
  { s with invitations := s.invitations.map (fun i => if i._id = inv._id then accepted else i) }

/-- The user has a membership row in the team. -/
def Store.hasMember (s : Store) (team user : ObjectId) : Prop :=
  ∃ m ∈ s.members, m.team = team ∧ m.user = user

instance (s : Store) (team user : ObjectId) : Decidable (s.hasMember team user) := by
  unfold Store.hasMember; infer_instance

/-- Some stored invitation with the token is still open (`acceptedAt = null`). -/
def Store.hasOpenInvitation (s : Store) (token : String) : Prop :=
  ∃ i ∈ s.invitations, i.token = token ∧ i.acceptedAt = none

instance (s : Store) (token : String) : Decidable (s.hasOpenInvitation token) := by
  unfold Store.hasOpenInvitation; infer_instance

/-- The event `acceptInvitation` publishes to the room of the team. -/
def memberJoined (team : ObjectId) (user : User) : Emitted :=
  ⟨Room.team team, "team:member-joined", team, user⟩

/-! ## Store invariants -/

/-- The membership rows of the pair (team, user). -/
def Store.rowsOf (s : Store) (team user : ObjectId) : List TeamMember :=
  s.members.filter (fun m => m.team = team ∧ m.user = user)

/-- The membership rows of a team that carry the role owner. -/
def Store.ownerRows (s : Store) (team : ObjectId) : List TeamMember :=
  s.members.filter (fun m => m.team = team ∧ m.role = TeamRole.owner)

/-- No two membership rows share their (team, user) pair. -/
def Store.MembersUnique (s : Store) : Prop :=
  s.members.Pairwise (fun a b => ¬ (a.team = b.team ∧ a.user = b.user))

/-- No two stored invitations share their token. -/
def Store.TokensUnique (s : Store) : Prop :=
  (s.invitations.map (fun i => i.token)).Nodup

instance (s : Store) : Decidable s.TokensUnique := by
  unfold Store.TokensUnique; infer_instance

/-- What the team handlers maintain on the store: ids come from the generator
and are unique per collection, an invitation never carries the role owner and
references a stored team, tokens are unique, and every team has exactly one
owner row, the row of the user in its `owner` field. -/
structure Store.Consistent (s : Store) : Prop where
  teamIds : ∀ t ∈ s.teams, t._id < s.nextId
  teamsNodup : (s.teams.map (fun t => t._id)).Nodup
  memberIds : ∀ m ∈ s.members, m._id < s.nextId ∧ m.team < s.nextId
  membersNodup : (s.members.map (fun m => m._id)).Nodup
  invitationIds : ∀ i ∈ s.invitations, i._id < s.nextId
  invitationsNodup : (s.invitations.map (fun i => i._id)).Nodup
  invitationRole : ∀ i ∈ s.invitations, i.role ≠ TeamRole.owner
  invitationTeam : ∀ i ∈ s.invitations, ∃ t ∈ s.teams, t._id = i.team
  tokens : s.TokensUnique
  owner : ∀ t ∈ s.teams, (s.ownerRows t._id).map (fun m => m.user) = [t.owner]

/-- The token a request stores if it goes through: `inviteMember` stores the
value `uuidv4()` returns, no other route stores a token. -/
def Call.generates (c : Call) : Option String :=
  match c.request with
  | .inviteMember _ _ _ => some c.env.uuid
  | _ => none

/-! ## Sample data: the scenario of section 8 of the specification -/

/-- A run at time 1000 in which `uuidv4()` returns K and no call throws. -/
def sampleEnv : Env := ⟨1000, "K", Faults.none, ""⟩

/-- A run long after every sample invitation has expired. -/
def lateEnv : Env := ⟨700000000, "L", Faults.none, ""⟩

/-- A run in which saving the invitation throws. -/
def saveFailsEnv : Env := ⟨1000, "K", ⟨false, true, false⟩, ""⟩

def userA : User := ⟨1, "a@x.com"⟩

def userB : User := ⟨2, "b@x.com"⟩

def userC : User := ⟨3, "c@x.com"⟩

/-- User A has created team Eng (id 0) and invited b@x.com as a member, token K. -/
def invitedStore : Store :=
  run Store.empty
    [⟨sampleEnv, userA, .createTeam (some "Eng") none⟩,
     ⟨sampleEnv, userA, .inviteMember 0 "b@x.com" (some "member")⟩]

/-- The invitation with token K of `invitedStore`. -/
def invitationK : TeamInvitation :=
  ⟨2, 0, "b@x.com", TeamRole.member, "K", 1, 1000 + INVITATION_EXPIRES_IN, none⟩

/-- The team Eng of `invitedStore`. -/
def teamEng : Team := ⟨0, "Eng", "", 1, none, true⟩

/-- The store after user B has accepted the invitation K. -/
def joinedStore : Store :=
  (handle invitedStore ⟨sampleEnv, userB, .acceptInvitation "K"⟩).store

/-- User A has created team Eng and invited the own address a@x.com, token K. -/
def selfInvitedStore : Store :=
  run Store.empty
    [⟨sampleEnv, userA, .createTeam (some "Eng") none⟩,
     ⟨sampleEnv, userA, .inviteMember 0 "a@x.com" (some "admin")⟩]

/-- The invitation with token K of `selfInvitedStore`. -/
def selfInvitationK : TeamInvitation :=
  ⟨2, 0, "a@x.com", TeamRole.admin, "K", 1, 1000 + INVITATION_EXPIRES_IN, none⟩

/-- A store built by hand in which user B holds a membership row with role owner
in team Eng although the `owner` field of the team is user A. -/
def twoOwnerRowsStore : Store :=
  ⟨[teamEng], [⟨1, 0, 1, TeamRole.owner⟩, ⟨3, 0, 2, TeamRole.owner⟩], [], 4⟩

/-! ## Tasks and comments: data model -/

/-- Modelled from the spec: `shared/enums/taskStatus.js` and
`shared/enums/taskPriority.js` are absent from the sources.  Section 3 names the
statuses open, in-progress and completed and leaves the list open, so the lists
of values the schema enums accept are a parameter of the model. -/
structure TaskEnums where
  statusValues : List String
  priorityValues : List String
  deriving DecidableEq, Repr

namespace taskStatus

/-- Modelled from the spec: the default status of a task; the model test expects
the string open. -/
def OPEN : String := "open"

/-- Modelled from the spec: the status section 3 calls completed; the tests
expect the string completed after `markComplete`. -/
def COMPLETED : String := "completed"

end taskStatus

namespace taskPriority

/-- Modelled from the spec: the default priority; the model test expects the
string medium. -/
def MEDIUM : String := "medium"

end taskPriority

/-- A document of `models/Task.js`; `none` is JavaScript `null`. -/
structure Task where
  _id : ObjectId
  title : String
  description : String
  status : String
  priority : String
  dueDate : Option Date
  completedAt : Option Date
  creator : ObjectId
  assignee : Option ObjectId
  team : Option ObjectId
  tags : List String
  isArchived : Bool
  deriving DecidableEq, Repr

/-- A document of `models/Comment.js`. -/
structure Comment where
  _id : ObjectId
  content : String
  task : ObjectId
  author : ObjectId
  parentComment : Option ObjectId
  isEdited : Bool
  isDeleted : Bool
  deriving DecidableEq, Repr

/-- The task and comment collections with their ObjectId generator.  The task
and comment handlers read and write these two collections only, and the team
handlers never touch them. -/
structure TaskStore where
  tasks : List Task
  comments : List Comment
  nextId : ObjectId
  deriving DecidableEq, Repr

/-- The empty task and comment collections. -/
def TaskStore.empty : TaskStore := ⟨[], [], 0⟩

/-- The payload of an event of the task and comment handlers. -/
inductive Payload where
  | task (task : Task)
  | comment (comment : Comment)
  | commentId (commentId : ObjectId)
  deriving DecidableEq, Repr

/-- One `io.to(room).emit(event, payload)` call of a task or comment handler. -/
structure Published where
  room : Room
  event : String
  payload : Payload
  deriving DecidableEq, Repr

/-- The result of handling one task or comment request. -/
structure TaskOutcome where
  store : TaskStore
  response : Response
  events : List Published
  deriving DecidableEq, Repr

/-- A handler that sends `res.status(status).json(message)` without writing. -/
def TaskOutcome.reply (s : TaskStore) (status : Nat) (message : String) : TaskOutcome :=
  ⟨s, ⟨status, message⟩, []⟩

/-- The `catch (error) next(error)` path of a task or comment handler. -/
def TaskOutcome.fail (s : TaskStore) (e : AppError) : TaskOutcome :=
  ⟨s, errorHandler e, []⟩

/-- The body fields `createTask` and `updateTask` read.  The outer `none` is a
field that is `undefined`; for dueDate, assignee and team the inner `none` is
JSON `null`. -/
structure TaskBody where
  title : Option String
  description : Option String
  status : Option String
  priority : Option String
  dueDate : Option (Option Date)
  assignee : Option (Option ObjectId)
  team : Option (Option ObjectId)
  tags : Option (List String)
  deriving DecidableEq, Repr

/-- A body with every field `undefined`. -/
def TaskBody.none : TaskBody := ⟨.none, .none, .none, .none, .none, .none, .none, .none⟩

/-! ## Models: Task and Comment -/

/-- Schema validation of a task: `title` is required and at most 200 code units,
`description` at most 5000, `status` and `priority` are in their enums. -/
def Task.valid (enums : TaskEnums) (doc : Task) : Bool :=
  doc.title ≠ "" && jsLength doc.title ≤ 200 && jsLength doc.description ≤ 5000 &&
    enums.statusValues.contains doc.status && enums.priorityValues.contains doc.priority

/-- The hook `taskSchema.pre('save')`: when `status` is modified, `completedAt`
becomes the current date for the status completed and `null` otherwise. -/
def Task.preSave (statusModified : Bool) (now : Date) (doc : Task) : Task :=
  if statusModified then
    { doc with completedAt := if doc.status = taskStatus.COMPLETED then some now else none }
  else doc

/-- The call `Task.create(taskData)`: setters and defaults, the save hook (on a
new document the paths given in the data are the modified ones), validation,
insert. -/
def Task.create (enums : TaskEnums) (s : TaskStore) (now : Date) (data : TaskBody)
    (creator : ObjectId) : Except AppError (Task × TaskStore) :=
  let doc : Task :=
    { _id := s.nextId
      title := jsTrim (data.title.getD "")
      description := jsTrim (data.description.getD "")
      status := data.status.getD taskStatus.OPEN
      priority := data.priority.getD taskPriority.MEDIUM
      dueDate := data.dueDate.getD none
      completedAt := none
      creator := creator
      assignee := data.assignee.getD none
      team := data.team.getD none
      tags := data.tags.getD []
      isArchived := false }
  let doc := Task.preSave data.status.isSome now doc
  if doc.valid enums then
    .ok (doc, { s with tasks := s.tasks ++ [doc], nextId := s.nextId + 1 })
  else .error .validationError

/-- The call `task.save()` on a document loaded as `original` and changed in
memory to `updated`: the save hook (`status` is modified when it differs from the
loaded value), validation, then the stored document with this id is replaced. -/
def Task.save (enums : TaskEnums) (s : TaskStore) (now : Date) (original updated : Task) :
    Except AppError (Task × TaskStore) :=
  let doc := Task.preSave (decide (updated.status ≠ original.status)) now updated
  if doc.valid enums then
    .ok (doc, { s with tasks := s.tasks.map (fun t => if t._id = doc._id then doc else t) })
  else .error .validationError

/-- The call `task.deleteOne()`. -/
def Task.deleteOne (s : TaskStore) (doc : Task) : TaskStore :=
  { s with tasks := s.tasks.filter (fun t => t._id ≠ doc._id) }

/-- Schema validation of a comment: `content` is required and at most 2000 code units. -/
def Comment.valid (doc : Comment) : Bool :=
  doc.content ≠ "" && jsLength doc.content ≤ 2000

/-- The call `Comment.create(commentData)`; the save hook does nothing on a new document. -/
def Comment.create (s : TaskStore) (content : Option String) (task author : ObjectId)
    (parentComment : Option ObjectId) : Except AppError (Comment × TaskStore) :=
  let doc : Comment := ⟨s.nextId, jsTrim (content.getD ""), task, author, parentComment, false, false⟩
  if doc.valid then
    .ok (doc, { s with comments := s.comments ++ [doc], nextId := s.nextId + 1 })
  else .error .validationError

/-- The hook `commentSchema.pre('save')` on a stored document: a modified
`content` sets `isEdited`. -/
def Comment.preSave (contentModified : Bool) (doc : Comment) : Comment :=
  if contentModified then { doc with isEdited := true } else doc

/-- The call `comment.save()` on a document loaded as `original` and changed in
memory to `updated`. -/
def Comment.save (s : TaskStore) (original updated : Comment) :
    Except AppError (Comment × TaskStore) :=
  let doc := Comment.preSave (decide (updated.content ≠ original.content)) updated
  if doc.valid then
    .ok (doc, { s with comments := s.comments.map (fun c => if c._id = doc._id then doc else c) })
  else .error .validationError

/-! ## services/taskService.js and services/commentService.js -/

namespace taskService

def createTask (enums : TaskEnums) (s : TaskStore) (now : Date) (taskData : TaskBody)
    (creator : ObjectId) : Except AppError (Task × TaskStore) :=
  Task.create enums s now taskData creator

def findTaskByIdRaw (s : TaskStore) (taskId : ObjectId) : Option Task :=
  s.tasks.find? (fun t => t._id = taskId)

/-- The loop of `updateTask` over the keys of `updates`: every key that is not
`undefined` is assigned, through the schema setters. -/
def assignUpdates (task : Task) (updates : TaskBody) : Task :=
  { task with
    title := match updates.title with
      | some v => jsTrim v
      | none => task.title
    description := match updates.description with
      | some v => jsTrim v
      | none => task.description
    status := match updates.status with
      | some v => v
      | none => task.status
    priority := match updates.priority with
      | some v => v
      | none => task.priority
    dueDate := match updates.dueDate with
      | some v => v
      | none => task.dueDate
    assignee := match updates.assignee with
      | some v => v
      | none => task.assignee
    team := match updates.team with
      | some v => v
      | none => task.team
    tags := match updates.tags with
      | some v => v
      | none => task.tags }

def updateTask (enums : TaskEnums) (s : TaskStore) (now : Date) (task : Task)
    (updates : TaskBody) : Except AppError (Task × TaskStore) :=
  Task.save enums s now task (assignUpdates task updates)

def deleteTask (s : TaskStore) (task : Task) : TaskStore :=
  Task.deleteOne s task

def markTaskComplete (enums : TaskEnums) (s : TaskStore) (now : Date) (task : Task) :
    Except AppError (Task × TaskStore) :=
  Task.save enums s now task { task with status := taskStatus.COMPLETED }

end taskService

namespace commentService

def findTaskById (s : TaskStore) (taskId : ObjectId) : Option Task :=
  s.tasks.find? (fun t => t._id = taskId)

def createComment (s : TaskStore) (content : Option String) (task author : ObjectId)
    (parentComment : Option ObjectId) : Except AppError (Comment × TaskStore) :=
  Comment.create s content task author parentComment

def findCommentById (s : TaskStore) (commentId : ObjectId) : Option Comment :=
  s.comments.find? (fun c => c._id = commentId)

/-- The assignment `comment.content = content` goes through the trim setter; an
`undefined` content leaves the required path empty. -/
def updateComment (s : TaskStore) (comment : Comment) (content : Option String) :
    Except AppError (Comment × TaskStore) :=
  Comment.save s comment { comment with content := jsTrim (content.getD "") }

def softDeleteComment (s : TaskStore) (comment : Comment) :
    Except AppError (Comment × TaskStore) :=
  Comment.save s comment { comment with isDeleted := true }

end commentService

/-! ## controllers/taskController.js -/

namespace taskController

def createTask (enums : TaskEnums) (s : TaskStore) (env : Env) (user : User)
    (body : TaskBody) : TaskOutcome :=
  match taskService.createTask enums s env.now body user._id with
  | .error e => TaskOutcome.fail s e
  | .ok (task, s1) =>
    match body.assignee with
    | some (some assignee) =>
      if assignee ≠ user._id then
        if env.faults.publish then TaskOutcome.fail s1 (.other "publish failure")
        else ⟨s1, ⟨201, "Task created"⟩, [⟨Room.user assignee, "task:assigned", .task task⟩]⟩
      else ⟨s1, ⟨201, "Task created"⟩, []⟩
    | _ => ⟨s1, ⟨201, "Task created"⟩, []⟩

def updateTask (enums : TaskEnums) (s : TaskStore) (env : Env) (user : User) (id : ObjectId)
    (body : TaskBody) : TaskOutcome :=
  match taskService.findTaskByIdRaw s id with
  | none => TaskOutcome.reply s 404 "Task not found"
  | some task =>
    let isCreator : Bool := task.creator = user._id
    let isAssignee : Bool := task.assignee = some user._id
    if !isCreator && !isAssignee then
      TaskOutcome.reply s 403 "Not authorized to update this task"
    else
      let oldAssignee := task.assignee
      match taskService.updateTask enums s env.now task body with
      | .error e => TaskOutcome.fail s e
      | .ok (updatedTask, s1) =>
        if env.faults.publish then TaskOutcome.fail s1 (.other "publish failure")
        else
          let assigned : List Published :=
            match body.assignee with
            | some (some assignee) =>
              if some assignee ≠ oldAssignee ∧ assignee ≠ user._id then
                [⟨Room.user assignee, "task:assigned", .task updatedTask⟩]
              else []
            | _ => []
          ⟨s1, ⟨200, "Task updated"⟩,
            assigned ++ [⟨Room.task updatedTask._id, "task:updated", .task updatedTask⟩]⟩

def deleteTask (s : TaskStore) (user : User) (id : ObjectId) : TaskOutcome :=
  match taskService.findTaskByIdRaw s id with
  | none => TaskOutcome.reply s 404 "Task not found"
  | some task =>
    if task.creator ≠ user._id then
      TaskOutcome.reply s 403 "Not authorized to delete this task"
    else ⟨taskService.deleteTask s task, ⟨200, "Task deleted"⟩, []⟩

def markComplete (enums : TaskEnums) (s : TaskStore) (env : Env) (id : ObjectId) :
    TaskOutcome :=
  match taskService.findTaskByIdRaw s id with
  | none => TaskOutcome.reply s 404 "Task not found"
  | some task =>
    match taskService.markTaskComplete enums s env.now task with
    | .error e => TaskOutcome.fail s e
    | .ok (completedTask, s1) =>
      if env.faults.publish then TaskOutcome.fail s1 (.other "publish failure")
      else
        ⟨s1, ⟨200, "Task marked as complete"⟩,
          [⟨Room.task completedTask._id, "task:completed", .task completedTask⟩]⟩

end taskController

/-! ## controllers/commentController.js -/

namespace commentController

def createComment (s : TaskStore) (env : Env) (user : User) (taskId : ObjectId)
    (content : Option String) (parentComment : Option ObjectId) : TaskOutcome :=
  match commentService.findTaskById s taskId with
  | none => TaskOutcome.reply s 404 "Task not found"
  | some _ =>
    match commentService.createComment s content taskId user._id parentComment with
    | .error e => TaskOutcome.fail s e
    | .ok (comment, s1) =>
      if env.faults.publish then TaskOutcome.fail s1 (.other "publish failure")
      else
        ⟨s1, ⟨201, "Comment added"⟩, [⟨Room.task taskId, "comment:created", .comment comment⟩]⟩

def updateComment (s : TaskStore) (env : Env) (user : User) (id : ObjectId)
    (content : Option String) : TaskOutcome :=
  match commentService.findCommentById s id with
  | none => TaskOutcome.reply s 404 "Comment not found"
  | some comment =>
    if comment.author ≠ user._id then TaskOutcome.reply s 403 "Not authorized"
    else
      match commentService.updateComment s comment content with
      | .error e => TaskOutcome.fail s e
      | .ok (updatedComment, s1) =>
        if env.faults.publish then TaskOutcome.fail s1 (.other "publish failure")
        else
          ⟨s1, ⟨200, "Comment updated"⟩,
            [⟨Room.task updatedComment.task, "comment:updated", .comment updatedComment⟩]⟩

def deleteComment (s : TaskStore) (env : Env) (user : User) (id : ObjectId) : TaskOutcome :=
  match commentService.findCommentById s id with
  | none => TaskOutcome.reply s 404 "Comment not found"
  | some comment =>
    if comment.author ≠ user._id then TaskOutcome.reply s 403 "Not authorized"
    else
      match commentService.softDeleteComment s comment with
      | .error e => TaskOutcome.fail s e
      | .ok (_, s1) =>
        if env.faults.publish then TaskOutcome.fail s1 (.other "publish failure")
        else
          ⟨s1, ⟨200, "Comment deleted"⟩,
            [⟨Room.task comment.task, "comment:deleted", .commentId comment._id⟩]⟩

end commentController

/-! ## Task and comment requests and runs -/

/-- A request to one of the mutating task and comment routes (`routes/tasks.js`,
`routes/comments.js`); path parameters are well-formed ObjectIds. -/
inductive TaskRequest where
  | createTask (body : TaskBody)
  | updateTask (id : ObjectId) (body : TaskBody)
  | deleteTask (id : ObjectId)
  | markComplete (id : ObjectId)
  | createComment (taskId : ObjectId) (content : Option String) (parentComment : Option ObjectId)
  | updateComment (id : ObjectId) (content : Option String)
  | deleteComment (id : ObjectId)
  deriving DecidableEq, Repr

/-- One authenticated task or comment request as the router sees it. -/
structure TaskCall where
  env : Env
  user : User
  request : TaskRequest
  deriving DecidableEq, Repr

/-- Dispatch of one task or comment request to its handler. -/
def taskHandle (enums : TaskEnums) (s : TaskStore) (c : TaskCall) : TaskOutcome :=
  match c.request with
  | .createTask body => taskController.createTask enums s c.env c.user body
  | .updateTask id body => taskController.updateTask enums s c.env c.user id body
  | .deleteTask id => taskController.deleteTask s c.user id
  | .markComplete id => taskController.markComplete enums s c.env id
  | .createComment taskId content parentComment =>
    commentController.createComment s c.env c.user taskId content parentComment
  | .updateComment id content => commentController.updateComment s c.env c.user id content
  | .deleteComment id => commentController.deleteComment s c.env c.user id

/-- The task store after a sequence of requests handled one at a time. -/
def taskRun (enums : TaskEnums) (s : TaskStore) (cs : List TaskCall) : TaskStore :=
  cs.foldl (fun st c => (taskHandle enums st c).store) s

/-- The task stores reachable from the empty one by task and comment requests. -/
inductive TaskReachable (enums : TaskEnums) : TaskStore → Prop where
  | empty : TaskReachable enums TaskStore.empty
  | step (s : TaskStore) (c : TaskCall) :
    TaskReachable enums s → TaskReachable enums (taskHandle enums s c).store

/-- The invariant of section 3 on one task: `completedAt` is non-null exactly
when the status is completed. -/
def Task.completedAtOk (t : Task) : Prop :=
  t.completedAt ≠ none ↔ t.status = taskStatus.COMPLETED

instance (t : Task) : Decidable t.completedAtOk := by
  unfold Task.completedAtOk; infer_instance

/-! ## Sample data: tasks and comments -/

/-- The enum values the tests use. -/
def sampleEnums : TaskEnums :=
  ⟨["open", "in-progress", "completed"], ["low", "medium", "high", "urgent"]⟩

/-- User A has created the task Write (id 0), assigned to user B. -/
def taskStoreA : TaskStore :=
  taskRun sampleEnums TaskStore.empty
    [⟨sampleEnv, userA, .createTask { TaskBody.none with
        title := some "Write", assignee := some (some 2) }⟩]

/-- The task Write of `taskStoreA`. -/
def taskWrite : Task :=
  ⟨0, "Write", "", "open", "medium", none, none, 1, some 2, none, [], false⟩

/-- The store of `taskStoreA` after user B has commented on the task (comment id 1). -/
def commentedStore : TaskStore :=
  taskRun sampleEnums taskStoreA
    [⟨sampleEnv, userB, .createComment 0 (some "Draft done") none⟩]

/-- The comment of `commentedStore`. -/
def commentDraft : Comment := ⟨1, "Draft done", 0, 2, none, false, false⟩

/-- A task created as completed, reopened by its creator, then marked complete. -/
def toggledStore : TaskStore :=
  taskRun sampleEnums TaskStore.empty
    [⟨sampleEnv, userA, .createTask { TaskBody.none with
        title := some "Ship", status := some "completed" }⟩,
     ⟨lateEnv, userA, .updateTask 0 { TaskBody.none with status := some "open" }⟩,
     ⟨lateEnv, userB, .markComplete 0⟩]

/-- The task of `toggledStore` after the three requests. -/
def taskShip : Task :=
  ⟨0, "Ship", "", "completed", "medium", none, some 700000000, 1, none, none, [], false⟩

/-! ## List requests: pagination and the comment listing -/

/-- Modelled from the spec: `shared/constants/pagination.js` is absent from the
sources and the specification gives no values, so the three constants the list
handlers read are a parameter of the model. -/
structure PaginationConstants where
  DEFAULT_PAGE : Int
  DEFAULT_LIMIT : Int
  MAX_LIMIT : Int
  deriving DecidableEq, Repr

/-- The value of a character as a digit in the radix, if it is one. -/
def digitValue (radix : Nat) (c : Char) : Option Nat :=
  let n := c.toNat
  let v : Option Nat :=
    if 48 ≤ n ∧ n ≤ 57 then some (n - 48)
    else if 97 ≤ n ∧ n ≤ 122 then some (n - 87)
    else if 65 ≤ n ∧ n ≤ 90 then some (n - 55)
    else none
  v.filter (fun d => d < radix)

/-- The longest prefix of digits of the radix, as a number; `none` when the
prefix is empty. -/
def parseDigits (radix : Nat) (cs : List Char) : Option Nat :=
  match (cs.map (digitValue radix)).takeWhile Option.isSome with
  | [] => none
  | ds => some (ds.foldl (fun acc d => acc * radix + d.getD 0) 0)

/-- A JavaScript number as the list handlers compute with it: `NaN`, an
infinity, or a finite double whose value is an integer (`-0` is not told from 0,
the two are equal, falsy alike and written alike in JSON). -/
inductive JsNumber where
  | nan
  | posInf
  | negInf
  | int (value : Int)
  deriving DecidableEq, Repr

/-- The number of low bits a natural number has beyond 53 significant ones: the
least `e` with `n / 2 ^ e < 2 ^ 53`.  The first argument bounds the number of
halvings; the number itself is enough. -/
def excessBits : Nat → Nat → Nat
  | 0, _ => 0
  | fuel + 1, n => if n < 2 ^ 53 then 0 else excessBits fuel (n / 2) + 1

/-- The double nearest to a natural number, ties to the even significand.  Up to
2^53 every natural number is a double; beyond it a double has 53 significant
bits; `none` is the overflow to `Infinity` of a number that rounds to 2^1024 or
more, which is a significand of 53 bits shifted by 972 places or the significand
2^53 shifted by 971. -/
def roundToDouble (n : Nat) : Option Nat :=
  if n ≤ 2 ^ 53 then some n
  else
    let e := excessBits n n
    let q := n / 2 ^ e
    let r := n % 2 ^ e
    let half := 2 ^ (e - 1)
    let m := if half < r ∨ (r = half ∧ q % 2 = 1) then q + 1 else q
    if 972 ≤ e ∨ (e = 971 ∧ m = 2 ^ 53) then none else some (m * 2 ^ e)

/-- The JavaScript number for an integer: the nearest double. -/
def JsNumber.ofInt (n : Int) : JsNumber :=
  match roundToDouble n.natAbs with
  | some m => .int (if n < 0 then - (m : Int) else (m : Int))
  | none => if n < 0 then .negInf else .posInf

/-- JavaScript truthiness of a number: `NaN` and 0 are falsy. -/
def JsNumber.truthy (a : JsNumber) : Bool :=
  a ≠ .nan && a ≠ .int 0

/-- The expression `Math.min(a, b)`. -/
def JsNumber.min : JsNumber → JsNumber → JsNumber
  | .nan, _ => .nan
  | _, .nan => .nan
  | .negInf, _ => .negInf
  | _, .negInf => .negInf
  | .posInf, b => b
  | a, .posInf => a
  | .int a, .int b => .int (Min.min a b)

/-- The expression `a - 1`. -/
def JsNumber.minusOne : JsNumber → JsNumber
  | .int a => .ofInt (a - 1)
  | a => a

/-- The infinity of the sign. -/
def JsNumber.infinity (positive : Bool) : JsNumber :=
  if positive then .posInf else .negInf

/-- The expression `a * b`: the product rounded to a double; an infinity times 0
is `NaN`. -/
def JsNumber.mul : JsNumber → JsNumber → JsNumber
  | .nan, _ => .nan
  | _, .nan => .nan
  | .int a, .int b => .ofInt (a * b)
  | .int a, .posInf => if a = 0 then .nan else .infinity (0 < a)
  | .int a, .negInf => if a = 0 then .nan else .infinity (a < 0)
  | .posInf, .int b => if b = 0 then .nan else .infinity (0 < b)
  | .negInf, .int b => if b = 0 then .nan else .infinity (b < 0)
  | .posInf, .posInf => .posInf
  | .negInf, .negInf => .posInf
  | .posInf, .negInf => .negInf
  | .negInf, .posInf => .negInf

/-- JavaScript `parseInt(v)` on a string: leading white space, an optional sign,
an optional `0x` prefix, then the longest prefix of digits, whose value is
rounded to a double; no digit gives `NaN`. -/
def jsParseInt (v : String) : JsNumber :=
  let cs := v.data.dropWhile isJsWhitespace
  let negative := cs.head? = some '-'
  let cs := if cs.head? = some '-' ∨ cs.head? = some '+' then cs.tail else cs
  let magnitude :=
    match cs with
    | '0' :: 'x' :: rest => parseDigits 16 rest
    | '0' :: 'X' :: rest => parseDigits 16 rest
    | _ => parseDigits 10 cs
  match magnitude with
  | some n => .ofInt (if negative then - (n : Int) else (n : Int))
  | none => .nan

/-- The expression `parseInt(req.query.x) || fallback`: a missing parameter and a
string `parseInt` cannot read give `NaN`, and `NaN` and 0 are falsy. -/
def queryInt (q : Option String) (fallback : Int) : JsNumber :=
  match q with
  | some v => if (jsParseInt v).truthy then jsParseInt v else .ofInt fallback
  | none => .ofInt fallback

/-- The expression `Math.ceil(total / limit)` for a count `total`.  A division
by 0 gives `NaN` for no document and `Infinity` otherwise, a division by an
infinity gives 0.  For a count below 2^53, which every count of stored documents
is, the quotient rounded to a double lies strictly between the same two integers
as the exact quotient, so the ceiling is the exact one. -/
def mathCeilDiv (total : Nat) (limit : JsNumber) : JsNumber :=
  match limit with
  | .nan => .nan
  | .posInf => .int 0
  | .negInf => .int 0
  | .int l =>
    if l = 0 then (if total = 0 then .nan else .posInf)
    else if 0 < l then .ofInt (((total : Int) + l - 1) / l)
    else .ofInt (- ((total : Int) / (- l)))

/-- The `pagination` object of a list response, with the `skip` handed to the
query; `res.json` writes a `NaN` or an infinity as `null`. -/
structure PageInfo where
  page : JsNumber
  limit : JsNumber
  skip : JsNumber
  total : Nat
  pages : JsNumber
  deriving DecidableEq, Repr

/-- The pagination block every list handler starts and ends with (`getTasks`,
`getMyTasks`, `getTeams`, `getTeamTasks`, `getComments`): page and limit from the
query string, the skip, and the page count for the total the count query gave. -/
def pagination (c : PaginationConstants) (page limit : Option String) (total : Nat) :
    PageInfo :=
  let page := queryInt page c.DEFAULT_PAGE
  let limit := JsNumber.min (queryInt limit c.DEFAULT_LIMIT) (.ofInt c.MAX_LIMIT)
  let skip := page.minusOne.mul limit
  ⟨page, limit, skip, total, mathCeilDiv total limit⟩

/-- The 64-bit integer the database reads from the number sent as `skip` or
`limit`: `NaN` is 0 and a number outside the range is the nearest bound. -/
def JsNumber.toLong : JsNumber → Int
  | .nan => 0
  | .posInf => 2 ^ 63 - 1
  | .negInf => - 2 ^ 63
  | .int a => Max.max (- 2 ^ 63) (Min.min a (2 ^ 63 - 1))

/-- The part of the query string `getTasks` builds its filter from; `none` is a
parameter that is absent, and an empty string is falsy as well. -/
structure TaskQuery where
  page : Option String
  limit : Option String
  status : Option String
  priority : Option String
  assignee : Option ObjectId
  team : Option ObjectId
  assignedToMe : Option String
  createdByMe : Option String
  search : Option String
  deriving DecidableEq, Repr

/-- A query parameter that is present and truthy. -/
def truthy (q : Option String) : Option String :=
  q.filter (fun v => v ≠ "")

/-- The filter `getTasks` hands to `find` and `countDocuments`.  The text index
search of MongoDB is the parameter `textMatch`. -/
def taskController.getTasksFilter (textMatch : String → Task → Bool) (user : User)
    (q : TaskQuery) (t : Task) : Bool :=
  let assignee : Option ObjectId :=
    if q.assignedToMe = some "true" then some user._id else q.assignee
  t.isArchived = false &&
    (match truthy q.status with
      | some v => t.status = v
      | none => true) &&
    (match truthy q.priority with
      | some v => t.priority = v
      | none => true) &&
    (match assignee with
      | some a => t.assignee = some a
      | none => true) &&
    (match q.team with
      | some team => t.team = some team
      | none => true) &&
    (if q.createdByMe = some "true" then t.creator = user._id else true) &&
    (match truthy q.search with
      | some v => textMatch v t
      | none => true)

/-- The `pagination` object of the response of `getTasks`; the page of tasks
itself, whose order depends on the requested sort, is left out. -/
def taskController.getTasksPagination (c : PaginationConstants)
    (textMatch : String → Task → Bool) (s : TaskStore) (user : User) (q : TaskQuery) :
    PageInfo :=
  pagination c q.page q.limit
    (s.tasks.filter (taskController.getTasksFilter textMatch user q)).length

/-- The query `Comment.find(query).skip(skip).limit(limit).sort({ createdAt: -1 })`
of `getComments`.  Insertion order stands for `createdAt`; a negative skip is
rejected by the database, a limit of 0 is no limit and a negative limit counts
as its absolute value. -/
def commentService.findComments (s : TaskStore) (taskId : ObjectId) (skip limit : Int) :
    Except AppError (List Comment) :=
  let found := (s.comments.filter
    (fun c => c.task = taskId ∧ c.isDeleted = false ∧ c.parentComment = none)).reverse
  if skip < 0 then .error (.other "Skip value must be non-negative")
  else if limit = 0 then .ok (found.drop skip.toNat)
  else .ok ((found.drop skip.toNat).take limit.natAbs)

def commentService.countComments (s : TaskStore) (taskId : ObjectId) : Nat :=
  (s.comments.filter
    (fun c => c.task = taskId ∧ c.isDeleted = false ∧ c.parentComment = none)).length

/-- The query of `findReplies`, sorted by `createdAt` ascending. -/
def commentService.findReplies (s : TaskStore) (parentCommentId : ObjectId) : List Comment :=
  s.comments.filter (fun c => c.parentComment = some parentCommentId ∧ c.isDeleted = false)

/-- The body of the response of `getComments`: the comments, each with its
replies, and the pagination object. -/
structure CommentListing where
  comments : List (Comment × List Comment)
  pagination : PageInfo
  deriving DecidableEq, Repr

/-- The handler `getComments`; the database reads the skip and the limit as
64-bit integers, and an error goes to the error handler. -/
def commentController.getComments (c : PaginationConstants) (s : TaskStore)
    (taskId : ObjectId) (page limit : Option String) : Except AppError CommentListing :=
  let info := pagination c page limit (commentService.countComments s taskId)
  match commentService.findComments s taskId info.skip.toLong info.limit.toLong with
  | .error e => .error e
  | .ok comments =>
    .ok ⟨comments.map (fun comment => (comment, commentService.findReplies s comment._id)),
      info⟩

/-- The three constants are integers up to 2^53 in absolute value, which a
number literal of the constants file denotes exactly. -/
def PaginationConstants.Exact (c : PaginationConstants) : Prop :=
  c.DEFAULT_PAGE.natAbs ≤ 2 ^ 53 ∧ c.DEFAULT_LIMIT.natAbs ≤ 2 ^ 53 ∧
    c.MAX_LIMIT.natAbs ≤ 2 ^ 53

instance (c : PaginationConstants) : Decidable c.Exact := by
  unfold PaginationConstants.Exact; infer_instance

/-- Constants for the examples. -/
def sampleConstants : PaginationConstants := ⟨1, 10, 100⟩

/-- The store of `commentedStore` after user A has replied to the comment of B
(reply id 2) and user B has replied to that reply (id 3). -/
def nestedStore : TaskStore :=
  taskRun sampleEnums commentedStore
    [⟨sampleEnv, userA, .createComment 0 (some "Looks good") (some 1)⟩,
     ⟨sampleEnv, userB, .createComment 0 (some "Thanks") (some 2)⟩]

/-- The reply of user A in `nestedStore`. -/
def replyLooksGood : Comment := ⟨2, "Looks good", 0, 1, some 1, false, false⟩

/-- The events published, in order, by a sequence of task and comment requests
handled one at a time. -/
def taskEvents (enums : TaskEnums) (s : TaskStore) : List TaskCall → List Published
  | [] => []
  | c :: cs =>
    (taskHandle enums s c).events ++ taskEvents enums (taskHandle enums s c).store cs

/-- The number of `task:assigned` events sent to the room of a user. -/
def assignedCount (events : List Published) (user : ObjectId) : Nat :=
  (events.filter (fun e => e.room = Room.user user ∧ e.event = "task:assigned")).length

/-- The scenario of section 8: A creates a task with no assignee, assigns it to
B, then reassigns it to C. -/
def reassignScenario : List TaskCall :=
  [⟨sampleEnv, userA, .createTask { TaskBody.none with title := some "Review" }⟩,
   ⟨sampleEnv, userA, .updateTask 0 { TaskBody.none with assignee := some (some 2) }⟩,
   ⟨sampleEnv, userA, .updateTask 0 { TaskBody.none with assignee := some (some 3) }⟩]

/-! ## Publication faults -/

/-- The ambient inputs of a request whose `io.to(room).emit` call throws. -/
def Env.publishFails (env : Env) : Env :=
  { env with faults := { env.faults with publish := true } }

/-- The ambient inputs of a request whose `io.to(room).emit` call returns. -/
def Env.publishWorks (env : Env) : Env :=
  { env with faults := { env.faults with publish := false } }

/-- The invitation of `invitedStore` accepted by user B while the publish step
throws. -/
def publishFailsEnv : Env := sampleEnv.publishFails

/-! ## sockets/socketHandler.js -/

/-- A connection that passed the `io.use` authentication: the user id the
middleware stored on the socket, and the application rooms the socket is in.
The private room socket.io names after the socket id is not part of the list. -/
structure Socket where
  userId : String
  rooms : List String
  deriving DecidableEq, Repr

/-- The call `socket.join(room)`: rooms form a set. -/
def Socket.join (socket : Socket) (room : String) : Socket :=
  if room ∈ socket.rooms then socket else { socket with rooms := socket.rooms ++ [room] }

/-- The call `socket.leave(room)`. -/
def Socket.leave (socket : Socket) (room : String) : Socket :=
  { socket with rooms := socket.rooms.filter (fun r => r ≠ room) }

/-- The messages a client can send to the handlers registered on a connection. -/
inductive SocketMessage where
  | taskJoin (taskId : String)
  | taskLeave (taskId : String)
  | teamJoin (teamId : String)
  | teamLeave (teamId : String)
  | disconnect
  deriving DecidableEq, Repr

namespace socketHandler

/-- The body of `io.on('connection', ...)` before any message arrives. -/
def connection (userId : String) : Socket :=
  Socket.join ⟨userId, []⟩ ("user:" ++ userId)

/-- The handlers registered with `socket.on`. -/
def onMessage (socket : Socket) : SocketMessage → Socket
  | .taskJoin taskId => socket.join ("task:" ++ taskId)
  | .taskLeave taskId => socket.leave ("task:" ++ taskId)
  | .teamJoin teamId => socket.join ("team:" ++ teamId)
  | .teamLeave teamId => socket.leave ("team:" ++ teamId)
  | .disconnect => socket

/-- A connection of the user after a sequence of messages. -/
def session (userId : String) (messages : List SocketMessage) : Socket :=
  messages.foldl onMessage (connection userId)

end socketHandler

/-! ## Concurrent requests: the awaited calls of `acceptInvitation` as steps -/

/-- Where a run of the `acceptInvitation` handler stands between two of its
awaited storage calls: before `findValidInvitation`; after it and the email
check; after `findMembership` found no row; after `createTeamMember`; and after
the response. -/
inductive AcceptPoint where
  | start
  | resolved (invitation : TeamInvitation) (team : Team)
  | checked (invitation : TeamInvitation) (team : Team)
  | inserted (invitation : TeamInvitation) (team : Team)
  | finished (response : Response) (events : List Emitted)
  deriving DecidableEq, Repr

/-- One awaited call of the `acceptInvitation` handler together with the
synchronous code up to the next one; the branches are those of
`teamController.acceptInvitation`. -/
def acceptStep (s : Store) (env : Env) (user : User) (token : String) :
    AcceptPoint → Store × AcceptPoint
  | .start =>
    match teamService.findValidInvitation s token env.now with
    | none => (s, .finished ⟨400, "Invalid or expired invitation"⟩ [])
    | some (invitation, populated) =>
      if invitation.email ≠ user.email then
        (s, .finished ⟨400, "Invitation is for a different email"⟩ [])
      else
        match populated with
        | none => (s, .finished (errorHandler (.other "Cannot read properties of null")) [])
        | some team => (s, .resolved invitation team)
  | .resolved invitation team =>
    match teamService.findMembership s team._id user._id with
    | some _ => (s, .finished ⟨400, "Already a member of this team"⟩ [])
    | none => (s, .checked invitation team)
  | .checked invitation team =>
    if env.faults.memberCreate then
      (s, .finished (errorHandler (.other "storage failure")) [])
    else
      match teamService.createTeamMember s team._id user._id invitation.role with
      | .error e => (s, .finished (errorHandler e) [])
      | .ok (_, s1) => (s1, .inserted invitation team)
  | .inserted invitation team =>
    if env.faults.invitationSave then
      (s, .finished (errorHandler (.other "storage failure")) [])
    else
      match teamService.acceptInvitation s env invitation with
      | .error e => (s, .finished (errorHandler e) [])
      | .ok s2 =>
        if env.faults.publish then
          (s2, .finished (errorHandler (.other "publish failure")) [])
        else
          (s2, .finished ⟨200, "Joined team successfully"⟩
            [⟨Room.team team._id, "team:member-joined", team._id, user⟩])
  | .finished response events => (s, .finished response events)

/-- One `acceptInvitation` request: its ambient inputs, its user, its token. -/
structure AcceptRequest where
  env : Env
  user : User
  token : String
  deriving DecidableEq, Repr

/-- Whose storage call runs next: the first request, the second request, or
some other request that inserts a membership row with `TeamMember.create`. -/
inductive Turn where
  | first
  | second
  | insert (team user : ObjectId) (role : TeamRole)
  deriving DecidableEq, Repr

/-- The shared store and the points the two requests have reached. -/
structure Race where
  store : Store
  first : AcceptPoint
  second : AcceptPoint
  deriving DecidableEq, Repr

/-- One storage call of the interleaving. -/
def raceStep (a b : AcceptRequest) (r : Race) : Turn → Race
  | .first =>
    let next := acceptStep r.store a.env a.user a.token r.first
    { r with store := next.1, first := next.2 }
  | .second =>
    let next := acceptStep r.store b.env b.user b.token r.second
    { r with store := next.1, second := next.2 }
  | .insert team user role =>
    match TeamMember.create r.store team user role with
    | .ok (_, s1) => { r with store := s1 }
    | .error _ => r

/-- The interleaving of two `acceptInvitation` requests, and of other
membership inserts, that a list of turns describes. -/
def race (a b : AcceptRequest) (s : Store) (turns : List Turn) : Race :=
  turns.foldl (raceStep a b) ⟨s, .start, .start⟩

/-- The number of awaited calls a run of the handler has behind it. -/
def AcceptPoint.rank : AcceptPoint → Nat
  | .start => 0
  | .resolved _ _ => 1
  | .checked _ _ => 2
  | .inserted _ _ => 3
  | .finished _ _ => 4

/-- The invitation a run holds in memory between two calls. -/
def AcceptPoint.invitation? : AcceptPoint → Option TeamInvitation
  | .resolved invitation _ => some invitation
  | .checked invitation _ => some invitation
  | .inserted invitation _ => some invitation
  | _ => none

/-- The response of a run that has finished. -/
def AcceptPoint.response? : AcceptPoint → Option Response
  | .finished response _ => some response
  | _ => none

/-- Every stored invitation references a stored team. -/
def Store.InvitationTeams (s : Store) : Prop :=
  ∀ i ∈ s.invitations, ∃ t ∈ s.teams, t._id = i.team

/-- User B sends the request to accept the invitation K. -/
def acceptK : AcceptRequest := ⟨sampleEnv, userB, "K"⟩

/-- The two runs take their calls in turn. -/
def alternating : List Turn :=
  [.first, .second, .first, .second, .first, .second, .first, .second]

/-- What a run between two calls can rely on: an invitation it holds has its id
stored and its team stored, and a response it has given is a 200 or a 400. -/
def AcceptPoint.Sound (s : Store) (point : AcceptPoint) : Prop :=
  (∀ inv, point.invitation? = some inv →
    (∃ i ∈ s.invitations, i._id = inv._id) ∧ ∃ t ∈ s.teams, t._id = inv.team) ∧
  (∀ response, point.response? = some response →
    response.status = 200 ∨ response.status = 400)

/-! ## Resolving an invitation -/

/-- What `findValidInvitation` returns is a stored invitation with the token,
unexpired and unaccepted, together with the stored team it references, if any. -/
theorem findValidInvitation_some {s : Store} {token : String} {now : Date}
    {inv : TeamInvitation} {populated : Option Team}
    (h : teamService.findValidInvitation s token now = some (inv, populated)) :
    inv ∈ s.invitations ∧ inv.token = token ∧ now < inv.expiresAt ∧ inv.acceptedAt = none ∧
      populated = s.teams.find? (fun t => t._id = inv.team) := by
  unfold teamService.findValidInvitation at h
  split at h
  · rename_i i hi
    simp only [Option.some.injEq, Prod.mk.injEq] at h
    obtain ⟨rfl, rfl⟩ := h
    have hp := List.find?_some hi
    simp only [decide_eq_true_eq] at hp
    exact ⟨List.mem_of_find?_eq_some hi, hp.1, hp.2.1, hp.2.2, rfl⟩
  · simp at h

/-- The team a populated invitation carries has the id the invitation references. -/
theorem findValidInvitation_team {s : Store} {token : String} {now : Date}
    {inv : TeamInvitation} {team : Team}
    (h : teamService.findValidInvitation s token now = some (inv, some team)) :
    team._id = inv.team ∧ team ∈ s.teams := by
  have h5 := (findValidInvitation_some h).2.2.2.2
  have hp := List.find?_some h5.symm
  simp only [decide_eq_true_eq] at hp
  exact ⟨hp, List.mem_of_find?_eq_some h5.symm⟩

/-- No usable row for the token means `findValidInvitation` finds nothing. -/
theorem findValidInvitation_eq_none {s : Store} {token : String} {now : Date}
    (h : ∀ i ∈ s.invitations, i.token = token → i.expiresAt ≤ now ∨ i.acceptedAt ≠ none) :
    teamService.findValidInvitation s token now = none := by
  unfold teamService.findValidInvitation
  have hf : s.invitations.find?
      (fun i => i.token = token ∧ now < i.expiresAt ∧ i.acceptedAt = none) = none := by
    rw [List.find?_eq_none]
    intro i hi
    simp only [decide_eq_true_eq, not_and]
    intro ht hlt hacc
    rcases h i hi ht with h1 | h1
    · exact absurd hlt (Nat.not_lt.mpr h1)
    · exact h1 hacc
  rw [hf]

/-- C3: `findValidInvitation(token)` returns an invitation if and only if some
stored invitation has that token, has `acceptedAt = null` and has `expiresAt`
strictly later than now; the invitation it returns is such a stored invitation;
and when every stored invitation with the token has `expiresAt ≤ now` (equality
included) nothing is returned. -/
theorem findValidInvitation_spec (s : Store) (token : String) (now : Date) :
    ((teamService.findValidInvitation s token now).isSome ↔
      ∃ i ∈ s.invitations, i.token = token ∧ i.acceptedAt = none ∧ now < i.expiresAt) ∧
    (∀ inv populated, teamService.findValidInvitation s token now = some (inv, populated) →
      inv ∈ s.invitations ∧ inv.token = token ∧ inv.acceptedAt = none ∧ now < inv.expiresAt) ∧
    ((∀ i ∈ s.invitations, i.token = token → i.expiresAt ≤ now) →
      teamService.findValidInvitation s token now = none) := by
  refine ⟨⟨?_, ?_⟩, ?_, ?_⟩
  · intro h
    obtain ⟨⟨inv, populated⟩, hr⟩ := Option.isSome_iff_exists.mp h
    have := findValidInvitation_some hr
    exact ⟨inv, this.1, this.2.1, this.2.2.2.1, this.2.2.1⟩
  · rintro ⟨i, hi, ht, hacc, hlt⟩
    cases hr : teamService.findValidInvitation s token now with
    | some r => rfl
    | none =>
      exfalso
      unfold teamService.findValidInvitation at hr
      split at hr
      · simp at hr
      · rename_i hnone
        rw [List.find?_eq_none] at hnone
        exact hnone i hi (by simp [ht, hacc, hlt])
  · intro inv populated hr
    have := findValidInvitation_some hr
    exact ⟨this.1, this.2.1, this.2.2.2.1, this.2.2.1⟩
  · intro h
    exact findValidInvitation_eq_none (fun i hi ht => Or.inl (h i hi ht))

/-! ## Accepting an invitation -/

theorem findMembership_eq_none {s : Store} {team user : ObjectId} :
    teamService.findMembership s team user = none ↔ ¬ s.hasMember team user := by
  unfold teamService.findMembership Store.hasMember
  rw [List.find?_eq_none]
  simp

theorem findMembership_some {s : Store} {team user : ObjectId} {m : TeamMember}
    (h : teamService.findMembership s team user = some m) :
    m ∈ s.members ∧ m.team = team ∧ m.user = user := by
  unfold teamService.findMembership at h
  have hp := List.find?_some h
  simp only [decide_eq_true_eq] at hp
  exact ⟨List.mem_of_find?_eq_some h, hp.1, hp.2⟩

theorem createTeamMember_of_not_member {s : Store} {team user : ObjectId} (role : TeamRole)
    (h : teamService.findMembership s team user = none) :
    teamService.createTeamMember s team user role =
      .ok (⟨s.nextId, team, user, role⟩, s.insertMember team user role) := by
  unfold teamService.createTeamMember TeamMember.create Store.insertMember
  unfold teamService.findMembership at h
  rw [List.find?_eq_none] at h
  have : s.members.any (fun m => decide (m.team = team ∧ m.user = user)) = false := by
    rw [List.any_eq_false]
    exact h
  rw [if_neg (by rw [this]; exact Bool.false_ne_true)]

theorem acceptInvitation_service_of_mem {s : Store} (env : Env) {inv : TeamInvitation}
    (h : inv ∈ s.invitations) :
    teamService.acceptInvitation s env inv = .ok (s.markAccepted inv env.now) := by
  unfold teamService.acceptInvitation TeamInvitation.save Store.markAccepted
  have : s.invitations.any (fun i => decide (i._id = inv._id)) = true := by
    rw [List.any_eq_true]
    exact ⟨inv, h, by simp⟩
  rw [if_pos this]

/-- The runs of `acceptInvitation`: a rejection that writes nothing, or the
membership write followed, unless a call throws, by the invitation write and the
publish call. -/
theorem acceptInvitation_cases (s : Store) (env : Env) (user : User) (token : String) :
    (∃ r, r.status ≠ 200 ∧ teamController.acceptInvitation s env user token = ⟨s, r, []⟩) ∨
    ∃ inv team, teamService.findValidInvitation s token env.now = some (inv, some team) ∧
      inv.email = user.email ∧ teamService.findMembership s inv.team user._id = none ∧
      env.faults.memberCreate = false ∧
      ((env.faults.invitationSave = true ∧
          teamController.acceptInvitation s env user token =
            ⟨s.insertMember inv.team user._id inv.role, ⟨500, "storage failure"⟩, []⟩) ∨
        (env.faults.invitationSave = false ∧ env.faults.publish = true ∧
          teamController.acceptInvitation s env user token =
            ⟨(s.insertMember inv.team user._id inv.role).markAccepted inv env.now,
              ⟨500, "publish failure"⟩, []⟩) ∨
        (env.faults.invitationSave = false ∧ env.faults.publish = false ∧
          teamController.acceptInvitation s env user token =
            ⟨(s.insertMember inv.team user._id inv.role).markAccepted inv env.now,
              ⟨200, "Joined team successfully"⟩, [memberJoined inv.team user]⟩)) := by
  cases hv : teamService.findValidInvitation s token env.now with
  | none =>
    left
    exact ⟨⟨400, "Invalid or expired invitation"⟩, by decide, by
      simp [teamController.acceptInvitation, hv, Outcome.reply]⟩
  | some r =>
    obtain ⟨inv, populated⟩ := r
    by_cases he : inv.email = user.email
    · cases populated with
      | none =>
        left
        exact ⟨⟨500, "Cannot read properties of null"⟩, by decide, by
          simp [teamController.acceptInvitation, hv, he, Outcome.fail, errorHandler]⟩
      | some team =>
        have hid := (findValidInvitation_team hv).1
        have hmem := (findValidInvitation_some hv).1
        cases hm : teamService.findMembership s inv.team user._id with
        | some m =>
          left
          exact ⟨⟨400, "Already a member of this team"⟩, by decide, by
            simp [teamController.acceptInvitation, hv, he, hid, hm, Outcome.reply]⟩
        | none =>
          by_cases hf1 : env.faults.memberCreate = true
          · left
            exact ⟨⟨500, "storage failure"⟩, by decide, by
              simp [teamController.acceptInvitation, hv, he, hid, hm, hf1, Outcome.fail,
                errorHandler]⟩
          · right
            have hf1 : env.faults.memberCreate = false := by simpa using hf1
            refine ⟨inv, team, rfl, he, hm, hf1, ?_⟩
            have hc := createTeamMember_of_not_member inv.role hm
            have hmem1 : inv ∈ (s.insertMember inv.team user._id inv.role).invitations := hmem
            have hs := acceptInvitation_service_of_mem env hmem1
            by_cases hf2 : env.faults.invitationSave = true
            · left
              refine ⟨hf2, ?_⟩
              simp [teamController.acceptInvitation, hv, he, hid, hm, hf1, hf2, hc,
                Outcome.fail, errorHandler]
            · right
              have hf2 : env.faults.invitationSave = false := by simpa using hf2
              by_cases hf3 : env.faults.publish = true
              · left
                refine ⟨hf2, hf3, ?_⟩
                simp [teamController.acceptInvitation, hv, he, hid, hm, hf1, hf2, hf3, hc, hs,
                  Outcome.fail, errorHandler]
              · right
                have hf3 : env.faults.publish = false := by simpa using hf3
                refine ⟨hf2, hf3, ?_⟩
                simp [teamController.acceptInvitation, hv, he, hid, hm, hf1, hf2, hf3, hc, hs,
                  memberJoined]
    · left
      exact ⟨⟨400, "Invitation is for a different email"⟩, by decide, by
        simp [teamController.acceptInvitation, hv, he, Outcome.reply]⟩

/-- C2: whatever makes a token unusable (no invitation row with it, a row that
has expired, a row already accepted), `acceptInvitation` gives the same response,
400 with the message Invalid or expired invitation, leaves the store unchanged
and emits no event; so two such runs cannot be told apart by their responses. -/
theorem acceptInvitation_unusable_uniform (s₁ s₂ : Store) (env₁ env₂ : Env)
    (user₁ user₂ : User) (token : String)
    (h₁ : ∀ i ∈ s₁.invitations, i.token = token → i.expiresAt ≤ env₁.now ∨ i.acceptedAt ≠ none)
    (h₂ : ∀ i ∈ s₂.invitations, i.token = token → i.expiresAt ≤ env₂.now ∨ i.acceptedAt ≠ none) :
    teamController.acceptInvitation s₁ env₁ user₁ token =
        ⟨s₁, ⟨400, "Invalid or expired invitation"⟩, []⟩ ∧
      teamController.acceptInvitation s₂ env₂ user₂ token =
        ⟨s₂, ⟨400, "Invalid or expired invitation"⟩, []⟩ ∧
      (teamController.acceptInvitation s₁ env₁ user₁ token).response =
        (teamController.acceptInvitation s₂ env₂ user₂ token).response := by
  have e₁ : teamController.acceptInvitation s₁ env₁ user₁ token =
      ⟨s₁, ⟨400, "Invalid or expired invitation"⟩, []⟩ := by
    simp [teamController.acceptInvitation, findValidInvitation_eq_none h₁, Outcome.reply]
  have e₂ : teamController.acceptInvitation s₂ env₂ user₂ token =
      ⟨s₂, ⟨400, "Invalid or expired invitation"⟩, []⟩ := by
    simp [teamController.acceptInvitation, findValidInvitation_eq_none h₂, Outcome.reply]
  exact ⟨e₁, e₂, by rw [e₁, e₂]⟩

/-- The expired invitation K and the accepted invitation K get the same answer. -/
theorem acceptInvitation_unusable_uniform_witness :
    (teamController.acceptInvitation invitedStore lateEnv userB "K").response =
      (teamController.acceptInvitation joinedStore sampleEnv userB "K").response :=
  (acceptInvitation_unusable_uniform invitedStore joinedStore lateEnv sampleEnv userB userB "K"
    (by decide) (by decide)).2.2

/-- C4: for a valid invitation whose team is stored, a caller with the
invitation's email and no membership row in the team, and a run in which no call
throws, `acceptInvitation` responds 200 Joined team successfully; afterwards the
membership rows are the old ones plus one row (invitation.team, caller) with the
invitation's role, every row of the caller in that team has that role, the
invitation is stored with a non-null `acceptedAt`, and exactly one event,
team:member-joined to the room of the team, has been emitted. -/
theorem acceptInvitation_success (s : Store) (env : Env) (user : User) (token : String)
    (inv : TeamInvitation) (team : Team)
    (hv : teamService.findValidInvitation s token env.now = some (inv, some team))
    (he : user.email = inv.email) (hno : ¬ s.hasMember inv.team user._id)
    (hf : env.faults = Faults.none) :
    (teamController.acceptInvitation s env user token).response =
        ⟨200, "Joined team successfully"⟩ ∧
      (teamController.acceptInvitation s env user token).store.members =
        s.members ++ [⟨s.nextId, inv.team, user._id, inv.role⟩] ∧
      (∀ m ∈ (teamController.acceptInvitation s env user token).store.members,
        m.team = inv.team → m.user = user._id → m.role = inv.role) ∧
      { inv with acceptedAt := some env.now } ∈
        (teamController.acceptInvitation s env user token).store.invitations ∧
      (∀ i ∈ (teamController.acceptInvitation s env user token).store.invitations,
        i._id = inv._id → i.acceptedAt ≠ none) ∧
      (teamController.acceptInvitation s env user token).events =
        [⟨Room.team inv.team, "team:member-joined", inv.team, user⟩] := by
  have hm := findMembership_eq_none.mpr hno
  have hmem := (findValidInvitation_some hv).1
  rcases acceptInvitation_cases s env user token with ⟨r, _, hr⟩ | ⟨inv', team', hv', _, _, _, hc⟩
  · exfalso
    have hid := (findValidInvitation_team hv).1
    have : teamController.acceptInvitation s env user token =
        ⟨(s.insertMember inv.team user._id inv.role).markAccepted inv env.now,
          ⟨200, "Joined team successfully"⟩, [memberJoined inv.team user]⟩ := by
      have hc := createTeamMember_of_not_member inv.role hm
      have hmem1 : inv ∈ (s.insertMember inv.team user._id inv.role).invitations := hmem
      have hs := acceptInvitation_service_of_mem env hmem1
      simp [teamController.acceptInvitation, hv, he, hid, hm, hf, Faults.none, hc, hs,
        memberJoined]
    rw [this] at hr
    have := congrArg Outcome.events hr
    simp at this
  · rw [hv] at hv'
    simp only [Option.some.injEq, Prod.mk.injEq] at hv'
    obtain ⟨rfl, rfl⟩ := hv'
    rw [hf] at hc
    simp only [Faults.none, Bool.false_eq_true, false_and, false_or, true_and] at hc
    rw [hc]
    refine ⟨rfl, ?_, ?_, ?_, ?_, ?_⟩
    · simp [Store.markAccepted, Store.insertMember]
    · intro m hmm ht hu
      simp only [Store.markAccepted, Store.insertMember, List.mem_append,
        List.mem_singleton] at hmm
      rcases hmm with hmm | rfl
      · exact absurd ⟨m, hmm, ht, hu⟩ hno
      · rfl
    · simp only [Store.markAccepted, Store.insertMember, List.mem_map]
      exact ⟨inv, hmem, by simp⟩
    · intro i hi hid
      simp only [Store.markAccepted, Store.insertMember, List.mem_map] at hi
      obtain ⟨j, _, hj⟩ := hi
      split at hj
      · rw [← hj]; simp
      · rename_i hne
        rw [← hj] at hid
        exact absurd hid hne
    · simp [memberJoined]

/-- User B accepts the invitation K of the sample store and joins as a member. -/
theorem acceptInvitation_success_witness :
    (teamController.acceptInvitation invitedStore sampleEnv userB "K").response =
      ⟨200, "Joined team successfully"⟩ :=
  (acceptInvitation_success invitedStore sampleEnv userB "K" invitationK teamEng
    (by decide) (by decide) (by decide) (by decide)).1

/-- C5, as stated, fails: from the sample store, where user B is not a member of
team 0 and the invitation K is open, the run in which saving the invitation
throws ends with the membership row of B created and the invitation still open. -/
theorem acceptInvitation_partial_state :
    ¬ invitedStore.hasMember 0 2 ∧ invitedStore.hasOpenInvitation "K" ∧
      (teamController.acceptInvitation invitedStore saveFailsEnv userB "K").store.hasMember 0 2 ∧
      (teamController.acceptInvitation invitedStore saveFailsEnv userB "K").store.hasOpenInvitation
        "K" := by
  decide

/-- C5, amended: `acceptInvitation` makes its two writes in order with no
rollback.  Every run leaves the store unchanged (neither write), or has created
the membership row of a caller who had none; in the latter case the invitation
is marked accepted as well unless saving it throws, and then the membership row
stays and the invitation is left as it was.  A run in which creating the row
throws writes nothing, and the invitations never change without the membership
row being created. -/
theorem acceptInvitation_writes (s : Store) (env : Env) (user : User) (token : String) :
    ((teamController.acceptInvitation s env user token).store = s ∨
      ∃ inv ∈ s.invitations, inv.token = token ∧ ¬ s.hasMember inv.team user._id ∧
        env.faults.memberCreate = false ∧
        ((env.faults.invitationSave = true ∧
            (teamController.acceptInvitation s env user token).store =
              s.insertMember inv.team user._id inv.role) ∨
          (env.faults.invitationSave = false ∧
            (teamController.acceptInvitation s env user token).store =
              (s.insertMember inv.team user._id inv.role).markAccepted inv env.now))) ∧
    (env.faults.memberCreate = true →
      (teamController.acceptInvitation s env user token).store = s) ∧
    ((teamController.acceptInvitation s env user token).store.members = s.members →
      (teamController.acceptInvitation s env user token).store.invitations = s.invitations) := by
  rcases acceptInvitation_cases s env user token with
    ⟨r, _, hr⟩ | ⟨inv, team, hv, _, hm, hf1, hc⟩
  · rw [hr]
    exact ⟨Or.inl rfl, fun _ => rfl, fun _ => rfl⟩
  · have hv' := findValidInvitation_some hv
    have hno := findMembership_eq_none.mp hm
    refine ⟨Or.inr ⟨inv, hv'.1, hv'.2.1, hno, hf1, ?_⟩, ?_, ?_⟩
    · rcases hc with ⟨h2, hc⟩ | ⟨h2, _, hc⟩ | ⟨h2, _, hc⟩
      · exact Or.inl ⟨h2, by rw [hc]⟩
      · exact Or.inr ⟨h2, by rw [hc]⟩
      · exact Or.inr ⟨h2, by rw [hc]⟩
    · intro h
      rw [hf1] at h
      exact absurd h Bool.false_ne_true
    · intro h
      exfalso
      have hlen := congrArg List.length h
      rcases hc with ⟨_, hc⟩ | ⟨_, _, hc⟩ | ⟨_, _, hc⟩ <;>
        simp [hc, Store.insertMember, Store.markAccepted] at hlen

/-- C6: for a valid invitation and a caller whose email differs from the
invitation's stored email, `acceptInvitation` responds 400 Invitation is for a
different email, leaves the store unchanged (no membership row is created, the
invitation keeps `acceptedAt = null` and still resolves) and emits no event. -/
theorem acceptInvitation_email_mismatch (s : Store) (env : Env) (user : User) (token : String)
    (inv : TeamInvitation) (populated : Option Team)
    (hv : teamService.findValidInvitation s token env.now = some (inv, populated))
    (hne : user.email ≠ inv.email) :
    teamController.acceptInvitation s env user token =
        ⟨s, ⟨400, "Invitation is for a different email"⟩, []⟩ ∧
      inv ∈ (teamController.acceptInvitation s env user token).store.invitations ∧
      inv.acceptedAt = none ∧
      teamService.findValidInvitation (teamController.acceptInvitation s env user token).store
        token env.now = some (inv, populated) := by
  have e : teamController.acceptInvitation s env user token =
      ⟨s, ⟨400, "Invitation is for a different email"⟩, []⟩ := by
    simp [teamController.acceptInvitation, hv, Ne.symm hne, Outcome.reply]
  have hv' := findValidInvitation_some hv
  rw [e]
  exact ⟨rfl, hv'.1, hv'.2.2.2.1, hv⟩

/-- User C, whose email is not the invited one, is turned away with token K. -/
theorem acceptInvitation_email_mismatch_witness :
    teamController.acceptInvitation invitedStore sampleEnv userC "K" =
      ⟨invitedStore, ⟨400, "Invitation is for a different email"⟩, []⟩ :=
  (acceptInvitation_email_mismatch invitedStore sampleEnv userC "K" invitationK (some teamEng)
    (by decide) (by decide)).1

/-- C7: for a valid invitation whose team is stored and whose email is the
caller's, if a membership row for (invitation.team, caller) already exists then
`acceptInvitation` responds 400 Already a member of this team and leaves the
store unchanged: every membership row, the caller's included, stays as it was,
no row is added and the invitation keeps `acceptedAt = null`. -/
theorem acceptInvitation_already_member (s : Store) (env : Env) (user : User) (token : String)
    (inv : TeamInvitation) (team : Team)
    (hv : teamService.findValidInvitation s token env.now = some (inv, some team))
    (he : user.email = inv.email) (hm : s.hasMember inv.team user._id) :
    teamController.acceptInvitation s env user token =
        ⟨s, ⟨400, "Already a member of this team"⟩, []⟩ ∧
      (teamController.acceptInvitation s env user token).store.members = s.members ∧
      inv ∈ (teamController.acceptInvitation s env user token).store.invitations ∧
      inv.acceptedAt = none := by
  have hid := (findValidInvitation_team hv).1
  have hv' := findValidInvitation_some hv
  have e : teamController.acceptInvitation s env user token =
      ⟨s, ⟨400, "Already a member of this team"⟩, []⟩ := by
    cases hf : teamService.findMembership s inv.team user._id with
    | none => exact absurd hm (findMembership_eq_none.mp hf)
    | some m => simp [teamController.acceptInvitation, hv, he, hid, hf, Outcome.reply]
  rw [e]
  exact ⟨rfl, rfl, hv'.1, hv'.2.2.2.1⟩

/-- The owner A, holding an invitation to the own team, is told so and stays owner. -/
theorem acceptInvitation_already_member_witness :
    teamController.acceptInvitation selfInvitedStore sampleEnv userA "K" =
      ⟨selfInvitedStore, ⟨400, "Already a member of this team"⟩, []⟩ :=
  (acceptInvitation_already_member selfInvitedStore sampleEnv userA "K" selfInvitationK teamEng
    (by decide) (by decide) (by decide)).1

/-! ## What each handler leaves in the store -/

theorem findTeamByIdRaw_some {s : Store} {id : ObjectId} {team : Team}
    (h : teamService.findTeamByIdRaw s id = some team) : team ∈ s.teams ∧ team._id = id := by
  unfold teamService.findTeamByIdRaw at h
  have hp := List.find?_some h
  simp only [decide_eq_true_eq] at hp
  exact ⟨List.mem_of_find?_eq_some h, hp⟩

theorem createTeam_store (s : Store) (user : User) (name description : Option String) :
    (teamController.createTeam s user name description).store = s ∨
    ∃ t : Team, t._id = s.nextId ∧ t.owner = user._id ∧
      ((s.hasMember s.nextId user._id ∧
          (teamController.createTeam s user name description).store =
            { s with teams := s.teams ++ [t], nextId := s.nextId + 1 }) ∨
        (¬ s.hasMember s.nextId user._id ∧
          (teamController.createTeam s user name description).store =
            Store.insertMember { s with teams := s.teams ++ [t], nextId := s.nextId + 1 }
              s.nextId user._id TeamRole.owner)) := by
  unfold teamController.createTeam teamService.createTeam Team.create
  simp only
  split
  · rename_i e he
    split at he
    · simp at he
    · left; rfl
  · rename_i team s1 he
    split at he
    · simp only [Except.ok.injEq, Prod.mk.injEq] at he
      obtain ⟨rfl, rfl⟩ := he
      right
      refine ⟨⟨s.nextId, jsTrim (name.getD ""), jsTrim (description.getD ""), user._id, none,
        true⟩, rfl, rfl, ?_⟩
      unfold teamService.createTeamMember TeamMember.create
      simp only
      split
      · rename_i e he2
        split at he2
        · rename_i hany
          left
          refine ⟨?_, rfl⟩
          rw [List.any_eq_true] at hany
          obtain ⟨m, hm, hp⟩ := hany
          simp only [decide_eq_true_eq] at hp
          exact ⟨m, hm, hp⟩
        · simp at he2
      · rename_i m s2 he2
        split at he2
        · simp at he2
        · rename_i hany
          simp only [Except.ok.injEq, Prod.mk.injEq] at he2
          right
          refine ⟨?_, by rw [← he2.2]; rfl⟩
          rintro ⟨m, hm, hp⟩
          apply hany
          rw [List.any_eq_true]
          exact ⟨m, hm, by simpa using hp⟩
    · simp at he

theorem updateTeam_service_ok {s : Store} {team : Team} {name description avatar : Option String}
    {t1 : Team} {s1 : Store}
    (h : teamService.updateTeam s team name description avatar = .ok (t1, s1)) :
    t1._id = team._id ∧ t1.owner = team.owner ∧
      s1 = { s with teams := s.teams.map (fun x => if x._id = t1._id then t1 else x) } := by
  unfold teamService.updateTeam at h
  simp only at h
  cases hs : Team.save s (teamService.assignUpdates team name description avatar) with
  | error e => rw [hs] at h; simp at h
  | ok s2 =>
    rw [hs] at h
    simp only [Except.ok.injEq, Prod.mk.injEq] at h
    obtain ⟨rfl, rfl⟩ := h
    refine ⟨rfl, rfl, ?_⟩
    unfold Team.save at hs
    split at hs
    · simp only [Except.ok.injEq] at hs
      exact hs.symm
    · simp at hs

theorem updateTeam_store (s : Store) (user : User) (id : ObjectId)
    (name description avatar : Option String) :
    (teamController.updateTeam s user id name description avatar).store = s ∨
    ∃ t ∈ s.teams, ∃ t' : Team, t'._id = t._id ∧ t'.owner = t.owner ∧
      (teamController.updateTeam s user id name description avatar).store =
        { s with teams := s.teams.map (fun x => if x._id = t'._id then t' else x) } := by
  cases hteam : teamService.findTeamByIdRaw s id with
  | none => left; simp [teamController.updateTeam, hteam, Outcome.reply]
  | some team =>
    cases hm : teamService.findMembership s team._id user._id with
    | none => left; simp [teamController.updateTeam, hteam, hm, Outcome.reply]
    | some membership =>
      by_cases hr : membership.role = TeamRole.owner ∨ membership.role = TeamRole.admin
      · cases hu : teamService.updateTeam s team name description avatar with
        | error e => left; simp [teamController.updateTeam, hteam, hm, hr, hu, Outcome.fail]
        | ok r =>
          obtain ⟨t1, s1⟩ := r
          have := updateTeam_service_ok hu
          right
          refine ⟨team, (findTeamByIdRaw_some hteam).1, t1, this.1, this.2.1, ?_⟩
          rw [← this.2.2]
          simp [teamController.updateTeam, hteam, hm, hr, hu]
      · left; simp [teamController.updateTeam, hteam, hm, hr, Outcome.reply]

theorem deleteTeam_store (s : Store) (user : User) (id : ObjectId) :
    (teamController.deleteTeam s user id).store = s ∨
    ∃ t ∈ s.teams, t._id = id ∧ t.owner = user._id ∧
      (teamController.deleteTeam s user id).store =
        { s with teams := s.teams.filter (fun x => x._id ≠ id),
                 members := s.members.filter (fun m => m.team ≠ id),
                 invitations := s.invitations.filter (fun i => i.team ≠ id) } := by
  unfold teamController.deleteTeam
  split
  · left; rfl
  · rename_i team hteam
    have ht := findTeamByIdRaw_some hteam
    split
    · left; rfl
    · rename_i ho
      right
      refine ⟨team, ht.1, ht.2, by simpa using ho, ?_⟩
      simp [teamService.deleteTeam, Team.deleteOne, TeamInvitation.deleteMany,
        TeamMember.deleteMany, ht.2]

theorem TeamInvitation.create_ok {s : Store} {lowerCased : String} {team : ObjectId}
    {email role token : String} {invitedBy : ObjectId} {expiresAt : Date}
    {doc : TeamInvitation} {s1 : Store}
    (h : TeamInvitation.create s lowerCased team email role token invitedBy expiresAt =
      .ok (doc, s1)) :
    doc._id = s.nextId ∧ doc.team = team ∧ doc.role ≠ TeamRole.owner ∧ doc.token = token ∧
      doc.acceptedAt = none ∧ doc.expiresAt = expiresAt ∧ doc.invitedBy = invitedBy ∧
      (∀ i ∈ s.invitations, i.token ≠ token) ∧
      s1 = { s with invitations := s.invitations ++ [doc], nextId := s.nextId + 1 } := by
  unfold TeamInvitation.create at h
  simp only at h
  cases hr : TeamRole.ofString? role with
  | none => rw [hr] at h; simp at h
  | some r =>
    rw [hr] at h
    cases r with
    | owner => simp at h
    | admin =>
      simp only at h
      split at h
      · simp at h
      · split at h
        · simp at h
        · rename_i hany
          simp only [Except.ok.injEq, Prod.mk.injEq] at h
          obtain ⟨rfl, rfl⟩ := h
          refine ⟨rfl, rfl, by simp, rfl, rfl, rfl, rfl, ?_, rfl⟩
          intro i hi
          simp only [Bool.not_eq_true, List.any_eq_false, decide_eq_true_eq] at hany
          exact hany i hi
    | member =>
      simp only at h
      split at h
      · simp at h
      · split at h
        · simp at h
        · rename_i hany
          simp only [Except.ok.injEq, Prod.mk.injEq] at h
          obtain ⟨rfl, rfl⟩ := h
          refine ⟨rfl, rfl, by simp, rfl, rfl, rfl, rfl, ?_, rfl⟩
          intro i hi
          simp only [Bool.not_eq_true, List.any_eq_false, decide_eq_true_eq] at hany
          exact hany i hi

theorem inviteMember_store (s : Store) (env : Env) (user : User) (id : ObjectId)
    (email : String) (role : Option String) :
    (teamController.inviteMember s env user id email role).store = s ∨
    ∃ t ∈ s.teams, ∃ inv : TeamInvitation, inv._id = s.nextId ∧ inv.team = t._id ∧
      inv.role ≠ TeamRole.owner ∧ inv.token = env.uuid ∧ inv.acceptedAt = none ∧
      (∀ i ∈ s.invitations, i.token ≠ env.uuid) ∧
      (teamController.inviteMember s env user id email role).store =
        { s with invitations := s.invitations ++ [inv], nextId := s.nextId + 1 } := by
  cases hteam : teamService.findTeamByIdRaw s id with
  | none => left; simp [teamController.inviteMember, hteam, Outcome.reply]
  | some team =>
    cases hm : teamService.findMembership s team._id user._id with
    | none => left; simp [teamController.inviteMember, hteam, hm, Outcome.reply]
    | some membership =>
      by_cases hr : membership.role = TeamRole.owner ∨ membership.role = TeamRole.admin
      · cases hc : TeamInvitation.create s env.lowerCased team._id email
            (role.getD TeamRole.member.toString)
            env.uuid user._id (env.now + INVITATION_EXPIRES_IN) with
        | error e =>
          left
          simp [teamController.inviteMember, teamService.createInvitation, hteam, hm, hr, hc,
            Outcome.fail]
        | ok r =>
          obtain ⟨doc, s1⟩ := r
          have := TeamInvitation.create_ok hc
          right
          refine ⟨team, (findTeamByIdRaw_some hteam).1, doc, this.1, this.2.1, this.2.2.1,
            this.2.2.2.1, this.2.2.2.2.1, this.2.2.2.2.2.2.2.1, ?_⟩
          rw [← this.2.2.2.2.2.2.2.2]
          simp [teamController.inviteMember, teamService.createInvitation, hteam, hm, hr, hc]
      · left; simp [teamController.inviteMember, hteam, hm, hr, Outcome.reply]

theorem removeMember_store (s : Store) (user : User) (id memberId : ObjectId) :
    (teamController.removeMember s user id memberId).store = s ∨
    ∃ m ∈ s.members, m.team = id ∧ m.user = memberId ∧ m.role ≠ TeamRole.owner ∧
      (teamController.removeMember s user id memberId).store =
        { s with members := s.members.filter (fun x => x._id ≠ m._id) } := by
  cases hteam : teamService.findTeamByIdRaw s id with
  | none => left; simp [teamController.removeMember, hteam, Outcome.reply]
  | some team =>
    have hid := (findTeamByIdRaw_some hteam).2
    cases hm : teamService.findMembership s team._id user._id with
    | none => left; simp [teamController.removeMember, hteam, hm, Outcome.reply]
    | some membership =>
      by_cases hr : membership.role = TeamRole.owner ∨ membership.role = TeamRole.admin
      · cases ht : teamService.findMembership s team._id memberId with
        | none => left; simp [teamController.removeMember, hteam, hm, hr, ht, Outcome.reply]
        | some target =>
          by_cases ho : target.role = TeamRole.owner
          · left; simp [teamController.removeMember, hteam, hm, hr, ht, ho, Outcome.reply]
          · right
            have h3 := findMembership_some ht
            refine ⟨target, h3.1, by rw [h3.2.1, hid], h3.2.2, ho, ?_⟩
            simp [teamController.removeMember, hteam, hm, hr, ht, ho, teamService.deleteMember,
              TeamMember.deleteOne]
      · left; simp [teamController.removeMember, hteam, hm, hr, Outcome.reply]

theorem leaveTeam_store (s : Store) (user : User) (id : ObjectId) :
    (teamController.leaveTeam s user id).store = s ∨
    ∃ t ∈ s.teams, t._id = id ∧ t.owner ≠ user._id ∧
      (teamController.leaveTeam s user id).store =
        { s with members := s.members.eraseP (fun m => m.team = id ∧ m.user = user._id) } := by
  cases hteam : teamService.findTeamByIdRaw s id with
  | none => left; simp [teamController.leaveTeam, hteam, Outcome.reply]
  | some team =>
    have ht := findTeamByIdRaw_some hteam
    by_cases ho : team.owner = user._id
    · left; simp [teamController.leaveTeam, hteam, ho, Outcome.reply]
    · right
      refine ⟨team, ht.1, ht.2, ho, ?_⟩
      simp [teamController.leaveTeam, hteam, ho, teamService.findAndDeleteMember,
        TeamMember.findOneAndDelete, ht.2]

/-! ## Membership uniqueness -/

theorem membersUnique_insertMember {s : Store} {team user : ObjectId} (role : TeamRole)
    (h : s.MembersUnique) (hno : ¬ s.hasMember team user) :
    (s.insertMember team user role).MembersUnique := by
  unfold Store.MembersUnique Store.insertMember
  simp only
  rw [List.pairwise_append]
  refine ⟨h, List.pairwise_singleton _ _, ?_⟩
  intro a ha b hb
  rw [List.mem_singleton] at hb
  subst hb
  intro hab
  exact hno ⟨a, ha, hab.1, hab.2⟩

theorem membersUnique_of_sublist {s s1 : Store} (h : s.MembersUnique)
    (hsub : s1.members.Sublist s.members) : s1.MembersUnique :=
  List.Pairwise.sublist hsub h

/-- Every handler keeps the (team, user) pairs of the membership rows distinct. -/
theorem handle_membersUnique (s : Store) (c : Call) (h : s.MembersUnique) :
    (handle s c).store.MembersUnique := by
  obtain ⟨env, user, request⟩ := c
  cases request with
  | createTeam name description =>
    rcases createTeam_store s user name description with e | ⟨t, _, _, ⟨_, e⟩ | ⟨hno, e⟩⟩
    · simp only [handle]; rw [e]; exact h
    · simp only [handle]; rw [e]; exact h
    · simp only [handle]; rw [e]
      have h1 : Store.MembersUnique ⟨s.teams ++ [t], s.members, s.invitations, s.nextId + 1⟩ := h
      have h2 : ¬ Store.hasMember ⟨s.teams ++ [t], s.members, s.invitations, s.nextId + 1⟩
          s.nextId user._id := hno
      exact membersUnique_insertMember _ h1 h2
  | updateTeam id name description avatar =>
    rcases updateTeam_store s user id name description avatar with e | ⟨t, _, t', _, _, e⟩
    · simp only [handle]; rw [e]; exact h
    · simp only [handle]; rw [e]; exact h
  | deleteTeam id =>
    rcases deleteTeam_store s user id with e | ⟨t, _, _, _, e⟩
    · simp only [handle]; rw [e]; exact h
    · simp only [handle]; rw [e]
      exact membersUnique_of_sublist h (List.filter_sublist _)
  | inviteMember id email role =>
    rcases inviteMember_store s env user id email role with e | ⟨t, _, inv, _, _, _, _, _, _, e⟩
    · simp only [handle]; rw [e]; exact h
    · simp only [handle]; rw [e]; exact h
  | acceptInvitation token =>
    rcases acceptInvitation_cases s env user token with
      ⟨r, _, e⟩ | ⟨inv, team, _, _, hm, _, ⟨_, e⟩ | ⟨_, _, e⟩ | ⟨_, _, e⟩⟩
    · simp only [handle]; rw [e]; exact h
    · simp only [handle]; rw [e]
      exact membersUnique_insertMember _ h (findMembership_eq_none.mp hm)
    · simp only [handle]; rw [e]
      exact membersUnique_insertMember _ h (findMembership_eq_none.mp hm)
    · simp only [handle]; rw [e]
      exact membersUnique_insertMember _ h (findMembership_eq_none.mp hm)
  | removeMember id memberId =>
    rcases removeMember_store s user id memberId with e | ⟨m, _, _, _, _, e⟩
    · simp only [handle]; rw [e]; exact h
    · simp only [handle]; rw [e]
      exact membersUnique_of_sublist h (List.filter_sublist _)
  | leaveTeam id =>
    rcases leaveTeam_store s user id with e | ⟨t, _, _, _, e⟩
    · simp only [handle]; rw [e]; exact h
    · simp only [handle]; rw [e]
      exact membersUnique_of_sublist h (List.eraseP_sublist _)

theorem reachable_membersUnique {s : Store} (h : Reachable s) : s.MembersUnique := by
  induction h with
  | empty => exact List.Pairwise.nil
  | step s c _ ih => exact handle_membersUnique s c ih

theorem rowsOf_length_le_one {s : Store} (h : s.MembersUnique) (team user : ObjectId) :
    (s.rowsOf team user).length ≤ 1 := by
  unfold Store.rowsOf
  unfold Store.MembersUnique at h
  generalize s.members = l at h
  induction l with
  | nil => simp
  | cons a l ih =>
    rw [List.pairwise_cons] at h
    by_cases hp : a.team = team ∧ a.user = user
    · have hnil : l.filter (fun m => decide (m.team = team ∧ m.user = user)) = [] := by
        rw [List.filter_eq_nil_iff]
        intro b hb hq
        simp only [decide_eq_true_eq] at hq
        exact h.1 b hb ⟨hp.1.trans hq.1.symm, hp.2.trans hq.2.symm⟩
      rw [List.filter_cons, if_pos (by simpa using hp), hnil]
      simp
    · have := ih h.2
      simpa [List.filter_cons, hp] using this

/-- C8: in every store reachable from the empty one by createTeam, updateTeam,
inviteMember, acceptInvitation, removeMember, leaveTeam and deleteTeam requests
handled one at a time, for every team and every user at most one membership row
has that (team, user) pair, and any two rows with the same pair are the same row. -/
theorem reachable_membership_unique (s : Store) (h : Reachable s) (team user : ObjectId) :
    (s.rowsOf team user).length ≤ 1 ∧
      ∀ m₁ ∈ s.members, ∀ m₂ ∈ s.members, m₁.team = team → m₁.user = user →
        m₂.team = team → m₂.user = user → m₁ = m₂ := by
  have hlen := rowsOf_length_le_one (reachable_membersUnique h) team user
  refine ⟨hlen, ?_⟩
  intro m₁ h₁ m₂ h₂ ht₁ hu₁ ht₂ hu₂
  have hm₁ : m₁ ∈ s.rowsOf team user := by
    unfold Store.rowsOf; rw [List.mem_filter]; exact ⟨h₁, by simp [ht₁, hu₁]⟩
  have hm₂ : m₂ ∈ s.rowsOf team user := by
    unfold Store.rowsOf; rw [List.mem_filter]; exact ⟨h₂, by simp [ht₂, hu₂]⟩
  match hl : s.rowsOf team user, hlen, hm₁, hm₂ with
  | [], _, hm₁, _ => simp at hm₁
  | [x], _, hm₁, hm₂ =>
    rw [List.mem_singleton] at hm₁ hm₂
    rw [hm₁, hm₂]
  | _ :: _ :: _, hlen, _, _ => simp at hlen

/-! ## Consistency of the store is kept by every write -/

theorem nodup_map_append_singleton {α β : Type} {f : α → β} {l : List α} {a : α}
    (h : (l.map f).Nodup) (ha : ∀ x ∈ l, f x ≠ f a) : ((l ++ [a]).map f).Nodup := by
  rw [List.map_append, List.nodup_append]
  refine ⟨h, by simp, ?_⟩
  intro b hb hb'
  simp only [List.map_cons, List.map_nil, List.mem_singleton] at hb'
  rw [List.mem_map] at hb
  obtain ⟨x, hx, rfl⟩ := hb
  exact ha x hx hb'

theorem nodup_map_of_sublist {α β : Type} {f : α → β} {l₁ l₂ : List α}
    (hsub : l₁.Sublist l₂) (h : (l₂.map f).Nodup) : (l₁.map f).Nodup :=
  List.Nodup.sublist (List.Sublist.map f hsub) h

theorem filter_eraseP_of_disjoint {α : Type} (p q : α → Bool) (l : List α)
    (h : ∀ x ∈ l, q x = true → p x = false) : (l.eraseP q).filter p = l.filter p := by
  induction l with
  | nil => rfl
  | cons a l ih =>
    by_cases hq : q a = true
    · rw [List.eraseP_cons_of_pos hq, List.filter_cons, h a (List.mem_cons_self _ _) hq]
      simp
    · rw [List.eraseP_cons_of_neg hq, List.filter_cons, List.filter_cons,
        ih (fun x hx => h x (List.mem_cons_of_mem _ hx))]

theorem filter_filter_of_imp {α : Type} (p q : α → Bool) (l : List α)
    (h : ∀ x ∈ l, p x = true → q x = true) : (l.filter q).filter p = l.filter p := by
  rw [List.filter_filter]
  apply List.filter_congr
  intro x hx
  cases hp : p x with
  | false => rfl
  | true => simp [h x hx hp]

theorem consistent_empty : Store.empty.Consistent where
  teamIds := by intro t ht; cases ht
  teamsNodup := List.nodup_nil
  memberIds := by intro m hm; cases hm
  membersNodup := List.nodup_nil
  invitationIds := by intro i hi; cases hi
  invitationsNodup := List.nodup_nil
  invitationRole := by intro i hi; cases hi
  invitationTeam := by intro i hi; cases hi
  tokens := List.nodup_nil
  owner := by intro t ht; cases ht

theorem consistent_createTeam {s : Store} (h : s.Consistent) (t : Team) (user : ObjectId)
    (hid : t._id = s.nextId) (ho : t.owner = user) :
    (Store.insertMember { s with teams := s.teams ++ [t], nextId := s.nextId + 1 }
      s.nextId user TeamRole.owner).Consistent where
  teamIds := by
    intro x hx
    simp only [Store.insertMember, List.mem_append, List.mem_singleton] at hx ⊢
    rcases hx with hx | rfl
    · have := h.teamIds x hx; simp only [ObjectId] at *; omega
    · simp only [ObjectId] at *; omega
  teamsNodup := by
    simp only [Store.insertMember]
    apply nodup_map_append_singleton h.teamsNodup
    intro x hx
    have := h.teamIds x hx
    simp only [ObjectId] at *
    omega
  memberIds := by
    intro m hm
    simp only [Store.insertMember, List.mem_append, List.mem_singleton] at hm ⊢
    rcases hm with hm | rfl
    · have := h.memberIds m hm; simp only [ObjectId] at *; omega
    · simp only [ObjectId] at *; omega
  membersNodup := by
    simp only [Store.insertMember]
    apply nodup_map_append_singleton h.membersNodup
    intro x hx
    have := h.memberIds x hx
    simp only
    simp only [ObjectId] at *
    omega
  invitationIds := by
    intro i hi
    have := h.invitationIds i hi
    simp only [Store.insertMember]
    simp only [ObjectId] at *
    omega
  invitationsNodup := h.invitationsNodup
  invitationRole := h.invitationRole
  invitationTeam := by
    intro i hi
    obtain ⟨x, hx, hxi⟩ := h.invitationTeam i hi
    exact ⟨x, by simp [Store.insertMember, hx], hxi⟩
  tokens := h.tokens
  owner := by
    intro x hx
    simp only [Store.insertMember, List.mem_append, List.mem_singleton] at hx
    simp only [Store.ownerRows, Store.insertMember, List.filter_append, List.map_append]
    rcases hx with hx | rfl
    · have hlt := h.teamIds x hx
      have hne : ¬ (s.nextId = x._id) := by simp only [ObjectId] at *; omega
      have := h.owner x hx
      simp only [Store.ownerRows] at this
      rw [this]
      simp [List.filter_cons, hne]
    · have hnil : s.members.filter
          (fun m => decide (m.team = x._id ∧ m.role = TeamRole.owner)) = [] := by
        rw [List.filter_eq_nil_iff]
        intro m hm hq
        simp only [decide_eq_true_eq] at hq
        have := (h.memberIds m hm).2
        simp only [ObjectId] at *
        omega
      rw [hnil]
      simp [List.filter_cons, hid, ho]

theorem consistent_updateTeam {s : Store} (h : s.Consistent) {t : Team} (ht : t ∈ s.teams)
    (t' : Team) (hid : t'._id = t._id) (ho : t'.owner = t.owner) :
    Store.Consistent { s with teams := s.teams.map (fun x => if x._id = t'._id then t' else x) } := by
  have hids : (s.teams.map (fun x => if x._id = t'._id then t' else x)).map (fun x => x._id) =
      s.teams.map (fun x => x._id) := by
    rw [List.map_map]
    apply List.map_congr_left
    intro x _
    simp only [Function.comp]
    split
    · rename_i hx; exact hx.symm
    · rfl
  have hsame : ∀ y ∈ s.teams.map (fun x => if x._id = t'._id then t' else x),
      ∃ x ∈ s.teams, x._id = y._id ∧ x.owner = y.owner := by
    intro y hy
    rw [List.mem_map] at hy
    obtain ⟨x, hx, rfl⟩ := hy
    refine ⟨x, hx, ?_⟩
    split
    · rename_i hxid
      have : x = t := List.inj_on_of_nodup_map h.teamsNodup hx ht (hxid.trans hid)
      subst this
      exact ⟨hid.symm, ho.symm⟩
    · exact ⟨rfl, rfl⟩
  refine ⟨?_, ?_, h.memberIds, h.membersNodup, h.invitationIds, h.invitationsNodup,
    h.invitationRole, ?_, h.tokens, ?_⟩
  · intro y hy
    obtain ⟨x, hx, hxy, _⟩ := hsame y hy
    have := h.teamIds x hx
    rw [← hxy]
    exact this
  · simp only
    rw [hids]
    exact h.teamsNodup
  · intro i hi
    obtain ⟨x, hx, hxi⟩ := h.invitationTeam i hi
    refine ⟨if x._id = t'._id then t' else x, List.mem_map_of_mem _ hx, ?_⟩
    split
    · rename_i hxid; rw [← hxid]; exact hxi
    · exact hxi
  · intro y hy
    obtain ⟨x, hx, hxy, hxo⟩ := hsame y hy
    have := h.owner x hx
    simp only [Store.ownerRows] at this ⊢
    rw [← hxy, ← hxo]
    exact this

theorem consistent_deleteTeam {s : Store} (h : s.Consistent) (id : ObjectId) :
    Store.Consistent { s with teams := s.teams.filter (fun x => x._id ≠ id),
                              members := s.members.filter (fun m => m.team ≠ id),
                              invitations := s.invitations.filter (fun i => i.team ≠ id) } where
  teamIds := fun t ht => h.teamIds t (List.mem_of_mem_filter ht)
  teamsNodup := nodup_map_of_sublist (List.filter_sublist _) h.teamsNodup
  memberIds := fun m hm => h.memberIds m (List.mem_of_mem_filter hm)
  membersNodup := nodup_map_of_sublist (List.filter_sublist _) h.membersNodup
  invitationIds := fun i hi => h.invitationIds i (List.mem_of_mem_filter hi)
  invitationsNodup := nodup_map_of_sublist (List.filter_sublist _) h.invitationsNodup
  invitationRole := fun i hi => h.invitationRole i (List.mem_of_mem_filter hi)
  invitationTeam := by
    intro i hi
    simp only [List.mem_filter, decide_eq_true_eq] at hi
    obtain ⟨t, ht, hti⟩ := h.invitationTeam i hi.1
    refine ⟨t, ?_, hti⟩
    simp only [List.mem_filter, decide_eq_true_eq]
    exact ⟨ht, by rw [hti]; exact hi.2⟩
  tokens := nodup_map_of_sublist (List.filter_sublist _) h.tokens
  owner := by
    intro t ht
    simp only [List.mem_filter, decide_eq_true_eq] at ht
    have := h.owner t ht.1
    simp only [Store.ownerRows] at this ⊢
    rw [filter_filter_of_imp]
    · exact this
    · intro m _ hp
      simp only [decide_eq_true_eq] at hp ⊢
      rw [hp.1]
      exact ht.2

theorem consistent_invite {s : Store} (h : s.Consistent) {t : Team} (ht : t ∈ s.teams)
    (inv : TeamInvitation) (hid : inv._id = s.nextId) (hteam : inv.team = t._id)
    (hrole : inv.role ≠ TeamRole.owner) (htok : ∀ i ∈ s.invitations, i.token ≠ inv.token) :
    Store.Consistent { s with invitations := s.invitations ++ [inv], nextId := s.nextId + 1 } where
  teamIds := by
    intro x hx
    have := h.teamIds x hx
    simp only [ObjectId] at *
    omega
  teamsNodup := h.teamsNodup
  memberIds := by
    intro m hm
    have := h.memberIds m hm
    simp only [ObjectId] at *
    omega
  membersNodup := h.membersNodup
  invitationIds := by
    intro i hi
    simp only [List.mem_append, List.mem_singleton] at hi
    rcases hi with hi | rfl
    · have := h.invitationIds i hi
      simp only [ObjectId] at *
      omega
    · simp only [ObjectId] at *
      omega
  invitationsNodup := by
    apply nodup_map_append_singleton h.invitationsNodup
    intro x hx
    have := h.invitationIds x hx
    simp only [ObjectId] at *
    omega
  invitationRole := by
    intro i hi
    simp only [List.mem_append, List.mem_singleton] at hi
    rcases hi with hi | rfl
    · exact h.invitationRole i hi
    · exact hrole
  invitationTeam := by
    intro i hi
    simp only [List.mem_append, List.mem_singleton] at hi
    rcases hi with hi | rfl
    · exact h.invitationTeam i hi
    · exact ⟨t, ht, hteam.symm⟩
  tokens := nodup_map_append_singleton h.tokens htok
  owner := h.owner

theorem consistent_insertMember {s : Store} (h : s.Consistent) {inv : TeamInvitation}
    (hinv : inv ∈ s.invitations) (user : ObjectId) :
    (s.insertMember inv.team user inv.role).Consistent where
  teamIds := by
    intro x hx
    have := h.teamIds x hx
    simp only [Store.insertMember, ObjectId] at *
    omega
  teamsNodup := h.teamsNodup
  memberIds := by
    intro m hm
    simp only [Store.insertMember, List.mem_append, List.mem_singleton] at hm ⊢
    rcases hm with hm | rfl
    · have := h.memberIds m hm
      simp only [ObjectId] at *
      omega
    · obtain ⟨t, ht, hti⟩ := h.invitationTeam inv hinv
      have := h.teamIds t ht
      simp only [ObjectId] at *
      omega
  membersNodup := by
    simp only [Store.insertMember]
    apply nodup_map_append_singleton h.membersNodup
    intro x hx
    have := h.memberIds x hx
    simp only [ObjectId] at *
    omega
  invitationIds := by
    intro i hi
    have := h.invitationIds i hi
    simp only [Store.insertMember, ObjectId] at *
    omega
  invitationsNodup := h.invitationsNodup
  invitationRole := h.invitationRole
  invitationTeam := h.invitationTeam
  tokens := h.tokens
  owner := by
    intro t ht
    have := h.owner t ht
    have hr := h.invitationRole inv hinv
    simp only [Store.ownerRows, Store.insertMember, List.filter_append, List.map_append] at this ⊢
    rw [this]
    simp [List.filter_cons, hr]

theorem markAccepted_eq {s : Store} (h : s.Consistent) {inv : TeamInvitation}
    (hinv : inv ∈ s.invitations) (now : Date) :
    (s.markAccepted inv now).invitations =
      s.invitations.map (fun i => if i = inv then { inv with acceptedAt := some now } else i) := by
  unfold Store.markAccepted
  simp only
  apply List.map_congr_left
  intro i hi
  by_cases hid : i._id = inv._id
  · have : i = inv := List.inj_on_of_nodup_map h.invitationsNodup hi hinv hid
    simp [this]
  · have : i ≠ inv := fun e => hid (by rw [e])
    simp [hid, this]

theorem consistent_markAccepted {s : Store} (h : s.Consistent) {inv : TeamInvitation}
    (hinv : inv ∈ s.invitations) (now : Date) : (s.markAccepted inv now).Consistent := by
  have hmap := markAccepted_eq h hinv now
  have hmem : ∀ y ∈ (s.markAccepted inv now).invitations, ∃ x ∈ s.invitations,
      x._id = y._id ∧ x.team = y.team ∧ x.role = y.role ∧ x.token = y.token := by
    intro y hy
    rw [hmap, List.mem_map] at hy
    obtain ⟨x, hx, rfl⟩ := hy
    refine ⟨x, hx, ?_⟩
    split
    · rename_i e; subst e; exact ⟨rfl, rfl, rfl, rfl⟩
    · exact ⟨rfl, rfl, rfl, rfl⟩
  have hproj : ∀ {β : Type} (f : TeamInvitation → β),
      (∀ now', f { inv with acceptedAt := now' } = f inv) →
      (s.markAccepted inv now).invitations.map f = s.invitations.map f := by
    intro β f hf
    rw [hmap, List.map_map]
    apply List.map_congr_left
    intro x _
    simp only [Function.comp]
    split
    · rename_i e; subst e; exact hf _
    · rfl
  refine ⟨h.teamIds, h.teamsNodup, h.memberIds, h.membersNodup, ?_, ?_, ?_, ?_, ?_, h.owner⟩
  · intro y hy
    obtain ⟨x, hx, e, _⟩ := hmem y hy
    have := h.invitationIds x hx
    rw [← e]
    exact this
  · rw [hproj (fun i => i._id) (fun _ => rfl)]
    exact h.invitationsNodup
  · intro y hy
    obtain ⟨x, hx, _, _, e, _⟩ := hmem y hy
    rw [← e]
    exact h.invitationRole x hx
  · intro y hy
    obtain ⟨x, hx, _, e, _⟩ := hmem y hy
    rw [← e]
    exact h.invitationTeam x hx
  · unfold Store.TokensUnique
    rw [hproj (fun i => i.token) (fun _ => rfl)]
    exact h.tokens

theorem consistent_removeMember {s : Store} (h : s.Consistent) {m : TeamMember}
    (hm : m ∈ s.members) (hrole : m.role ≠ TeamRole.owner) :
    Store.Consistent { s with members := s.members.filter (fun x => x._id ≠ m._id) } where
  teamIds := h.teamIds
  teamsNodup := h.teamsNodup
  memberIds := fun x hx => h.memberIds x (List.mem_of_mem_filter hx)
  membersNodup := nodup_map_of_sublist (List.filter_sublist _) h.membersNodup
  invitationIds := h.invitationIds
  invitationsNodup := h.invitationsNodup
  invitationRole := h.invitationRole
  invitationTeam := h.invitationTeam
  tokens := h.tokens
  owner := by
    intro t ht
    have := h.owner t ht
    simp only [Store.ownerRows] at this ⊢
    rw [filter_filter_of_imp]
    · exact this
    · intro x hx hp
      simp only [decide_eq_true_eq] at hp
      simp only [ne_eq, decide_not, Bool.not_eq_true', decide_eq_false_iff_not]
      intro hid
      have : x = m := List.inj_on_of_nodup_map h.membersNodup hx hm hid
      rw [this] at hp
      exact hrole hp.2

theorem consistent_leaveTeam {s : Store} (h : s.Consistent) {t : Team} (ht : t ∈ s.teams)
    (user : ObjectId) (ho : t.owner ≠ user) :
    Store.Consistent
      { s with members := s.members.eraseP (fun m => m.team = t._id ∧ m.user = user) } where
  teamIds := h.teamIds
  teamsNodup := h.teamsNodup
  memberIds := fun x hx => h.memberIds x (List.mem_of_mem_eraseP hx)
  membersNodup := nodup_map_of_sublist (List.eraseP_sublist _) h.membersNodup
  invitationIds := h.invitationIds
  invitationsNodup := h.invitationsNodup
  invitationRole := h.invitationRole
  invitationTeam := h.invitationTeam
  tokens := h.tokens
  owner := by
    intro t' ht'
    have := h.owner t' ht'
    simp only [Store.ownerRows] at this ⊢
    rw [filter_eraseP_of_disjoint]
    · exact this
    · intro x hx hq
      simp only [decide_eq_true_eq] at hq
      simp only [decide_eq_false_iff_not, not_and]
      intro hteam hrole
      have hrow : x ∈ s.ownerRows t._id := by
        unfold Store.ownerRows
        rw [List.mem_filter]
        exact ⟨hx, by simp [hq.1, hrole]⟩
      have hu : x.user ∈ (s.ownerRows t._id).map (fun m => m.user) :=
        List.mem_map_of_mem _ hrow
      rw [h.owner t ht, List.mem_singleton] at hu
      exact ho (hu.symm.trans hq.2)

/-- Every handler keeps the store consistent. -/
theorem handle_consistent (s : Store) (c : Call) (h : s.Consistent) :
    (handle s c).store.Consistent := by
  obtain ⟨env, user, request⟩ := c
  cases request with
  | createTeam name description =>
    rcases createTeam_store s user name description with e | ⟨t, hid, ho, ⟨hdup, _⟩ | ⟨_, e⟩⟩
    · simp only [handle]; rw [e]; exact h
    · exfalso
      obtain ⟨m, hm, hteam, _⟩ := hdup
      have := (h.memberIds m hm).2
      simp only [ObjectId] at *
      omega
    · simp only [handle]; rw [e]
      exact consistent_createTeam h t user._id hid ho
  | updateTeam id name description avatar =>
    rcases updateTeam_store s user id name description avatar with e | ⟨t, ht, t', hid, ho, e⟩
    · simp only [handle]; rw [e]; exact h
    · simp only [handle]; rw [e]
      exact consistent_updateTeam h ht t' hid ho
  | deleteTeam id =>
    rcases deleteTeam_store s user id with e | ⟨t, _, _, _, e⟩
    · simp only [handle]; rw [e]; exact h
    · simp only [handle]; rw [e]
      exact consistent_deleteTeam h id
  | inviteMember id email role =>
    rcases inviteMember_store s env user id email role with
      e | ⟨t, ht, inv, hid, hteam, hrole, htok, _, hfresh, e⟩
    · simp only [handle]; rw [e]; exact h
    · simp only [handle]; rw [e]
      exact consistent_invite h ht inv hid hteam hrole (fun i hi => by rw [htok]; exact hfresh i hi)
  | acceptInvitation token =>
    rcases acceptInvitation_cases s env user token with
      ⟨r, _, e⟩ | ⟨inv, team, hv, _, _, _, ⟨_, e⟩ | ⟨_, _, e⟩ | ⟨_, _, e⟩⟩
    · simp only [handle]; rw [e]; exact h
    · simp only [handle]; rw [e]
      exact consistent_insertMember h (findValidInvitation_some hv).1 _
    · simp only [handle]; rw [e]
      have h1 := consistent_insertMember h (findValidInvitation_some hv).1 user._id
      exact consistent_markAccepted h1 (findValidInvitation_some hv).1 _
    · simp only [handle]; rw [e]
      have h1 := consistent_insertMember h (findValidInvitation_some hv).1 user._id
      exact consistent_markAccepted h1 (findValidInvitation_some hv).1 _
  | removeMember id memberId =>
    rcases removeMember_store s user id memberId with e | ⟨m, hm, _, _, hrole, e⟩
    · simp only [handle]; rw [e]; exact h
    · simp only [handle]; rw [e]
      exact consistent_removeMember h hm hrole
  | leaveTeam id =>
    rcases leaveTeam_store s user id with e | ⟨t, ht, rfl, ho, e⟩
    · simp only [handle]; rw [e]; exact h
    · simp only [handle]; rw [e]
      exact consistent_leaveTeam h ht user._id ho

theorem reachable_consistent {s : Store} (h : Reachable s) : s.Consistent := by
  induction h with
  | empty => exact consistent_empty
  | step s c _ ih => exact handle_consistent s c ih

theorem reachable_run {s : Store} (h : Reachable s) (cs : List Call) : Reachable (run s cs) := by
  induction cs generalizing s with
  | nil => exact h
  | cons c cs ih => exact ih (Reachable.step s c h)

/-- A team of the store after a request is a team of the store before it, with
the same id and the same owner, or the team the request created. -/
theorem handle_teams (s : Store) (c : Call) (h : s.Consistent) :
    ∀ t' ∈ (handle s c).store.teams,
      (∃ t ∈ s.teams, t._id = t'._id ∧ t.owner = t'.owner) ∨ t'._id = s.nextId := by
  have hself : ∀ t' ∈ s.teams,
      (∃ t ∈ s.teams, t._id = t'._id ∧ t.owner = t'.owner) ∨ t'._id = s.nextId :=
    fun t' ht' => Or.inl ⟨t', ht', rfl, rfl⟩
  obtain ⟨env, user, request⟩ := c
  cases request with
  | createTeam name description =>
    rcases createTeam_store s user name description with e | ⟨t, hid, ho, ⟨_, e⟩ | ⟨_, e⟩⟩
    · simp only [handle]; rw [e]; exact hself
    · simp only [handle]; rw [e]
      intro t' ht'
      simp only [List.mem_append, List.mem_singleton] at ht'
      rcases ht' with ht' | rfl
      · exact hself t' ht'
      · exact Or.inr hid
    · simp only [handle]; rw [e]
      intro t' ht'
      simp only [Store.insertMember, List.mem_append, List.mem_singleton] at ht'
      rcases ht' with ht' | rfl
      · exact hself t' ht'
      · exact Or.inr hid
  | updateTeam id name description avatar =>
    rcases updateTeam_store s user id name description avatar with e | ⟨t, ht, t', hid, ho, e⟩
    · simp only [handle]; rw [e]; exact hself
    · simp only [handle]; rw [e]
      intro y hy
      simp only [List.mem_map] at hy
      obtain ⟨x, hx, rfl⟩ := hy
      left
      split
      · rename_i hxid
        have : x = t := List.inj_on_of_nodup_map h.teamsNodup hx ht (hxid.trans hid)
        subst this
        exact ⟨x, hx, hid.symm, ho.symm⟩
      · exact ⟨x, hx, rfl, rfl⟩
  | deleteTeam id =>
    rcases deleteTeam_store s user id with e | ⟨t, _, _, _, e⟩
    · simp only [handle]; rw [e]; exact hself
    · simp only [handle]; rw [e]
      intro t' ht'
      exact hself t' (List.mem_of_mem_filter ht')
  | inviteMember id email role =>
    rcases inviteMember_store s env user id email role with e | ⟨t, _, inv, _, _, _, _, _, _, e⟩
    · simp only [handle]; rw [e]; exact hself
    · simp only [handle]; rw [e]; exact hself
  | acceptInvitation token =>
    rcases acceptInvitation_cases s env user token with
      ⟨r, _, e⟩ | ⟨inv, team, _, _, _, _, ⟨_, e⟩ | ⟨_, _, e⟩ | ⟨_, _, e⟩⟩
    · simp only [handle]; rw [e]; exact hself
    · simp only [handle]; rw [e]; exact hself
    · simp only [handle]; rw [e]; exact hself
    · simp only [handle]; rw [e]; exact hself
  | removeMember id memberId =>
    rcases removeMember_store s user id memberId with e | ⟨m, _, _, _, _, e⟩
    · simp only [handle]; rw [e]; exact hself
    · simp only [handle]; rw [e]; exact hself
  | leaveTeam id =>
    rcases leaveTeam_store s user id with e | ⟨t, _, _, _, e⟩
    · simp only [handle]; rw [e]; exact hself
    · simp only [handle]; rw [e]; exact hself

/-- C9: in every store reachable from the empty one by team handler requests,
every stored team has exactly one membership row with role owner, and the user
of that row is the team's `owner` field; and no handler changes the `owner` field
of a stored team: a team with the same id after any request has the same owner. -/
theorem reachable_one_owner (s : Store) (h : Reachable s) :
    (∀ t ∈ s.teams, ∃ m, s.ownerRows t._id = [m] ∧ m.user = t.owner) ∧
    (∀ c : Call, ∀ t ∈ s.teams, ∀ t' ∈ (handle s c).store.teams,
      t'._id = t._id → t'.owner = t.owner) := by
  have hc := reachable_consistent h
  constructor
  · intro t ht
    have ho := hc.owner t ht
    match hl : s.ownerRows t._id, ho with
    | [], ho => simp at ho
    | [m], ho =>
      simp only [List.map_cons, List.map_nil, List.cons.injEq, and_true] at ho
      exact ⟨m, rfl, ho⟩
    | _ :: _ :: _, ho => simp at ho
  · intro c t ht t' ht' hid
    rcases handle_teams s c hc t' ht' with ⟨x, hx, hxid, hxo⟩ | hnew
    · have : x = t := List.inj_on_of_nodup_map hc.teamsNodup hx ht (hxid.trans hid)
      rw [← hxo, this]
    · exfalso
      have := hc.teamIds t ht
      simp only [ObjectId] at *
      omega

/-! ## A consumed token stays consumed -/

/-- A request that does not store the token leaves it without an open invitation. -/
theorem handle_no_open_invitation (s : Store) (c : Call) (token : String)
    (h : ¬ s.hasOpenInvitation token) (hgen : c.generates ≠ some token) :
    ¬ (handle s c).store.hasOpenInvitation token := by
  obtain ⟨env, user, request⟩ := c
  cases request with
  | createTeam name description =>
    rcases createTeam_store s user name description with e | ⟨t, _, _, ⟨_, e⟩ | ⟨_, e⟩⟩
    · simp only [handle]; rw [e]; exact h
    · simp only [handle]; rw [e]; exact h
    · simp only [handle]; rw [e]; exact h
  | updateTeam id name description avatar =>
    rcases updateTeam_store s user id name description avatar with e | ⟨t, _, t', _, _, e⟩
    · simp only [handle]; rw [e]; exact h
    · simp only [handle]; rw [e]; exact h
  | deleteTeam id =>
    rcases deleteTeam_store s user id with e | ⟨t, _, _, _, e⟩
    · simp only [handle]; rw [e]; exact h
    · simp only [handle]; rw [e]
      rintro ⟨i, hi, hp⟩
      exact h ⟨i, List.mem_of_mem_filter hi, hp⟩
  | inviteMember id email role =>
    rcases inviteMember_store s env user id email role with
      e | ⟨t, _, inv, _, _, _, htok, _, _, e⟩
    · simp only [handle]; rw [e]; exact h
    · simp only [handle]; rw [e]
      rintro ⟨i, hi, hp⟩
      simp only [List.mem_append, List.mem_singleton] at hi
      rcases hi with hi | rfl
      · exact h ⟨i, hi, hp⟩
      · apply hgen
        simp only [Call.generates]
        rw [← htok, hp.1]
  | acceptInvitation tok =>
    have hmark : ∀ (s1 : Store) (inv : TeamInvitation) (now : Date),
        s1.invitations = s.invitations → ¬ (s1.markAccepted inv now).hasOpenInvitation token := by
      intro s1 inv now hs1
      rintro ⟨i, hi, hp⟩
      simp only [Store.markAccepted, List.mem_map] at hi
      obtain ⟨x, hx, rfl⟩ := hi
      split at hp
      · simp at hp
      · rw [hs1] at hx
        exact h ⟨x, hx, hp⟩
    rcases acceptInvitation_cases s env user tok with
      ⟨r, _, e⟩ | ⟨inv, team, _, _, _, _, ⟨_, e⟩ | ⟨_, _, e⟩ | ⟨_, _, e⟩⟩
    · simp only [handle]; rw [e]; exact h
    · simp only [handle]; rw [e]; exact h
    · simp only [handle]; rw [e]; exact hmark _ _ _ rfl
    · simp only [handle]; rw [e]; exact hmark _ _ _ rfl
  | removeMember id memberId =>
    rcases removeMember_store s user id memberId with e | ⟨m, _, _, _, _, e⟩
    · simp only [handle]; rw [e]; exact h
    · simp only [handle]; rw [e]; exact h
  | leaveTeam id =>
    rcases leaveTeam_store s user id with e | ⟨t, _, _, _, e⟩
    · simp only [handle]; rw [e]; exact h
    · simp only [handle]; rw [e]; exact h

theorem run_no_open_invitation (s : Store) (cs : List Call) (token : String)
    (h : ¬ s.hasOpenInvitation token) (hgen : ∀ c ∈ cs, c.generates ≠ some token) :
    ¬ (run s cs).hasOpenInvitation token := by
  induction cs generalizing s with
  | nil => exact h
  | cons c cs ih =>
    exact ih (handle s c).store
      (handle_no_open_invitation s c token h (hgen c (List.mem_cons_self _ _)))
      (fun c' hc' => hgen c' (List.mem_cons_of_mem _ hc'))

/-- With unique tokens, a successful accept leaves no open invitation for the token. -/
theorem acceptInvitation_consumes (s : Store) (env : Env) (user : User) (token : String)
    (hu : s.TokensUnique)
    (hok : (teamController.acceptInvitation s env user token).response =
      ⟨200, "Joined team successfully"⟩) :
    ¬ (teamController.acceptInvitation s env user token).store.hasOpenInvitation token := by
  rcases acceptInvitation_cases s env user token with
    ⟨r, hr, e⟩ | ⟨inv, team, hv, _, _, _, ⟨_, e⟩ | ⟨_, _, e⟩ | ⟨_, _, e⟩⟩
  · rw [e] at hok
    simp only at hok
    rw [hok] at hr
    exact absurd rfl hr
  · rw [e] at hok; simp at hok
  · rw [e] at hok; simp at hok
  · rw [e]
    have hv' := findValidInvitation_some hv
    rintro ⟨i, hi, hp⟩
    simp only [Store.markAccepted, Store.insertMember, List.mem_map] at hi
    obtain ⟨x, hx, rfl⟩ := hi
    split at hp
    · simp at hp
    · rename_i hne
      have : x = inv := List.inj_on_of_nodup_map hu hx hv'.1 (hp.1.trans hv'.2.1.symm)
      exact hne (by rw [this])

theorem acceptInvitation_of_no_open (s : Store) (env : Env) (user : User) (token : String)
    (h : ¬ s.hasOpenInvitation token) :
    teamController.acceptInvitation s env user token =
      ⟨s, ⟨400, "Invalid or expired invitation"⟩, []⟩ := by
  have hnone : teamService.findValidInvitation s token env.now = none := by
    apply findValidInvitation_eq_none
    intro i hi ht
    right
    intro hacc
    exact h ⟨i, hi, ht, hacc⟩
  simp [teamController.acceptInvitation, hnone, Outcome.reply]

/-- C1: after one successful `acceptInvitation` with a token (on a store whose
tokens are unique, as the unique index on `token` guarantees), and after any
later sequence of team requests in which `uuidv4()` does not return that token
again, every `acceptInvitation` with the same token, by any user at any time,
responds 400 Invalid or expired invitation, emits nothing and leaves the store
unchanged; in particular the number of membership rows of every team is unchanged. -/
theorem acceptInvitation_single_use (s : Store) (env : Env) (user : User) (token : String)
    (hu : s.TokensUnique)
    (hok : (teamController.acceptInvitation s env user token).response =
      ⟨200, "Joined team successfully"⟩)
    (later : List Call) (hfresh : ∀ c ∈ later, c.generates ≠ some token)
    (env' : Env) (user' : User) :
    teamController.acceptInvitation
        (run (teamController.acceptInvitation s env user token).store later) env' user' token =
      ⟨run (teamController.acceptInvitation s env user token).store later,
        ⟨400, "Invalid or expired invitation"⟩, []⟩ ∧
    ∀ team : ObjectId,
      ((teamController.acceptInvitation
          (run (teamController.acceptInvitation s env user token).store later) env' user'
          token).store.members.filter (fun m => m.team = team)).length =
        ((run (teamController.acceptInvitation s env user token).store later).members.filter
          (fun m => m.team = team)).length := by
  have hno := run_no_open_invitation _ later token
    (acceptInvitation_consumes s env user token hu hok) hfresh
  have e := acceptInvitation_of_no_open _ env' user' token hno
  refine ⟨e, ?_⟩
  intro team
  rw [e]

/-- User A removes B from the team and invites again (token L); after that the
consumed token K is still turned away, whoever presents it. -/
theorem acceptInvitation_single_use_witness :
    teamController.acceptInvitation
        (run (teamController.acceptInvitation invitedStore sampleEnv userB "K").store
          [⟨lateEnv, userA, .removeMember 0 2⟩,
           ⟨lateEnv, userA, .inviteMember 0 "b@x.com" none⟩]) lateEnv userB "K" =
      ⟨run (teamController.acceptInvitation invitedStore sampleEnv userB "K").store
          [⟨lateEnv, userA, .removeMember 0 2⟩,
           ⟨lateEnv, userA, .inviteMember 0 "b@x.com" none⟩],
        ⟨400, "Invalid or expired invitation"⟩, []⟩ :=
  (acceptInvitation_single_use invitedStore sampleEnv userB "K" (by decide) (by decide)
    [⟨lateEnv, userA, .removeMember 0 2⟩, ⟨lateEnv, userA, .inviteMember 0 "b@x.com" none⟩]
    (by decide) lateEnv userB).1

/-- The store after B joined is reachable and holds one row for (team 0, user 2). -/
theorem reachable_membership_unique_witness : (joinedStore.rowsOf 0 2).length ≤ 1 :=
  (reachable_membership_unique joinedStore
    (Reachable.step invitedStore ⟨sampleEnv, userB, .acceptInvitation "K"⟩
      (reachable_run Reachable.empty _)) 0 2).1

/-- The team Eng of the store after B joined has one owner row, the row of user A. -/
theorem reachable_one_owner_witness :
    ∃ m, joinedStore.ownerRows 0 = [m] ∧ m.user = 1 :=
  (reachable_one_owner joinedStore
    (Reachable.step invitedStore ⟨sampleEnv, userB, .acceptInvitation "K"⟩
      (reachable_run Reachable.empty _))).1 teamEng (by decide)

/-! ## The role gate of updateTeam, inviteMember and removeMember -/

theorem errorHandler_status (e : AppError) :
    (errorHandler e).status = 400 ∨ (errorHandler e).status = 500 := by
  cases e <;> simp [errorHandler]

/-- C10: for a stored team, a caller for whom `findMembership` finds no row or a
row with role member gets 403 from each of updateTeam, inviteMember and
removeMember, whatever the other arguments, with the store (the team, its
membership rows, its invitations) unchanged and no event; and a caller whose
row has role owner or admin never gets status 403 from these handlers. -/
theorem role_gate (s : Store) (env : Env) (user : User) (id : ObjectId) (team : Team)
    (hteam : teamService.findTeamByIdRaw s id = some team) :
    ((∀ m, teamService.findMembership s id user._id = some m → m.role = TeamRole.member) →
      (∀ name description avatar, teamController.updateTeam s user id name description avatar =
        ⟨s, ⟨403, "Not authorized"⟩, []⟩) ∧
      (∀ email role, teamController.inviteMember s env user id email role =
        ⟨s, ⟨403, "Not authorized to invite"⟩, []⟩) ∧
      (∀ memberId, teamController.removeMember s user id memberId =
        ⟨s, ⟨403, "Not authorized"⟩, []⟩)) ∧
    ((∃ m, teamService.findMembership s id user._id = some m ∧
        (m.role = TeamRole.owner ∨ m.role = TeamRole.admin)) →
      (∀ name description avatar,
        (teamController.updateTeam s user id name description avatar).response.status ≠ 403) ∧
      (∀ email role,
        (teamController.inviteMember s env user id email role).response.status ≠ 403) ∧
      (∀ memberId, (teamController.removeMember s user id memberId).response.status ≠ 403)) := by
  have hid := (findTeamByIdRaw_some hteam).2
  subst hid
  constructor
  · intro hrole
    cases hm : teamService.findMembership s team._id user._id with
    | none =>
      refine ⟨?_, ?_, ?_⟩
      · intro name description avatar
        simp [teamController.updateTeam, hteam, hm, Outcome.reply]
      · intro email role
        simp [teamController.inviteMember, hteam, hm, Outcome.reply]
      · intro memberId
        simp [teamController.removeMember, hteam, hm, Outcome.reply]
    | some m =>
      have hr := hrole m hm
      refine ⟨?_, ?_, ?_⟩
      · intro name description avatar
        simp [teamController.updateTeam, hteam, hm, hr, Outcome.reply]
      · intro email role
        simp [teamController.inviteMember, hteam, hm, hr, Outcome.reply]
      · intro memberId
        simp [teamController.removeMember, hteam, hm, hr, Outcome.reply]
  · rintro ⟨m, hm, hr⟩
    refine ⟨?_, ?_, ?_⟩
    · intro name description avatar
      cases hu : teamService.updateTeam s team name description avatar with
      | error e =>
        have := errorHandler_status e
        simp only [teamController.updateTeam, hteam, hm, hr, hu, Outcome.fail, not_true,
          if_false]
        omega
      | ok r => simp [teamController.updateTeam, hteam, hm, hr, hu]
    · intro email role
      cases hc : teamService.createInvitation s env team._id email
          (role.getD TeamRole.member.toString) user._id with
      | error e =>
        have := errorHandler_status e
        simp only [teamController.inviteMember, hteam, hm, hr, hc, Outcome.fail, not_true,
          if_false]
        omega
      | ok r => simp [teamController.inviteMember, hteam, hm, hr, hc]
    · intro memberId
      cases ht : teamService.findMembership s team._id memberId with
      | none => simp [teamController.removeMember, hteam, hm, hr, ht, Outcome.reply]
      | some target =>
        by_cases ho : target.role = TeamRole.owner
        · simp [teamController.removeMember, hteam, hm, hr, ht, ho, Outcome.reply]
        · simp [teamController.removeMember, hteam, hm, hr, ht, ho]

/-- In the store after B joined as a member, B may not invite, and the owner A
is not turned away with 403. -/
theorem role_gate_witness :
    teamController.inviteMember joinedStore sampleEnv userB 0 "c@x.com" none =
        ⟨joinedStore, ⟨403, "Not authorized to invite"⟩, []⟩ ∧
      (teamController.inviteMember joinedStore sampleEnv userA 0 "c@x.com" none).response.status
        ≠ 403 :=
  ⟨((role_gate joinedStore sampleEnv userB 0 teamEng (by decide)).1
      (fun m hm => by
        have e : teamService.findMembership joinedStore 0 userB._id =
            some ⟨3, 0, 2, TeamRole.member⟩ := by decide
        rw [e] at hm
        cases hm
        rfl)).2.1 "c@x.com" none,
    ((role_gate joinedStore sampleEnv userA 0 teamEng (by decide)).2
      ⟨⟨1, 0, 1, TeamRole.owner⟩, by decide, Or.inl rfl⟩).2.1 "c@x.com" none⟩

/-! ## Deleting a team -/

/-- C11: `deleteTeam` is authorised by the `owner` field of the team only.  For a
stored team, a caller whose id is `team.owner` gets 200 Team deleted and the team
is no longer found; every other caller, whatever membership rows the store
holds for them (admin, or a row with role owner), gets 403 Only owner can delete
team with the store unchanged; so the answer is 200 exactly when the caller's id
equals `team.owner`. -/
theorem deleteTeam_owner_only (s : Store) (user : User) (id : ObjectId) (team : Team)
    (hteam : teamService.findTeamByIdRaw s id = some team) :
    (user._id = team.owner →
      teamController.deleteTeam s user id =
          ⟨teamService.deleteTeam s team, ⟨200, "Team deleted"⟩, []⟩ ∧
        teamService.findTeamByIdRaw (teamController.deleteTeam s user id).store id = none) ∧
    (user._id ≠ team.owner →
      teamController.deleteTeam s user id = ⟨s, ⟨403, "Only owner can delete team"⟩, []⟩) ∧
    ((teamController.deleteTeam s user id).response = ⟨200, "Team deleted"⟩ ↔
      user._id = team.owner) := by
  have hid := (findTeamByIdRaw_some hteam).2
  have hyes : user._id = team.owner →
      teamController.deleteTeam s user id =
        ⟨teamService.deleteTeam s team, ⟨200, "Team deleted"⟩, []⟩ := by
    intro ho
    simp [teamController.deleteTeam, hteam, ho]
  have hno : user._id ≠ team.owner →
      teamController.deleteTeam s user id = ⟨s, ⟨403, "Only owner can delete team"⟩, []⟩ := by
    intro ho
    simp [teamController.deleteTeam, hteam, Ne.symm ho, Outcome.reply]
  refine ⟨?_, hno, ?_⟩
  · intro ho
    refine ⟨hyes ho, ?_⟩
    rw [hyes ho]
    simp only [teamService.findTeamByIdRaw, teamService.deleteTeam, Team.deleteOne,
      TeamInvitation.deleteMany, TeamMember.deleteMany]
    rw [List.find?_eq_none]
    intro t ht
    simp only [List.mem_filter, decide_eq_true_eq, ne_eq, decide_not, Bool.not_eq_true',
      decide_eq_false_iff_not] at ht
    simp only [decide_eq_true_eq]
    rw [← hid]
    exact ht.2
  · constructor
    · intro hr
      by_contra ho
      rw [hno ho] at hr
      simp at hr
    · intro ho
      rw [hyes ho]

/-- User B, holding a row with role owner in the hand-built store, may not delete
the team; user A, the `owner` field, may. -/
theorem deleteTeam_owner_only_witness :
    teamController.deleteTeam twoOwnerRowsStore userB 0 =
        ⟨twoOwnerRowsStore, ⟨403, "Only owner can delete team"⟩, []⟩ ∧
      (teamController.deleteTeam twoOwnerRowsStore userA 0).response =
        ⟨200, "Team deleted"⟩ :=
  ⟨(deleteTeam_owner_only twoOwnerRowsStore userB 0 teamEng (by decide)).2.1 (by decide),
    (deleteTeam_owner_only twoOwnerRowsStore userA 0 teamEng (by decide)).2.2.mpr (by decide)⟩

/-- C12: after a successful `deleteTeam` of team T (on a store whose tokens are
unique) no team row has the id of T and no membership row and no invitation
references T, while the rows of every other team are kept as they were, in
order; and every token of an invitation that was issued for T resolves as
invalid from then on, at any time and after any later requests in which
`uuidv4()` does not return that token again. -/
theorem deleteTeam_cascade (s : Store) (user : User) (id : ObjectId) (team : Team)
    (hteam : teamService.findTeamByIdRaw s id = some team) (howner : user._id = team.owner)
    (hu : s.TokensUnique) :
    ((∀ t ∈ (teamController.deleteTeam s user id).store.teams, t._id ≠ id) ∧
      (∀ m ∈ (teamController.deleteTeam s user id).store.members, m.team ≠ id) ∧
      (∀ i ∈ (teamController.deleteTeam s user id).store.invitations, i.team ≠ id)) ∧
    ((teamController.deleteTeam s user id).store.teams =
        s.teams.filter (fun t => t._id ≠ id) ∧
      (teamController.deleteTeam s user id).store.members =
        s.members.filter (fun m => m.team ≠ id) ∧
      (teamController.deleteTeam s user id).store.invitations =
        s.invitations.filter (fun i => i.team ≠ id)) ∧
    ((∀ t ∈ s.teams, t._id ≠ id → t ∈ (teamController.deleteTeam s user id).store.teams) ∧
      (∀ m ∈ s.members, m.team ≠ id →
        m ∈ (teamController.deleteTeam s user id).store.members) ∧
      (∀ i ∈ s.invitations, i.team ≠ id →
        i ∈ (teamController.deleteTeam s user id).store.invitations)) ∧
    (∀ i ∈ s.invitations, i.team = id → ∀ later : List Call,
      (∀ c ∈ later, c.generates ≠ some i.token) → ∀ now : Date,
        teamService.findValidInvitation
          (run (teamController.deleteTeam s user id).store later) i.token now = none) := by
  have hid := (findTeamByIdRaw_some hteam).2
  have e : (teamController.deleteTeam s user id).store =
      { s with teams := s.teams.filter (fun x => x._id ≠ id),
               members := s.members.filter (fun m => m.team ≠ id),
               invitations := s.invitations.filter (fun i => i.team ≠ id) } := by
    simp [teamController.deleteTeam, hteam, howner, teamService.deleteTeam, Team.deleteOne,
      TeamInvitation.deleteMany, TeamMember.deleteMany, hid]
  rw [e]
  refine ⟨⟨?_, ?_, ?_⟩, ⟨rfl, rfl, rfl⟩, ⟨?_, ?_, ?_⟩, ?_⟩
  · intro t ht
    simpa using (List.mem_filter.mp ht).2
  · intro m hm
    simpa using (List.mem_filter.mp hm).2
  · intro i hi
    simpa using (List.mem_filter.mp hi).2
  · intro t ht hne
    exact List.mem_filter.mpr ⟨ht, by simpa using hne⟩
  · intro m hm hne
    exact List.mem_filter.mpr ⟨hm, by simpa using hne⟩
  · intro i hi hne
    exact List.mem_filter.mpr ⟨hi, by simpa using hne⟩
  · intro i hi hteam' later hfresh now
    apply findValidInvitation_eq_none
    intro j hj htok
    right
    intro hacc
    refine run_no_open_invitation _ later i.token ?_ hfresh ⟨j, hj, htok, hacc⟩
    rintro ⟨k, hk, hktok, _⟩
    have hk' := List.mem_filter.mp hk
    have : k = i := List.inj_on_of_nodup_map hu hk'.1 hi hktok
    rw [this] at hk'
    simp [hteam'] at hk'

/-- After user A deletes team Eng the invitation token K no longer resolves. -/
theorem deleteTeam_cascade_witness :
    teamService.findValidInvitation
      (run (teamController.deleteTeam invitedStore userA 0).store []) "K" 1000 = none :=
  (deleteTeam_cascade invitedStore userA 0 teamEng (by decide) (by decide) (by decide)).2.2.2
    invitationK (by decide) (by decide) [] (by decide) 1000

/-! ## Removing a member and leaving a team -/

theorem membersUnique_eq {s : Store} (hu : s.MembersUnique) {m₁ m₂ : TeamMember}
    (h₁ : m₁ ∈ s.members) (h₂ : m₂ ∈ s.members) (ht : m₁.team = m₂.team)
    (hus : m₁.user = m₂.user) : m₁ = m₂ := by
  have hlen := rowsOf_length_le_one hu m₁.team m₁.user
  have hm₁ : m₁ ∈ s.rowsOf m₁.team m₁.user := by
    unfold Store.rowsOf; rw [List.mem_filter]; exact ⟨h₁, by simp⟩
  have hm₂ : m₂ ∈ s.rowsOf m₁.team m₁.user := by
    unfold Store.rowsOf; rw [List.mem_filter]; exact ⟨h₂, by simp [ht, hus]⟩
  match hl : s.rowsOf m₁.team m₁.user, hlen, hm₁, hm₂ with
  | [], _, hm₁, _ => simp at hm₁
  | [x], _, hm₁, hm₂ =>
    rw [List.mem_singleton] at hm₁ hm₂
    rw [hm₁, hm₂]
  | _ :: _ :: _, hlen, _, _ => simp at hlen

theorem findMembership_of_mem {s : Store} (hu : s.MembersUnique) {m : TeamMember}
    (hm : m ∈ s.members) : teamService.findMembership s m.team m.user = some m := by
  cases hf : teamService.findMembership s m.team m.user with
  | none => exact absurd ⟨m, hm, rfl, rfl⟩ (findMembership_eq_none.mp hf)
  | some x =>
    have hx := findMembership_some hf
    rw [membersUnique_eq hu hx.1 hm hx.2.1 hx.2.2]

/-- The runs of `removeMember`: the four rejections, which write nothing, or the
deletion of the row found for the target. -/
theorem removeMember_cases (s : Store) (user : User) (id memberId : ObjectId) :
    (∃ r, r.status ≠ 200 ∧ teamController.removeMember s user id memberId = ⟨s, r, []⟩) ∨
    ∃ m, teamService.findMembership s id memberId = some m ∧ m.role ≠ TeamRole.owner ∧
      teamController.removeMember s user id memberId =
        ⟨{ s with members := s.members.filter (fun x => x._id ≠ m._id) },
          ⟨200, "Member removed"⟩, []⟩ := by
  cases hteam : teamService.findTeamByIdRaw s id with
  | none =>
    left
    exact ⟨⟨404, "Team not found"⟩, by decide, by
      simp [teamController.removeMember, hteam, Outcome.reply]⟩
  | some team =>
    have hid := (findTeamByIdRaw_some hteam).2
    subst hid
    cases hm : teamService.findMembership s team._id user._id with
    | none =>
      left
      exact ⟨⟨403, "Not authorized"⟩, by decide, by
        simp [teamController.removeMember, hteam, hm, Outcome.reply]⟩
    | some membership =>
      by_cases hr : membership.role = TeamRole.owner ∨ membership.role = TeamRole.admin
      · cases ht : teamService.findMembership s team._id memberId with
        | none =>
          left
          exact ⟨⟨404, "Member not found"⟩, by decide, by
            simp [teamController.removeMember, hteam, hm, hr, ht, Outcome.reply]⟩
        | some target =>
          by_cases ho : target.role = TeamRole.owner
          · left
            exact ⟨⟨400, "Cannot remove team owner"⟩, by decide, by
              simp [teamController.removeMember, hteam, hm, hr, ht, ho, Outcome.reply]⟩
          · right
            refine ⟨target, rfl, ho, ?_⟩
            simp [teamController.removeMember, hteam, hm, hr, ht, ho, teamService.deleteMember,
              TeamMember.deleteOne]
      · left
        exact ⟨⟨403, "Not authorized"⟩, by decide, by
          simp [teamController.removeMember, hteam, hm, hr, Outcome.reply]⟩

/-- C13: for a stored team and a target whose membership row in that team has
role owner (rows being unique per team and user), `removeMember` by any caller
leaves the store unchanged, so the target's row stays; it answers 403 Not
authorized when the caller has no row or a row with role member in the team, and
400 Cannot remove team owner when the caller's row has role owner or admin. -/
theorem removeMember_owner_row (s : Store) (user : User) (id memberId : ObjectId) (team : Team)
    (target : TeamMember) (hteam : teamService.findTeamByIdRaw s id = some team)
    (hu : s.MembersUnique) (ht : target ∈ s.members) (hteam' : target.team = id)
    (huser : target.user = memberId) (hrole : target.role = TeamRole.owner) :
    (teamController.removeMember s user id memberId).store = s ∧
      target ∈ (teamController.removeMember s user id memberId).store.members ∧
      (teamController.removeMember s user id memberId).events = [] ∧
      ((∀ m, teamService.findMembership s id user._id = some m → m.role = TeamRole.member) →
        (teamController.removeMember s user id memberId).response = ⟨403, "Not authorized"⟩) ∧
      ((∃ m, teamService.findMembership s id user._id = some m ∧
          (m.role = TeamRole.owner ∨ m.role = TeamRole.admin)) →
        (teamController.removeMember s user id memberId).response =
          ⟨400, "Cannot remove team owner"⟩) := by
  have hfind : teamService.findMembership s id memberId = some target := by
    rw [← hteam', ← huser]
    exact findMembership_of_mem hu ht
  have hid := (findTeamByIdRaw_some hteam).2
  subst hid
  have hstore : teamController.removeMember s user team._id memberId =
      ⟨s, (teamController.removeMember s user team._id memberId).response, []⟩ := by
    rcases removeMember_cases s user team._id memberId with ⟨r, _, e⟩ | ⟨m, hm, hne, _⟩
    · rw [e]
    · rw [hfind] at hm
      simp only [Option.some.injEq] at hm
      rw [← hm] at hne
      exact absurd hrole hne
  refine ⟨by rw [hstore], by rw [hstore]; exact ht, by rw [hstore], ?_, ?_⟩
  · intro hmem
    cases hm : teamService.findMembership s team._id user._id with
    | none => simp [teamController.removeMember, hteam, hm, Outcome.reply]
    | some m =>
      have := hmem m hm
      simp [teamController.removeMember, hteam, hm, this, Outcome.reply]
  · rintro ⟨m, hm, hr⟩
    simp [teamController.removeMember, hteam, hm, hr, hfind, hrole, Outcome.reply]

/-- In the store after B joined, neither the member B nor the owner A can remove
the owner row of A. -/
theorem removeMember_owner_row_witness :
    (teamController.removeMember joinedStore userB 0 1).response = ⟨403, "Not authorized"⟩ ∧
      (teamController.removeMember joinedStore userA 0 1).response =
        ⟨400, "Cannot remove team owner"⟩ ∧
      (teamController.removeMember joinedStore userA 0 1).store = joinedStore :=
  ⟨(removeMember_owner_row joinedStore userB 0 1 teamEng ⟨1, 0, 1, TeamRole.owner⟩
      (by decide) (by unfold Store.MembersUnique; decide) (by decide) rfl rfl rfl).2.2.2.1
      (fun m hm => by
        have e : teamService.findMembership joinedStore 0 userB._id =
            some ⟨3, 0, 2, TeamRole.member⟩ := by decide
        rw [e] at hm
        cases hm
        rfl),
    (removeMember_owner_row joinedStore userA 0 1 teamEng ⟨1, 0, 1, TeamRole.owner⟩
      (by decide) (by unfold Store.MembersUnique; decide) (by decide) rfl rfl rfl).2.2.2.2
      ⟨⟨1, 0, 1, TeamRole.owner⟩, by decide, Or.inl rfl⟩,
    (removeMember_owner_row joinedStore userA 0 1 teamEng ⟨1, 0, 1, TeamRole.owner⟩
      (by decide) (by unfold Store.MembersUnique; decide) (by decide) rfl rfl rfl).1⟩

theorem eraseP_eq_erase_of_find? {α : Type} [DecidableEq α] (p : α → Bool) (l : List α) (m : α)
    (h : l.find? p = some m) : l.eraseP p = l.erase m := by
  induction l with
  | nil => simp at h
  | cons a l ih =>
    by_cases hp : p a = true
    · rw [List.find?_cons_of_pos _ hp] at h
      simp only [Option.some.injEq] at h
      subst h
      rw [List.eraseP_cons_of_pos hp, List.erase_cons_head]
    · rw [List.find?_cons_of_neg _ hp] at h
      have hm : p m = true := List.find?_some h
      have hne : a ≠ m := fun e => hp (e ▸ hm)
      rw [List.eraseP_cons_of_neg hp, ih h, List.erase_cons_tail (by simpa using hne)]

/-- A caller without a membership row in the team leaves the store as it is. -/
theorem leaveTeam_of_not_member (s : Store) (user : User) (id : ObjectId)
    (h : ¬ s.hasMember id user._id) :
    (teamController.leaveTeam s user id).store = s ∧
      (teamController.leaveTeam s user id).events = [] := by
  cases hteam : teamService.findTeamByIdRaw s id with
  | none => simp [teamController.leaveTeam, hteam, Outcome.reply]
  | some team =>
    have hid := (findTeamByIdRaw_some hteam).2
    by_cases ho : team.owner = user._id
    · simp [teamController.leaveTeam, hteam, ho, Outcome.reply]
    · have he : s.members.eraseP (fun m => decide (m.team = team._id ∧ m.user = user._id)) =
          s.members := by
        apply List.eraseP_of_forall_not
        intro m hm hp
        simp only [decide_eq_true_eq] at hp
        exact h ⟨m, hm, hid ▸ hp.1, hp.2⟩
      simp only [Bool.decide_and] at he
      simp [teamController.leaveTeam, hteam, ho, teamService.findAndDeleteMember,
        TeamMember.findOneAndDelete, he]

/-- C14: for a stored team, `leaveTeam` by the user in the team's `owner` field
answers 400 Owner cannot leave team and leaves the store unchanged; by any other
caller who has a membership row in the team it answers 200 Left team
successfully and removes that caller's row for that team and nothing else: the
other rows stay in place, teams and invitations are untouched, and with rows
unique per team and user the caller has no row in the team afterwards. -/
theorem leaveTeam_spec (s : Store) (user : User) (id : ObjectId) (team : Team)
    (hteam : teamService.findTeamByIdRaw s id = some team) :
    (user._id = team.owner →
      teamController.leaveTeam s user id =
        ⟨s, ⟨400, "Owner cannot leave team. Transfer ownership or delete team."⟩, []⟩) ∧
    (user._id ≠ team.owner → ∀ m, teamService.findMembership s id user._id = some m →
      (teamController.leaveTeam s user id).response = ⟨200, "Left team successfully"⟩ ∧
      (teamController.leaveTeam s user id).store.teams = s.teams ∧
      (teamController.leaveTeam s user id).store.invitations = s.invitations ∧
      (teamController.leaveTeam s user id).store.members = s.members.erase m ∧
      (teamController.leaveTeam s user id).store.members.length + 1 = s.members.length ∧
      (∀ x ∈ s.members, x ≠ m → x ∈ (teamController.leaveTeam s user id).store.members) ∧
      (s.MembersUnique → ¬ (teamController.leaveTeam s user id).store.hasMember id user._id)) := by
  have hid := (findTeamByIdRaw_some hteam).2
  subst hid
  constructor
  · intro ho
    simp [teamController.leaveTeam, hteam, ho, Outcome.reply]
  · intro ho m hm
    have hm' := findMembership_some hm
    have he : s.members.eraseP (fun x => decide (x.team = team._id ∧ x.user = user._id)) =
        s.members.erase m := eraseP_eq_erase_of_find? _ _ _ hm
    simp only [Bool.decide_and] at he
    have e : teamController.leaveTeam s user team._id =
        ⟨{ s with members := s.members.erase m }, ⟨200, "Left team successfully"⟩, []⟩ := by
      simp [teamController.leaveTeam, hteam, Ne.symm ho, teamService.findAndDeleteMember,
        TeamMember.findOneAndDelete, he]
    rw [e]
    refine ⟨rfl, rfl, rfl, rfl, ?_, ?_, ?_⟩
    · simp only
      rw [List.length_erase_of_mem hm'.1]
      have : 0 < s.members.length := List.length_pos_of_mem hm'.1
      omega
    · intro x hx hne
      exact (List.mem_erase_of_ne hne).mpr hx
    · intro hu
      rintro ⟨x, hx, hxt, hxu⟩
      have hxs : x ∈ s.members := List.mem_of_mem_erase hx
      have hxm : x = m :=
        membersUnique_eq hu hxs hm'.1 (hxt.trans hm'.2.1.symm) (hxu.trans hm'.2.2.symm)
      have hnodup : s.members.Nodup := by
        unfold Store.MembersUnique at hu
        exact List.Pairwise.imp (fun hab e => hab (by rw [e]; exact ⟨rfl, rfl⟩)) hu
      rw [hxm] at hx
      exact (List.Nodup.mem_erase_iff hnodup).mp hx |>.1 rfl

/-- In the store after B joined, A (the owner) cannot leave and B leaves with
only the row of B removed. -/
theorem leaveTeam_spec_witness :
    teamController.leaveTeam joinedStore userA 0 =
        ⟨joinedStore, ⟨400, "Owner cannot leave team. Transfer ownership or delete team."⟩,
          []⟩ ∧
      (teamController.leaveTeam joinedStore userB 0).store.members =
        joinedStore.members.erase ⟨3, 0, 2, TeamRole.member⟩ :=
  ⟨(leaveTeam_spec joinedStore userA 0 teamEng (by decide)).1 (by decide),
    ((leaveTeam_spec joinedStore userB 0 teamEng (by decide)).2 (by decide)
      ⟨3, 0, 2, TeamRole.member⟩ (by decide)).2.2.2.1⟩

/-- C15: once `removeMember` has removed member B from a team (rows being unique
per team and user), B has no membership row in it, and a `leaveTeam` request by
B on that team is a no-op: the store, hence the membership rows of every team,
is unchanged, nothing is emitted and B still has no row afterwards.  The same
holds in any later store in which B has no row in the team. -/
theorem leaveTeam_after_removeMember (s : Store) (caller b : User) (id : ObjectId)
    (hu : s.MembersUnique)
    (hok : (teamController.removeMember s caller id b._id).response =
      ⟨200, "Member removed"⟩) :
    ¬ (teamController.removeMember s caller id b._id).store.hasMember id b._id ∧
      (teamController.leaveTeam (teamController.removeMember s caller id b._id).store b
        id).store = (teamController.removeMember s caller id b._id).store ∧
      (teamController.leaveTeam (teamController.removeMember s caller id b._id).store b
        id).events = [] ∧
      ¬ (teamController.leaveTeam (teamController.removeMember s caller id b._id).store b
        id).store.hasMember id b._id ∧
      (∀ s2 : Store, ¬ s2.hasMember id b._id →
        (teamController.leaveTeam s2 b id).store = s2) := by
  have hno : ¬ (teamController.removeMember s caller id b._id).store.hasMember id b._id := by
    rcases removeMember_cases s caller id b._id with ⟨r, hr, e⟩ | ⟨m, hm, _, e⟩
    · rw [e] at hok
      simp only at hok
      rw [hok] at hr
      exact absurd rfl hr
    · rw [e]
      have hm' := findMembership_some hm
      rintro ⟨x, hx, hxt, hxu⟩
      have hx' := List.mem_filter.mp hx
      have : x = m :=
        membersUnique_eq hu hx'.1 hm'.1 (hxt.trans hm'.2.1.symm) (hxu.trans hm'.2.2.symm)
      rw [this] at hx'
      simp at hx'
  have h1 := leaveTeam_of_not_member _ b id hno
  refine ⟨hno, h1.1, h1.2, by rw [h1.1]; exact hno, ?_⟩
  intro s2 h2
  exact (leaveTeam_of_not_member s2 b id h2).1

/-- The scenario of section 8: A removes B, then B tries to leave. -/
theorem leaveTeam_after_removeMember_witness :
    (teamController.leaveTeam (teamController.removeMember joinedStore userA 0 userB._id).store
      userB 0).store = (teamController.removeMember joinedStore userA 0 userB._id).store :=
  (leaveTeam_after_removeMember joinedStore userA userB 0
    (by unfold Store.MembersUnique; decide) (by decide)).2.1

/-! ## Tasks: the completedAt invariant -/

theorem Task.preSave_completedAtOk (now : Date) (doc : Task) :
    (Task.preSave true now doc).completedAtOk := by
  unfold Task.preSave Task.completedAtOk
  by_cases h : doc.status = taskStatus.COMPLETED <;> simp [h]

theorem Task.create_task_spec {enums : TaskEnums} {s : TaskStore} {now : Date} {data : TaskBody}
    {creator : ObjectId} {doc : Task} {s1 : TaskStore}
    (h : Task.create enums s now data creator = .ok (doc, s1)) :
    doc.completedAtOk ∧ doc._id = s.nextId ∧ doc.creator = creator ∧
      s1 = { s with tasks := s.tasks ++ [doc], nextId := s.nextId + 1 } := by
  unfold Task.create at h
  simp only at h
  split at h
  · simp only [Except.ok.injEq, Prod.mk.injEq] at h
    obtain ⟨rfl, rfl⟩ := h
    refine ⟨?_, ?_, ?_, rfl⟩
    · cases hs : data.status with
      | some v => exact Task.preSave_completedAtOk _ _
      | none => simp [Task.preSave, Task.completedAtOk, taskStatus.OPEN, taskStatus.COMPLETED]
    · unfold Task.preSave; split <;> rfl
    · unfold Task.preSave; split <;> rfl
  · simp at h

theorem Task.save_task_spec {enums : TaskEnums} {s : TaskStore} {now : Date} {original updated : Task}
    {doc : Task} {s1 : TaskStore}
    (h : Task.save enums s now original updated = .ok (doc, s1)) :
    doc = Task.preSave (decide (updated.status ≠ original.status)) now updated ∧
      doc.valid enums = true ∧
      s1 = { s with tasks := s.tasks.map (fun t => if t._id = doc._id then doc else t) } := by
  unfold Task.save at h
  simp only at h
  split at h
  · rename_i hv
    simp only [Except.ok.injEq, Prod.mk.injEq] at h
    obtain ⟨rfl, rfl⟩ := h
    exact ⟨rfl, hv, rfl⟩
  · simp at h

/-- A save keeps the invariant when the document in memory still carries the
`completedAt` it was loaded with. -/
theorem Task.save_completedAtOk {enums : TaskEnums} {s : TaskStore} {now : Date}
    {original updated : Task} {doc : Task} {s1 : TaskStore}
    (h : Task.save enums s now original updated = .ok (doc, s1))
    (ho : original.completedAtOk) (hc : updated.completedAt = original.completedAt) :
    doc.completedAtOk := by
  rw [(Task.save_task_spec h).1]
  by_cases hm : updated.status = original.status
  · simp only [Task.preSave, hm, ne_eq, not_true_eq_false, decide_False, Bool.false_eq_true,
      if_false]
    unfold Task.completedAtOk at ho ⊢
    rw [hc, hm]
    exact ho
  · have : decide (updated.status ≠ original.status) = true := by simpa using hm
    rw [this]
    exact Task.preSave_completedAtOk _ _

theorem findTaskByIdRaw_some {s : TaskStore} {id : ObjectId} {task : Task}
    (h : taskService.findTaskByIdRaw s id = some task) : task ∈ s.tasks ∧ task._id = id := by
  unfold taskService.findTaskByIdRaw at h
  have hp := List.find?_some h
  simp only [decide_eq_true_eq] at hp
  exact ⟨List.mem_of_find?_eq_some h, hp⟩

theorem mem_map_replace {α : Type} {p : α → Prop} [DecidablePred p] {doc : α} {l : List α}
    {x : α} (h : x ∈ l.map (fun t => if p t then doc else t)) : x = doc ∨ x ∈ l := by
  rw [List.mem_map] at h
  obtain ⟨y, hy, rfl⟩ := h
  split
  · exact Or.inl rfl
  · exact Or.inr hy

/-! ## What each task and comment handler leaves in the store -/

theorem createTask_store (enums : TaskEnums) (s : TaskStore) (env : Env) (user : User)
    (body : TaskBody) :
    (taskController.createTask enums s env user body).store = s ∨
    ∃ task s1, taskService.createTask enums s env.now body user._id = .ok (task, s1) ∧
      (taskController.createTask enums s env user body).store = s1 := by
  cases hc : taskService.createTask enums s env.now body user._id with
  | error e => left; simp [taskController.createTask, hc, TaskOutcome.fail]
  | ok r =>
    obtain ⟨task, s1⟩ := r
    right
    refine ⟨task, s1, rfl, ?_⟩
    simp only [taskController.createTask, hc]
    split
    · split
      · split <;> rfl
      · rfl
    · rfl

theorem updateTask_store (enums : TaskEnums) (s : TaskStore) (env : Env) (user : User)
    (id : ObjectId) (body : TaskBody) :
    (taskController.updateTask enums s env user id body).store = s ∨
    ∃ task updated s1, taskService.findTaskByIdRaw s id = some task ∧
      (task.creator = user._id ∨ task.assignee = some user._id) ∧
      taskService.updateTask enums s env.now task body = .ok (updated, s1) ∧
      (taskController.updateTask enums s env user id body).store = s1 := by
  cases hf : taskService.findTaskByIdRaw s id with
  | none => left; simp [taskController.updateTask, hf, TaskOutcome.reply]
  | some task =>
    by_cases hauth : task.creator = user._id ∨ task.assignee = some user._id
    · cases hu : taskService.updateTask enums s env.now task body with
      | error e =>
        left
        rcases hauth with ha | ha <;>
          simp [taskController.updateTask, hf, ha, hu, TaskOutcome.fail]
      | ok r =>
        obtain ⟨updated, s1⟩ := r
        right
        refine ⟨task, updated, s1, rfl, hauth, hu, ?_⟩
        by_cases hp : env.faults.publish = true
        · rcases hauth with ha | ha <;>
            simp [taskController.updateTask, hf, ha, hu, hp, TaskOutcome.fail]
        · rcases hauth with ha | ha <;>
            simp [taskController.updateTask, hf, ha, hu, hp]
    · left
      simp only [not_or] at hauth
      simp [taskController.updateTask, hf, hauth.1, hauth.2, TaskOutcome.reply]

theorem deleteTask_store (s : TaskStore) (user : User) (id : ObjectId) :
    (taskController.deleteTask s user id).store = s ∨
    ∃ task, taskService.findTaskByIdRaw s id = some task ∧ task.creator = user._id ∧
      (taskController.deleteTask s user id).store =
        { s with tasks := s.tasks.filter (fun t => t._id ≠ task._id) } := by
  cases hf : taskService.findTaskByIdRaw s id with
  | none => left; simp [taskController.deleteTask, hf, TaskOutcome.reply]
  | some task =>
    by_cases hc : task.creator = user._id
    · right
      refine ⟨task, rfl, hc, ?_⟩
      simp [taskController.deleteTask, hf, hc, taskService.deleteTask, Task.deleteOne]
    · left; simp [taskController.deleteTask, hf, hc, TaskOutcome.reply]

theorem markComplete_store (enums : TaskEnums) (s : TaskStore) (env : Env) (id : ObjectId) :
    (taskController.markComplete enums s env id).store = s ∨
    ∃ task completed s1, taskService.findTaskByIdRaw s id = some task ∧
      taskService.markTaskComplete enums s env.now task = .ok (completed, s1) ∧
      (taskController.markComplete enums s env id).store = s1 := by
  cases hf : taskService.findTaskByIdRaw s id with
  | none => left; simp [taskController.markComplete, hf, TaskOutcome.reply]
  | some task =>
    cases hm : taskService.markTaskComplete enums s env.now task with
    | error e => left; simp [taskController.markComplete, hf, hm, TaskOutcome.fail]
    | ok r =>
      obtain ⟨completed, s1⟩ := r
      right
      refine ⟨task, completed, s1, rfl, hm, ?_⟩
      by_cases hp : env.faults.publish = true
      · simp [taskController.markComplete, hf, hm, hp, TaskOutcome.fail]
      · simp [taskController.markComplete, hf, hm, hp]

theorem Comment.create_comment_spec {s : TaskStore} {content : Option String} {task author : ObjectId}
    {parentComment : Option ObjectId} {doc : Comment} {s1 : TaskStore}
    (h : Comment.create s content task author parentComment = .ok (doc, s1)) :
    doc = ⟨s.nextId, jsTrim (content.getD ""), task, author, parentComment, false, false⟩ ∧
      s1 = { s with comments := s.comments ++ [doc], nextId := s.nextId + 1 } := by
  unfold Comment.create at h
  simp only at h
  split at h
  · simp only [Except.ok.injEq, Prod.mk.injEq] at h
    obtain ⟨rfl, rfl⟩ := h
    exact ⟨rfl, rfl⟩
  · simp at h

theorem Comment.save_comment_spec {s : TaskStore} {original updated doc : Comment} {s1 : TaskStore}
    (h : Comment.save s original updated = .ok (doc, s1)) :
    doc = Comment.preSave (decide (updated.content ≠ original.content)) updated ∧
      doc.valid = true ∧
      s1 = { s with comments := s.comments.map (fun c => if c._id = doc._id then doc else c) } := by
  unfold Comment.save at h
  simp only at h
  split at h
  · rename_i hv
    simp only [Except.ok.injEq, Prod.mk.injEq] at h
    obtain ⟨rfl, rfl⟩ := h
    exact ⟨rfl, hv, rfl⟩
  · simp at h

/-- The comment handlers never write the task collection. -/
theorem comment_handlers_tasks (s : TaskStore) (env : Env) (user : User) (id : ObjectId)
    (content : Option String) (parentComment : Option ObjectId) :
    (commentController.createComment s env user id content parentComment).store.tasks =
        s.tasks ∧
      (commentController.updateComment s env user id content).store.tasks = s.tasks ∧
      (commentController.deleteComment s env user id).store.tasks = s.tasks := by
  refine ⟨?_, ?_, ?_⟩
  · cases hf : commentService.findTaskById s id with
    | none => simp [commentController.createComment, hf, TaskOutcome.reply]
    | some task =>
      cases hc : commentService.createComment s content id user._id parentComment with
      | error e => simp [commentController.createComment, hf, hc, TaskOutcome.fail]
      | ok r =>
        obtain ⟨doc, s1⟩ := r
        have := (Comment.create_comment_spec hc).2
        by_cases hp : env.faults.publish = true
        · simp [commentController.createComment, hf, hc, hp, TaskOutcome.fail, this]
        · simp [commentController.createComment, hf, hc, hp, this]
  · cases hf : commentService.findCommentById s id with
    | none => simp [commentController.updateComment, hf, TaskOutcome.reply]
    | some comment =>
      by_cases ha : comment.author = user._id
      · cases hc : commentService.updateComment s comment content with
        | error e => simp [commentController.updateComment, hf, ha, hc, TaskOutcome.fail]
        | ok r =>
          obtain ⟨doc, s1⟩ := r
          have := (Comment.save_comment_spec hc).2.2
          by_cases hp : env.faults.publish = true
          · simp [commentController.updateComment, hf, ha, hc, hp, TaskOutcome.fail, this]
          · simp [commentController.updateComment, hf, ha, hc, hp, this]
      · simp [commentController.updateComment, hf, ha, TaskOutcome.reply]
  · cases hf : commentService.findCommentById s id with
    | none => simp [commentController.deleteComment, hf, TaskOutcome.reply]
    | some comment =>
      by_cases ha : comment.author = user._id
      · cases hc : commentService.softDeleteComment s comment with
        | error e => simp [commentController.deleteComment, hf, ha, hc, TaskOutcome.fail]
        | ok r =>
          obtain ⟨doc, s1⟩ := r
          have := (Comment.save_comment_spec hc).2.2
          by_cases hp : env.faults.publish = true
          · simp [commentController.deleteComment, hf, ha, hc, hp, TaskOutcome.fail, this]
          · simp [commentController.deleteComment, hf, ha, hc, hp, this]
      · simp [commentController.deleteComment, hf, ha, TaskOutcome.reply]

/-- Every task and comment handler keeps the invariant on all stored tasks. -/
theorem taskHandle_completedAtOk (enums : TaskEnums) (s : TaskStore) (c : TaskCall)
    (h : ∀ t ∈ s.tasks, t.completedAtOk) :
    ∀ t ∈ (taskHandle enums s c).store.tasks, t.completedAtOk := by
  have hsave : ∀ {now : Date} {task updated doc : Task} {s1 : TaskStore},
      task ∈ s.tasks → updated.completedAt = task.completedAt →
      Task.save enums s now task updated = .ok (doc, s1) →
      ∀ t ∈ s1.tasks, t.completedAtOk := by
    intro now task updated doc s1 hmem hc hs t ht
    rw [(Task.save_task_spec hs).2.2] at ht
    rcases mem_map_replace ht with rfl | ht
    · exact Task.save_completedAtOk hs (h task hmem) hc
    · exact h t ht
  obtain ⟨env, user, request⟩ := c
  cases request with
  | createTask body =>
    rcases createTask_store enums s env user body with e | ⟨task, s1, hc, e⟩
    · simp only [taskHandle]; rw [e]; exact h
    · simp only [taskHandle]; rw [e]
      have hspec := Task.create_task_spec hc
      rw [hspec.2.2.2]
      intro t ht
      simp only [List.mem_append, List.mem_singleton] at ht
      rcases ht with ht | rfl
      · exact h t ht
      · exact hspec.1
  | updateTask id body =>
    rcases updateTask_store enums s env user id body with e | ⟨task, updated, s1, hf, _, hu, e⟩
    · simp only [taskHandle]; rw [e]; exact h
    · simp only [taskHandle]; rw [e]
      have hu' : Task.save enums s env.now task (taskService.assignUpdates task body) =
          .ok (updated, s1) := hu
      have hc : (taskService.assignUpdates task body).completedAt = task.completedAt := rfl
      exact hsave (findTaskByIdRaw_some hf).1 hc hu'
  | deleteTask id =>
    rcases deleteTask_store s user id with e | ⟨task, _, _, e⟩
    · simp only [taskHandle]; rw [e]; exact h
    · simp only [taskHandle]; rw [e]
      intro t ht
      exact h t (List.mem_of_mem_filter ht)
  | markComplete id =>
    rcases markComplete_store enums s env id with e | ⟨task, completed, s1, hf, hm, e⟩
    · simp only [taskHandle]; rw [e]; exact h
    · simp only [taskHandle]; rw [e]
      have hm' : Task.save enums s env.now task { task with status := taskStatus.COMPLETED } =
          .ok (completed, s1) := hm
      have hc : ({ task with status := taskStatus.COMPLETED } : Task).completedAt =
          task.completedAt := rfl
      exact hsave (findTaskByIdRaw_some hf).1 hc hm'
  | createComment taskId content parentComment =>
    simp only [taskHandle]
    rw [(comment_handlers_tasks s env user taskId content parentComment).1]
    exact h
  | updateComment id content =>
    simp only [taskHandle]
    rw [(comment_handlers_tasks s env user id content none).2.1]
    exact h
  | deleteComment id =>
    simp only [taskHandle]
    rw [(comment_handlers_tasks s env user id none none).2.2]
    exact h

theorem taskReachable_completedAtOk {enums : TaskEnums} {s : TaskStore}
    (h : TaskReachable enums s) : ∀ t ∈ s.tasks, t.completedAtOk := by
  induction h with
  | empty => intro t ht; cases ht
  | step s c _ ih => exact taskHandle_completedAtOk enums s c ih

theorem taskReachable_run {enums : TaskEnums} {s : TaskStore} (h : TaskReachable enums s)
    (cs : List TaskCall) : TaskReachable enums (taskRun enums s cs) := by
  induction cs generalizing s with
  | nil => exact h
  | cons c cs ih => exact ih (TaskReachable.step s c h)

/-- C16: in every task store reachable from the empty one by task and comment
requests, whatever the enum lists, every stored task has `completedAt` non-null
if and only if its status is completed; and each save made from such a store by
`createTask`, `updateTask` or `markTaskComplete` returns, and stores, a task for
which this holds again. -/
theorem completedAt_iff_completed (enums : TaskEnums) (s : TaskStore)
    (h : TaskReachable enums s) :
    (∀ t ∈ s.tasks, t.completedAt ≠ none ↔ t.status = taskStatus.COMPLETED) ∧
    (∀ now data creator doc s1, taskService.createTask enums s now data creator = .ok (doc, s1) →
      (doc.completedAt ≠ none ↔ doc.status = taskStatus.COMPLETED) ∧ doc ∈ s1.tasks) ∧
    (∀ task ∈ s.tasks, ∀ now updates doc s1,
      taskService.updateTask enums s now task updates = .ok (doc, s1) →
        (doc.completedAt ≠ none ↔ doc.status = taskStatus.COMPLETED) ∧
          ∀ t ∈ s1.tasks, t._id = task._id → t = doc) ∧
    (∀ task ∈ s.tasks, ∀ now doc s1,
      taskService.markTaskComplete enums s now task = .ok (doc, s1) →
        doc.status = taskStatus.COMPLETED ∧ doc.completedAt ≠ none ∧
          ∀ t ∈ s1.tasks, t._id = task._id → t = doc) := by
  have hinv := taskReachable_completedAtOk h
  have hstored : ∀ {now : Date} {task updated doc : Task} {s1 : TaskStore},
      updated._id = task._id → Task.save enums s now task updated = .ok (doc, s1) →
      ∀ t ∈ s1.tasks, t._id = task._id → t = doc := by
    intro now task updated doc s1 hid hs t ht htid
    have hspec := Task.save_task_spec hs
    have hdoc : doc._id = task._id := by
      rw [hspec.1, ← hid]; unfold Task.preSave; split <;> rfl
    rw [hspec.2.2] at ht
    simp only [List.mem_map] at ht
    obtain ⟨x, _, rfl⟩ := ht
    split
    · rfl
    · rename_i hne
      rw [if_neg hne] at htid
      exact absurd (htid.trans hdoc.symm) hne
  refine ⟨hinv, ?_, ?_, ?_⟩
  · intro now data creator doc s1 hc
    have hspec := Task.create_task_spec hc
    refine ⟨hspec.1, ?_⟩
    rw [hspec.2.2.2]
    simp
  · intro task hmem now updates doc s1 hu
    have hu' : Task.save enums s now task (taskService.assignUpdates task updates) =
        .ok (doc, s1) := hu
    have hc : (taskService.assignUpdates task updates).completedAt = task.completedAt := rfl
    have hid : (taskService.assignUpdates task updates)._id = task._id := rfl
    exact ⟨Task.save_completedAtOk hu' (hinv task hmem) hc, hstored hid hu'⟩
  · intro task hmem now doc s1 hm
    have hm' : Task.save enums s now task { task with status := taskStatus.COMPLETED } =
        .ok (doc, s1) := hm
    have hc : ({ task with status := taskStatus.COMPLETED } : Task).completedAt =
        task.completedAt := rfl
    have hid : ({ task with status := taskStatus.COMPLETED } : Task)._id = task._id := rfl
    have hok : doc.completedAtOk := Task.save_completedAtOk hm' (hinv task hmem) hc
    have hst : doc.status = taskStatus.COMPLETED := by
      rw [(Task.save_task_spec hm').1]; unfold Task.preSave; split <;> rfl
    exact ⟨hst, hok.mpr hst, hstored hid hm'⟩

/-- The task created as completed, reopened and completed again has its
`completedAt` set, the date of the last completion. -/
theorem completedAt_iff_completed_witness :
    taskShip ∈ toggledStore.tasks ∧
      (taskShip.completedAt ≠ none ↔ taskShip.status = taskStatus.COMPLETED) :=
  ⟨by decide, (completedAt_iff_completed sampleEnums toggledStore
    (taskReachable_run TaskReachable.empty _)).1 taskShip (by decide)⟩

/-! ## Tasks: who may update, delete and complete -/

/-- C17: for a stored task, `updateTask` by a caller who is neither the task's
creator nor its current assignee answers 403 Not authorized to update this task,
leaves the store unchanged and emits nothing.  For the creator or the assignee
the answer is never 403: the fields of the body are assigned and, when the
resulting document passes schema validation, it replaces the stored task (the
answer being 200 Task updated unless publishing throws); when it does not, the
answer is 400 Validation error and nothing is written.  So the store changes
only for the creator or the assignee. -/
theorem updateTask_authorization (enums : TaskEnums) (s : TaskStore) (env : Env) (user : User)
    (id : ObjectId) (body : TaskBody) (task : Task)
    (hf : taskService.findTaskByIdRaw s id = some task) :
    (task.creator ≠ user._id → task.assignee ≠ some user._id →
      taskController.updateTask enums s env user id body =
        ⟨s, ⟨403, "Not authorized to update this task"⟩, []⟩) ∧
    (task.creator = user._id ∨ task.assignee = some user._id →
      (taskController.updateTask enums s env user id body).response.status ≠ 403 ∧
      ((Task.preSave (decide ((taskService.assignUpdates task body).status ≠ task.status))
            env.now (taskService.assignUpdates task body)).valid enums = true →
        (taskController.updateTask enums s env user id body).store =
            { s with tasks := s.tasks.map (fun t => if t._id = task._id then
                Task.preSave (decide ((taskService.assignUpdates task body).status ≠ task.status))
                  env.now (taskService.assignUpdates task body) else t) } ∧
          (env.faults.publish = false →
            (taskController.updateTask enums s env user id body).response =
              ⟨200, "Task updated"⟩)) ∧
      ((Task.preSave (decide ((taskService.assignUpdates task body).status ≠ task.status))
            env.now (taskService.assignUpdates task body)).valid enums = false →
        taskController.updateTask enums s env user id body =
          ⟨s, ⟨400, "Validation error"⟩, []⟩)) ∧
    ((taskController.updateTask enums s env user id body).store ≠ s →
      task.creator = user._id ∨ task.assignee = some user._id) := by
  have hno : task.creator ≠ user._id → task.assignee ≠ some user._id →
      taskController.updateTask enums s env user id body =
        ⟨s, ⟨403, "Not authorized to update this task"⟩, []⟩ := by
    intro h1 h2
    simp [taskController.updateTask, hf, h1, h2, TaskOutcome.reply]
  refine ⟨hno, ?_, ?_⟩
  · intro hauth
    have hpre : (Task.preSave (decide ((taskService.assignUpdates task body).status ≠ task.status))
        env.now (taskService.assignUpdates task body))._id = task._id := by
      unfold Task.preSave; split <;> rfl
    generalize hdoc : Task.preSave
      (decide ((taskService.assignUpdates task body).status ≠ task.status)) env.now
      (taskService.assignUpdates task body) = doc at hpre
    have hsvc : taskService.updateTask enums s env.now task body =
        if doc.valid enums = true then
          .ok (doc, { s with tasks := s.tasks.map (fun t => if t._id = doc._id then doc else t) })
        else .error .validationError := by
      rw [← hdoc]; rfl
    refine ⟨?_, ?_, ?_⟩
    · by_cases hv : doc.valid enums = true
      · rw [if_pos hv] at hsvc
        by_cases hp : env.faults.publish = true
        · rcases hauth with ha | ha <;>
            simp [taskController.updateTask, hf, ha, hsvc, hp, TaskOutcome.fail, errorHandler]
        · rcases hauth with ha | ha <;>
            simp [taskController.updateTask, hf, ha, hsvc, hp]
      · rw [if_neg hv] at hsvc
        rcases hauth with ha | ha <;>
          simp [taskController.updateTask, hf, ha, hsvc, TaskOutcome.fail, errorHandler]
    · intro hv
      rw [if_pos hv] at hsvc
      rw [← hpre]
      constructor
      · by_cases hp : env.faults.publish = true
        · rcases hauth with ha | ha <;>
            simp [taskController.updateTask, hf, ha, hsvc, hp, TaskOutcome.fail]
        · rcases hauth with ha | ha <;>
            simp [taskController.updateTask, hf, ha, hsvc, hp]
      · intro hp
        rcases hauth with ha | ha <;>
          simp [taskController.updateTask, hf, ha, hsvc, hp]
    · intro hv
      have hv' : ¬ doc.valid enums = true := by simp [hv]
      rw [if_neg hv'] at hsvc
      rcases hauth with ha | ha <;>
        simp [taskController.updateTask, hf, ha, hsvc, TaskOutcome.fail, errorHandler]
  · intro hne
    by_contra hauth
    simp only [not_or] at hauth
    rw [hno hauth.1 hauth.2] at hne
    exact hne rfl

/-- User C may not rename the task of A assigned to B; the assignee B may. -/
theorem updateTask_authorization_witness :
    taskController.updateTask sampleEnums taskStoreA sampleEnv userC 0
        { TaskBody.none with title := some "Hacked" } =
        ⟨taskStoreA, ⟨403, "Not authorized to update this task"⟩, []⟩ ∧
      (taskController.updateTask sampleEnums taskStoreA sampleEnv userB 0
        { TaskBody.none with title := some "Edit" }).response = ⟨200, "Task updated"⟩ :=
  ⟨(updateTask_authorization sampleEnums taskStoreA sampleEnv userC 0
      { TaskBody.none with title := some "Hacked" } taskWrite (by decide)).1
      (by decide) (by decide),
    (((updateTask_authorization sampleEnums taskStoreA sampleEnv userB 0
      { TaskBody.none with title := some "Edit" } taskWrite (by decide)).2.1
      (Or.inr (by decide))).2.1 (by decide)).2 (by decide)⟩

/-- C18: for a stored task, `deleteTask` by the task's creator answers 200 Task
deleted and the task is no longer found; every other caller, the assignee
included, gets 403 Not authorized to delete this task with the store unchanged,
so the task is still stored as it was; the answer is 200 exactly for the creator. -/
theorem deleteTask_creator_only (s : TaskStore) (user : User) (id : ObjectId) (task : Task)
    (hf : taskService.findTaskByIdRaw s id = some task) :
    (task.creator = user._id →
      taskController.deleteTask s user id =
          ⟨{ s with tasks := s.tasks.filter (fun t => t._id ≠ id) }, ⟨200, "Task deleted"⟩,
            []⟩ ∧
        taskService.findTaskByIdRaw (taskController.deleteTask s user id).store id = none) ∧
    (task.creator ≠ user._id →
      taskController.deleteTask s user id =
          ⟨s, ⟨403, "Not authorized to delete this task"⟩, []⟩ ∧
        taskService.findTaskByIdRaw (taskController.deleteTask s user id).store id =
          some task) ∧
    ((taskController.deleteTask s user id).response = ⟨200, "Task deleted"⟩ ↔
      task.creator = user._id) := by
  have hid := (findTaskByIdRaw_some hf).2
  have hyes : task.creator = user._id →
      taskController.deleteTask s user id =
        ⟨{ s with tasks := s.tasks.filter (fun t => t._id ≠ id) }, ⟨200, "Task deleted"⟩,
          []⟩ := by
    intro hc
    simp [taskController.deleteTask, hf, hc, taskService.deleteTask, Task.deleteOne, hid]
  have hno : task.creator ≠ user._id →
      taskController.deleteTask s user id =
        ⟨s, ⟨403, "Not authorized to delete this task"⟩, []⟩ := by
    intro hc
    simp [taskController.deleteTask, hf, hc, TaskOutcome.reply]
  refine ⟨?_, ?_, ?_⟩
  · intro hc
    refine ⟨hyes hc, ?_⟩
    rw [hyes hc]
    simp only [taskService.findTaskByIdRaw]
    rw [List.find?_eq_none]
    intro t ht
    have := (List.mem_filter.mp ht).2
    simpa using this
  · intro hc
    refine ⟨hno hc, ?_⟩
    rw [hno hc]
    exact hf
  · constructor
    · intro hr
      by_contra hc
      rw [hno hc] at hr
      simp at hr
    · intro hc
      rw [hyes hc]

/-- The assignee B may not delete the task of A; the creator A may. -/
theorem deleteTask_creator_only_witness :
    taskController.deleteTask taskStoreA userB 0 =
        ⟨taskStoreA, ⟨403, "Not authorized to delete this task"⟩, []⟩ ∧
      (taskController.deleteTask taskStoreA userA 0).response = ⟨200, "Task deleted"⟩ :=
  ⟨((deleteTask_creator_only taskStoreA userB 0 taskWrite (by decide)).2.1 (by decide)).1,
    (deleteTask_creator_only taskStoreA userA 0 taskWrite (by decide)).2.2.mpr (by decide)⟩

/-- C19 does not hold of the code: `markComplete` makes no creator or assignee
check.  User C, who is neither the creator (A) nor the assignee (B) of the task
Write, is answered 200 and the stored task gets the status completed and a
`completedAt`, although `updateTask` turns the same caller away with 403. -/
theorem markComplete_by_stranger :
    taskWrite ∈ taskStoreA.tasks ∧ taskWrite.creator ≠ userC._id ∧
      taskWrite.assignee ≠ some userC._id ∧
      (taskHandle sampleEnums taskStoreA ⟨sampleEnv, userC, .markComplete 0⟩).response =
        ⟨200, "Task marked as complete"⟩ ∧
      (taskHandle sampleEnums taskStoreA ⟨sampleEnv, userC, .markComplete 0⟩).store.tasks =
        [{ taskWrite with status := "completed", completedAt := some 1000 }] ∧
      (taskHandle sampleEnums taskStoreA ⟨sampleEnv, userC,
        .updateTask 0 { TaskBody.none with status := some "completed" }⟩).response.status =
        403 := by
  decide

/-! ## Comments: only the author edits and deletes -/

theorem findCommentById_some {s : TaskStore} {id : ObjectId} {comment : Comment}
    (h : commentService.findCommentById s id = some comment) :
    comment ∈ s.comments ∧ comment._id = id := by
  unfold commentService.findCommentById at h
  have hp := List.find?_some h
  simp only [decide_eq_true_eq] at hp
  exact ⟨List.mem_of_find?_eq_some h, hp⟩

/-- The stores `updateComment` can leave: the old one, or the old one with the
documents of the comment's id replaced by one document of the same id and author. -/
theorem updateComment_store (s : TaskStore) (env : Env) (user : User) (id : ObjectId)
    (content : Option String) :
    (commentController.updateComment s env user id content).store = s ∨
    ∃ comment doc, commentService.findCommentById s id = some comment ∧
      comment.author = user._id ∧ doc._id = comment._id ∧ doc.author = comment.author ∧
      (commentController.updateComment s env user id content).store =
        { s with comments := s.comments.map (fun c => if c._id = doc._id then doc else c) } := by
  cases hf : commentService.findCommentById s id with
  | none => left; simp [commentController.updateComment, hf, TaskOutcome.reply]
  | some comment =>
    by_cases ha : comment.author = user._id
    · cases hc : commentService.updateComment s comment content with
      | error e => left; simp [commentController.updateComment, hf, ha, hc, TaskOutcome.fail]
      | ok r =>
        obtain ⟨doc, s1⟩ := r
        have hspec := Comment.save_comment_spec hc
        right
        refine ⟨comment, doc, rfl, ha, ?_, ?_, ?_⟩
        · rw [hspec.1]; unfold Comment.preSave; split <;> rfl
        · rw [hspec.1]; unfold Comment.preSave; split <;> rfl
        · rw [← hspec.2.2]
          by_cases hp : env.faults.publish = true
          · simp [commentController.updateComment, hf, ha, hc, hp, TaskOutcome.fail]
          · simp [commentController.updateComment, hf, ha, hc, hp]
    · left; simp [commentController.updateComment, hf, ha, TaskOutcome.reply]

theorem deleteComment_store (s : TaskStore) (env : Env) (user : User) (id : ObjectId) :
    (commentController.deleteComment s env user id).store = s ∨
    ∃ comment doc, commentService.findCommentById s id = some comment ∧
      comment.author = user._id ∧ doc._id = comment._id ∧ doc.author = comment.author ∧
      (commentController.deleteComment s env user id).store =
        { s with comments := s.comments.map (fun c => if c._id = doc._id then doc else c) } := by
  cases hf : commentService.findCommentById s id with
  | none => left; simp [commentController.deleteComment, hf, TaskOutcome.reply]
  | some comment =>
    by_cases ha : comment.author = user._id
    · cases hc : commentService.softDeleteComment s comment with
      | error e => left; simp [commentController.deleteComment, hf, ha, hc, TaskOutcome.fail]
      | ok r =>
        obtain ⟨doc, s1⟩ := r
        have hspec := Comment.save_comment_spec hc
        right
        refine ⟨comment, doc, rfl, ha, ?_, ?_, ?_⟩
        · rw [hspec.1]; unfold Comment.preSave; split <;> rfl
        · rw [hspec.1]; unfold Comment.preSave; split <;> rfl
        · rw [← hspec.2.2]
          by_cases hp : env.faults.publish = true
          · simp [commentController.deleteComment, hf, ha, hc, hp, TaskOutcome.fail]
          · simp [commentController.deleteComment, hf, ha, hc, hp]
    · left; simp [commentController.deleteComment, hf, ha, TaskOutcome.reply]

theorem updateComment_service_eq (s : TaskStore) (comment : Comment) (content : Option String) :
    commentService.updateComment s comment content =
      if (Comment.preSave (decide (jsTrim (content.getD "") ≠ comment.content))
          { comment with content := jsTrim (content.getD "") }).valid = true then
        .ok (Comment.preSave (decide (jsTrim (content.getD "") ≠ comment.content))
            { comment with content := jsTrim (content.getD "") },
          { s with comments := s.comments.map (fun c => if c._id = comment._id then
              Comment.preSave (decide (jsTrim (content.getD "") ≠ comment.content))
                { comment with content := jsTrim (content.getD "") } else c) })
      else .error .validationError := by
  have hid : (Comment.preSave (decide (jsTrim (content.getD "") ≠ comment.content))
      { comment with content := jsTrim (content.getD "") })._id = comment._id := by
    unfold Comment.preSave; split <;> rfl
  unfold commentService.updateComment Comment.save
  simp only [hid]

theorem softDeleteComment_service_eq (s : TaskStore) (comment : Comment) :
    commentService.softDeleteComment s comment =
      if comment.valid = true then
        .ok ({ comment with isDeleted := true },
          { s with comments := s.comments.map (fun c => if c._id = comment._id then
              { comment with isDeleted := true } else c) })
      else .error .validationError := by
  unfold commentService.softDeleteComment Comment.save
  simp [Comment.preSave, Comment.valid]

/-- C20: for a stored comment, `updateComment` and `deleteComment` by a caller
who is not the comment's author each answer 403 Not authorized, leave the store
unchanged (content, `isEdited` and `isDeleted` stay) and emit nothing.  For the
author neither answers 403: the update stores the trimmed content (marking the
comment edited when the content changed) when it passes validation, and the
delete stores `isDeleted = true`, each answered 200 unless publishing throws.
The store changes only for the author, and after either handler every stored
comment is one that was stored before or has the id and the author of the
comment addressed, so an author is never changed. -/
theorem comment_author_only (s : TaskStore) (env : Env) (user : User) (id : ObjectId)
    (content : Option String) (comment : Comment)
    (hf : commentService.findCommentById s id = some comment) :
    (comment.author ≠ user._id →
      commentController.updateComment s env user id content =
          ⟨s, ⟨403, "Not authorized"⟩, []⟩ ∧
        commentController.deleteComment s env user id = ⟨s, ⟨403, "Not authorized"⟩, []⟩) ∧
    (comment.author = user._id →
      (commentController.updateComment s env user id content).response.status ≠ 403 ∧
      (commentController.deleteComment s env user id).response.status ≠ 403 ∧
      ((Comment.preSave (decide (jsTrim (content.getD "") ≠ comment.content))
            { comment with content := jsTrim (content.getD "") }).valid = true →
        (commentController.updateComment s env user id content).store =
            { s with comments := s.comments.map (fun c => if c._id = comment._id then
                Comment.preSave (decide (jsTrim (content.getD "") ≠ comment.content))
                  { comment with content := jsTrim (content.getD "") } else c) } ∧
          (env.faults.publish = false →
            (commentController.updateComment s env user id content).response =
              ⟨200, "Comment updated"⟩)) ∧
      (comment.valid = true →
        (commentController.deleteComment s env user id).store =
            { s with comments := s.comments.map (fun c => if c._id = comment._id then
                { comment with isDeleted := true } else c) } ∧
          (env.faults.publish = false →
            (commentController.deleteComment s env user id).response =
              ⟨200, "Comment deleted"⟩))) ∧
    (((commentController.updateComment s env user id content).store ≠ s ∨
        (commentController.deleteComment s env user id).store ≠ s) →
      comment.author = user._id) ∧
    (∀ c ∈ (commentController.updateComment s env user id content).store.comments,
      c ∈ s.comments ∨ (c._id = comment._id ∧ c.author = comment.author)) ∧
    (∀ c ∈ (commentController.deleteComment s env user id).store.comments,
      c ∈ s.comments ∨ (c._id = comment._id ∧ c.author = comment.author)) := by
  have hno : comment.author ≠ user._id →
      commentController.updateComment s env user id content =
          ⟨s, ⟨403, "Not authorized"⟩, []⟩ ∧
        commentController.deleteComment s env user id = ⟨s, ⟨403, "Not authorized"⟩, []⟩ := by
    intro ha
    constructor
    · simp [commentController.updateComment, hf, ha, TaskOutcome.reply]
    · simp [commentController.deleteComment, hf, ha, TaskOutcome.reply]
  refine ⟨hno, ?_, ?_, ?_, ?_⟩
  · intro ha
    have hu := updateComment_service_eq s comment content
    have hd := softDeleteComment_service_eq s comment
    generalize Comment.preSave (decide (jsTrim (content.getD "") ≠ comment.content))
      { comment with content := jsTrim (content.getD "") } = doc at hu ⊢
    refine ⟨?_, ?_, ?_, ?_⟩
    · by_cases hv : doc.valid = true
      · rw [if_pos hv] at hu
        by_cases hp : env.faults.publish = true
        · simp [commentController.updateComment, hf, ha, hu, hp, TaskOutcome.fail, errorHandler]
        · simp [commentController.updateComment, hf, ha, hu, hp]
      · rw [if_neg hv] at hu
        simp [commentController.updateComment, hf, ha, hu, TaskOutcome.fail, errorHandler]
    · by_cases hv : comment.valid = true
      · rw [if_pos hv] at hd
        by_cases hp : env.faults.publish = true
        · simp [commentController.deleteComment, hf, ha, hd, hp, TaskOutcome.fail, errorHandler]
        · simp [commentController.deleteComment, hf, ha, hd, hp]
      · rw [if_neg hv] at hd
        simp [commentController.deleteComment, hf, ha, hd, TaskOutcome.fail, errorHandler]
    · intro hv
      rw [if_pos hv] at hu
      constructor
      · by_cases hp : env.faults.publish = true
        · simp [commentController.updateComment, hf, ha, hu, hp, TaskOutcome.fail]
        · simp [commentController.updateComment, hf, ha, hu, hp]
      · intro hp
        simp [commentController.updateComment, hf, ha, hu, hp]
    · intro hv
      rw [if_pos hv] at hd
      constructor
      · by_cases hp : env.faults.publish = true
        · simp [commentController.deleteComment, hf, ha, hd, hp, TaskOutcome.fail]
        · simp [commentController.deleteComment, hf, ha, hd, hp]
      · intro hp
        simp [commentController.deleteComment, hf, ha, hd, hp]
  · intro hne
    by_contra ha
    have := hno ha
    rcases hne with hne | hne
    · rw [this.1] at hne; exact hne rfl
    · rw [this.2] at hne; exact hne rfl
  · intro c hc
    rcases updateComment_store s env user id content with e | ⟨comment', doc, hf', _, hid, hau, e⟩
    · rw [e] at hc; exact Or.inl hc
    · rw [hf] at hf'
      simp only [Option.some.injEq] at hf'
      subst hf'
      rw [e] at hc
      rcases mem_map_replace hc with rfl | hc
      · exact Or.inr ⟨hid, hau⟩
      · exact Or.inl hc
  · intro c hc
    rcases deleteComment_store s env user id with e | ⟨comment', doc, hf', _, hid, hau, e⟩
    · rw [e] at hc; exact Or.inl hc
    · rw [hf] at hf'
      simp only [Option.some.injEq] at hf'
      subst hf'
      rw [e] at hc
      rcases mem_map_replace hc with rfl | hc
      · exact Or.inr ⟨hid, hau⟩
      · exact Or.inl hc

/-- User A may neither edit nor delete the comment of B; B may do both. -/
theorem comment_author_only_witness :
    commentController.updateComment commentedStore sampleEnv userA 1 (some "Mine") =
        ⟨commentedStore, ⟨403, "Not authorized"⟩, []⟩ ∧
      commentController.deleteComment commentedStore sampleEnv userA 1 =
        ⟨commentedStore, ⟨403, "Not authorized"⟩, []⟩ ∧
      (commentController.updateComment commentedStore sampleEnv userB 1
        (some "Draft two")).response = ⟨200, "Comment updated"⟩ ∧
      (commentController.deleteComment commentedStore sampleEnv userB 1).response =
        ⟨200, "Comment deleted"⟩ :=
  ⟨((comment_author_only commentedStore sampleEnv userA 1 (some "Mine") commentDraft
      (by decide)).1 (by decide)).1,
    ((comment_author_only commentedStore sampleEnv userA 1 (some "Mine") commentDraft
      (by decide)).1 (by decide)).2,
    ((((comment_author_only commentedStore sampleEnv userB 1 (some "Draft two") commentDraft
      (by decide)).2.1 (by decide)).2.2.1) (by decide)).2 (by decide),
    ((((comment_author_only commentedStore sampleEnv userB 1 (some "Draft two") commentDraft
      (by decide)).2.1 (by decide)).2.2.2) (by decide)).2 (by decide)⟩

/-! ## Pagination -/

theorem JsNumber.ofInt_exact {n : Int} (h : n.natAbs ≤ 2 ^ 53) : JsNumber.ofInt n = .int n := by
  unfold JsNumber.ofInt roundToDouble
  rw [if_pos h]
  simp only
  congr 1
  split <;> omega

theorem mathCeilDiv_spec (total : Nat) (limit : Int) (h : 1 ≤ limit) (ht : total ≤ 2 ^ 53) :
    ∃ p : Int, mathCeilDiv total (.int limit) = .int p ∧ 0 ≤ p ∧ (total : Int) ≤ p * limit ∧
      ∀ q : Int, (total : Int) ≤ q * limit → p ≤ q := by
  have hpos : 0 < limit := by omega
  have hne : limit ≠ 0 := by omega
  have hnn : 0 ≤ ((total : Int) + limit - 1) / limit := by
    apply Int.ediv_nonneg <;> omega
  have hle : (total : Int) ≤ ((total : Int) + limit - 1) / limit * limit := by
    by_contra hlt
    have h1 : (((total : Int) + limit - 1) / limit + 1) * limit ≤ (total : Int) + limit - 1 := by
      have : ((total : Int) + limit - 1) / limit * limit < (total : Int) := by omega
      calc (((total : Int) + limit - 1) / limit + 1) * limit
          = ((total : Int) + limit - 1) / limit * limit + limit := by ring
        _ ≤ (total : Int) + limit - 1 := by omega
    have h2 := (Int.le_ediv_iff_mul_le hpos).mpr h1
    omega
  have hleast : ∀ q : Int, (total : Int) ≤ q * limit →
      ((total : Int) + limit - 1) / limit ≤ q := by
    intro q hq
    have h1 : (total : Int) + limit - 1 < (q + 1) * limit := by
      have : (q + 1) * limit = q * limit + limit := by ring
      omega
    have h2 := (Int.ediv_lt_iff_lt_mul hpos).mpr h1
    omega
  have hup : ((total : Int) + limit - 1) / limit ≤ (total : Int) := by
    apply hleast
    have : (total : Int) * 1 ≤ (total : Int) * limit :=
      Int.mul_le_mul_of_nonneg_left h (by omega)
    omega
  refine ⟨((total : Int) + limit - 1) / limit, ?_, hnn, hle, hleast⟩
  have hexact : (((total : Int) + limit - 1) / limit).natAbs ≤ 2 ^ 53 := by omega
  simp only [mathCeilDiv, hne, hpos, if_false, if_true]
  exact JsNumber.ofInt_exact hexact

/-- C29, counterexample: the page parameter 9007199254740993 (2^53 + 1) with the
limit parameter 3.  `parseInt` gives the double 9007199254740992 for the page,
and the skip handed to the query is the double 27021597764222972, which is not
(page − 1) · limit = 27021597764222973. -/
theorem pagination_beyond_exact_integers :
    (pagination sampleConstants (some "9007199254740993") (some "3") 5).page =
      .int 9007199254740992 ∧
    (pagination sampleConstants (some "9007199254740993") (some "3") 5).limit = .int 3 ∧
    (pagination sampleConstants (some "9007199254740993") (some "3") 5).skip =
      .int 27021597764222972 ∧
    (27021597764222972 : Int) ≠ (9007199254740992 - 1) * 3 := by
  decide

/-- C29, amended: numbers are doubles.  For a list request whose limit parameter
parses to L ≥ 1, with constants and a total of at most 2^53 and a maximum limit
of at least 1, the pagination of the response has limit = min(L, MAX_LIMIT) and
pages the least number p with p · limit ≥ total; when the page is the finite
number P and (P − 1) · limit is at most 2^53 in absolute value, skip =
(P − 1) · limit.  A page or limit parameter that is missing, that `parseInt`
cannot read, or that is zero falls back to DEFAULT_PAGE, respectively
DEFAULT_LIMIT (capped by MAX_LIMIT).  The pagination of `getTasks` is this
block applied to the number of tasks matching its filter. -/
theorem pagination_spec (c : PaginationConstants) (page limit : String) (total : Nat)
    (L : Int) (hc : c.Exact) (hmax : 1 ≤ c.MAX_LIMIT) (hL : jsParseInt limit = .int L)
    (h1 : 1 ≤ L) (ht : total ≤ 2 ^ 53) :
    (pagination c (some page) (some limit) total).limit = .int (min L c.MAX_LIMIT) ∧
    (∃ p : Int, (pagination c (some page) (some limit) total).pages = .int p ∧ 0 ≤ p ∧
      (total : Int) ≤ p * min L c.MAX_LIMIT ∧
      ∀ q : Int, (total : Int) ≤ q * min L c.MAX_LIMIT → p ≤ q) ∧
    (∀ P : Int, (pagination c (some page) (some limit) total).page = .int P →
      ((P - 1) * min L c.MAX_LIMIT).natAbs ≤ 2 ^ 53 →
      (pagination c (some page) (some limit) total).skip =
        .int ((P - 1) * min L c.MAX_LIMIT)) ∧
    (pagination c (some page) (some limit) total).total = total ∧
    (jsParseInt page = .nan ∨ jsParseInt page = .int 0 →
      (pagination c (some page) (some limit) total).page = .int c.DEFAULT_PAGE) ∧
    (pagination c none (some limit) total).page = .int c.DEFAULT_PAGE ∧
    (∀ limit' : String, jsParseInt limit' = .nan ∨ jsParseInt limit' = .int 0 →
      (pagination c (some page) (some limit') total).limit =
        .int (min c.DEFAULT_LIMIT c.MAX_LIMIT)) ∧
    (pagination c (some page) none total).limit = .int (min c.DEFAULT_LIMIT c.MAX_LIMIT) ∧
    (∀ (textMatch : String → Task → Bool) (s : TaskStore) (user : User) (q : TaskQuery),
      taskController.getTasksPagination c textMatch s user q =
        pagination c q.page q.limit
          (s.tasks.filter (taskController.getTasksFilter textMatch user q)).length) := by
  obtain ⟨hdp, hdl, hml⟩ := hc
  have hM : JsNumber.ofInt c.MAX_LIMIT = .int c.MAX_LIMIT := JsNumber.ofInt_exact hml
  have hDP : JsNumber.ofInt c.DEFAULT_PAGE = .int c.DEFAULT_PAGE := JsNumber.ofInt_exact hdp
  have hDL : JsNumber.ofInt c.DEFAULT_LIMIT = .int c.DEFAULT_LIMIT := JsNumber.ofInt_exact hdl
  have hq : queryInt (some limit) c.DEFAULT_LIMIT = .int L := by
    have : L ≠ 0 := by omega
    simp [queryInt, hL, JsNumber.truthy, this]
  have hlim : (pagination c (some page) (some limit) total).limit =
      .int (min L c.MAX_LIMIT) := by
    simp only [pagination, hq, hM, JsNumber.min]
  have hge : 1 ≤ min L c.MAX_LIMIT := le_min h1 hmax
  have hfall : ∀ (v : String) (d : Int), jsParseInt v = .nan ∨ jsParseInt v = .int 0 →
      queryInt (some v) d = .ofInt d := by
    intro v d hv
    rcases hv with hv | hv <;> simp [queryInt, hv, JsNumber.truthy]
  refine ⟨hlim, ?_, ?_, rfl, ?_, ?_, ?_, ?_, fun _ _ _ _ => rfl⟩
  · have : (pagination c (some page) (some limit) total).pages =
        mathCeilDiv total (.int (min L c.MAX_LIMIT)) := by
      simp only [pagination, hq, hM, JsNumber.min]
    rw [this]
    exact mathCeilDiv_spec total _ hge ht
  · intro P hP hprod
    have hpage : queryInt (some page) c.DEFAULT_PAGE = .int P := hP
    have hP1 : (P - 1).natAbs ≤ 2 ^ 53 := by
      rw [Int.natAbs_mul] at hprod
      have hpos : 0 < (min L c.MAX_LIMIT).natAbs := by omega
      exact le_trans (Nat.le_mul_of_pos_right _ hpos) hprod
    simp only [pagination, hq, hM, JsNumber.min, hpage, JsNumber.minusOne,
      JsNumber.ofInt_exact hP1, JsNumber.mul, JsNumber.ofInt_exact hprod]
  · intro hp
    simp only [pagination, hfall page _ hp, hDP]
  · simp only [pagination, queryInt, hDP]
  · intro limit' hl
    simp only [pagination, hfall limit' _ hl, hDL, hM, JsNumber.min]
  · simp only [pagination, queryInt, hDL, hM, JsNumber.min]

/-- Five items at limit 2 give 3 pages and three items give 2; a limit of 500
is capped, and a limit that is no number falls back to the default. -/
theorem pagination_spec_witness :
    (pagination sampleConstants (some "1") (some "2") 5).pages = .int 3 ∧
      (pagination sampleConstants (some "2") (some "2") 3).pages = .int 2 ∧
      (pagination sampleConstants (some "2") (some "2") 3).skip = .int 2 ∧
      (pagination sampleConstants (some "1") (some "500") 3).limit = .int 100 ∧
      (pagination sampleConstants (some "1") (some "abc") 3).limit = .int 10 :=
  ⟨by decide, by decide,
    (pagination_spec sampleConstants "2" "2" 3 2 (by decide) (by decide) (by decide)
      (by decide) (by decide)).2.2.1 2 (by decide) (by decide),
    (pagination_spec sampleConstants "1" "500" 3 500 (by decide) (by decide) (by decide)
      (by decide) (by decide)).1,
    (pagination_spec sampleConstants "1" "2" 3 2 (by decide) (by decide) (by decide)
      (by decide) (by decide)).2.2.2.2.2.2.1 "abc" (Or.inl (by decide))⟩

/-! ## Comments: soft delete, listing, nesting -/

theorem find?_map_replace {α : Type} (key : α → ObjectId) (l : List α) (id : ObjectId)
    (x doc : α) (h : l.find? (fun c => key c = id) = some x) (hdoc : key doc = id) :
    (l.map (fun c => if key c = id then doc else c)).find? (fun c => key c = id) = some doc := by
  induction l with
  | nil => simp at h
  | cons a l ih =>
    by_cases ha : key a = id
    · simp [List.find?_cons, ha, hdoc]
    · have h' : l.find? (fun c => decide (key c = id)) = some x := by
        simpa [List.find?_cons, ha] using h
      rw [List.map_cons, if_neg ha, List.find?_cons_of_neg _ (by simpa using ha)]
      exact ih h'

/-- What `getComments` lists: stored top-level comments of the task that are not
deleted, each with stored replies to it that are not deleted. -/
theorem getComments_entries {c : PaginationConstants} {s : TaskStore} {taskId : ObjectId}
    {page limit : Option String} {listing : CommentListing}
    (h : commentController.getComments c s taskId page limit = .ok listing) :
    ∀ entry ∈ listing.comments,
      entry.1 ∈ s.comments ∧ entry.1.task = taskId ∧ entry.1.isDeleted = false ∧
      entry.1.parentComment = none ∧
      ∀ r ∈ entry.2, r ∈ s.comments ∧ r.isDeleted = false ∧
        r.parentComment = some entry.1._id := by
  unfold commentController.getComments at h
  simp only at h
  cases hfc : commentService.findComments s taskId
      (pagination c page limit (commentService.countComments s taskId)).skip.toLong
      (pagination c page limit (commentService.countComments s taskId)).limit.toLong with
  | error e => rw [hfc] at h; simp at h
  | ok comments =>
    rw [hfc] at h
    simp only [Except.ok.injEq] at h
    subst h
    have hsub : ∀ x ∈ comments, x ∈ (s.comments.filter
        (fun c => c.task = taskId ∧ c.isDeleted = false ∧ c.parentComment = none)) := by
      unfold commentService.findComments at hfc
      simp only at hfc
      intro x hx
      split at hfc
      · simp at hfc
      · split at hfc
        · simp only [Except.ok.injEq] at hfc
          rw [← hfc] at hx
          exact List.mem_reverse.mp (List.mem_of_mem_drop hx)
        · simp only [Except.ok.injEq] at hfc
          rw [← hfc] at hx
          exact List.mem_reverse.mp (List.mem_of_mem_drop (List.mem_of_mem_take hx))
    intro entry hentry
    simp only [List.mem_map] at hentry
    obtain ⟨x, hx, rfl⟩ := hentry
    have hx' := List.mem_filter.mp (hsub x hx)
    simp only [decide_eq_true_eq] at hx'
    refine ⟨hx'.1, hx'.2.1, hx'.2.2.1, hx'.2.2.2, ?_⟩
    intro r hr
    have hr' := List.mem_filter.mp hr
    simp only [decide_eq_true_eq] at hr'
    exact ⟨hr'.1, hr'.2.2, hr'.2.1⟩

/-- The replies `getComments` lists under an entry are what `findReplies` finds
for the id of the entry. -/
theorem getComments_replies {c : PaginationConstants} {s : TaskStore} {taskId : ObjectId}
    {page limit : Option String} {listing : CommentListing}
    (h : commentController.getComments c s taskId page limit = .ok listing) :
    ∀ entry ∈ listing.comments, entry.2 = commentService.findReplies s entry.1._id := by
  unfold commentController.getComments at h
  simp only at h
  cases hfc : commentService.findComments s taskId
      (pagination c page limit (commentService.countComments s taskId)).skip.toLong
      (pagination c page limit (commentService.countComments s taskId)).limit.toLong with
  | error e => rw [hfc] at h; simp at h
  | ok comments =>
    rw [hfc] at h
    simp only [Except.ok.injEq] at h
    subst h
    intro entry hentry
    simp only [List.mem_map] at hentry
    obtain ⟨x, _, rfl⟩ := hentry
    rfl

/-- C21: deleting a comment is a soft delete.  After a `deleteComment` answered
200 Comment deleted the comment is still stored and found by its id, with the
content it had and `isDeleted = true`; and in every store, for every task and
every page, no comment with `isDeleted = true` appears in the result of
`getComments`, neither as a top-level entry nor in a replies list. -/
theorem deleteComment_soft (s : TaskStore) (env : Env) (user : User) (id : ObjectId)
    (comment : Comment) (hf : commentService.findCommentById s id = some comment)
    (hok : (commentController.deleteComment s env user id).response =
      ⟨200, "Comment deleted"⟩) :
    commentService.findCommentById (commentController.deleteComment s env user id).store id =
        some { comment with isDeleted := true } ∧
      (∀ x ∈ (commentController.deleteComment s env user id).store.comments,
        x._id = id → x.content = comment.content ∧ x.isDeleted = true) ∧
      (∀ (c : PaginationConstants) (s2 : TaskStore) (taskId : ObjectId)
        (page limit : Option String) (listing : CommentListing),
        commentController.getComments c s2 taskId page limit = .ok listing →
        ∀ entry ∈ listing.comments, entry.1.isDeleted = false ∧
          ∀ r ∈ entry.2, r.isDeleted = false) := by
  have hid := (findCommentById_some hf).2
  have hstore : (commentController.deleteComment s env user id).store =
      { s with comments := s.comments.map (fun c => if c._id = id then
          { comment with isDeleted := true } else c) } := by
    have hd := softDeleteComment_service_eq s comment
    by_cases ha : comment.author = user._id
    · by_cases hv : comment.valid = true
      · rw [if_pos hv] at hd
        by_cases hp : env.faults.publish = true
        · simp [commentController.deleteComment, hf, ha, hd, hp, TaskOutcome.fail, hid]
        · simp [commentController.deleteComment, hf, ha, hd, hp, hid]
      · rw [if_neg hv] at hd
        exfalso
        simp [commentController.deleteComment, hf, ha, hd, TaskOutcome.fail, errorHandler] at hok
    · exfalso
      simp [commentController.deleteComment, hf, ha, TaskOutcome.reply] at hok
  refine ⟨?_, ?_, ?_⟩
  · rw [hstore]
    have hf' : s.comments.find? (fun c => decide (c._id = id)) = some comment := hf
    exact find?_map_replace (fun c : Comment => c._id) s.comments id comment _ hf' hid
  · intro x hx hxid
    rw [hstore] at hx
    simp only [List.mem_map] at hx
    obtain ⟨y, _, rfl⟩ := hx
    split
    · exact ⟨rfl, rfl⟩
    · rename_i hne
      rw [if_neg hne] at hxid
      exact absurd hxid hne
  · intro c s2 taskId page limit listing hl entry hentry
    have := getComments_entries hl entry hentry
    exact ⟨this.2.2.1, fun r hr => (this.2.2.2.2 r hr).2.1⟩

/-- User B deletes the own comment: it stays stored, flagged deleted. -/
theorem deleteComment_soft_witness :
    commentService.findCommentById
        (commentController.deleteComment commentedStore sampleEnv userB 1).store 1 =
      some { commentDraft with isDeleted := true } :=
  (deleteComment_soft commentedStore sampleEnv userB 1 commentDraft (by decide) (by decide)).1

/-- C22, as stated, fails: the store reached by a comment, a reply to it and a
reply to that reply holds a comment (id 3) whose parent (id 2) is itself a reply. -/
theorem createComment_reply_to_reply :
    TaskReachable sampleEnums nestedStore ∧
      ∃ c ∈ nestedStore.comments, ∃ p ∈ nestedStore.comments,
        c.parentComment = some p._id ∧ p.parentComment ≠ none :=
  ⟨taskReachable_run (taskReachable_run (taskReachable_run TaskReachable.empty _) _) _,
    by decide⟩

/-- C22, amended: comments are listed one level deep only.  In every result of
`getComments` each top-level entry is a stored comment of the requested task
with `parentComment = null`, and the replies list of an entry holds exactly the
stored comments that are not deleted and whose `parentComment` is the id of that
entry, whatever their own task: the parent of every listed reply exists, belongs
to the requested task and is itself top-level.  `createComment` stores the
`parentComment` of the request as given: it checks that the task exists and
nothing about the parent. -/
theorem comments_listed_one_level (c : PaginationConstants) (s : TaskStore) (taskId : ObjectId)
    (page limit : Option String) (listing : CommentListing)
    (h : commentController.getComments c s taskId page limit = .ok listing) :
    (∀ entry ∈ listing.comments,
      entry.1 ∈ s.comments ∧ entry.1.task = taskId ∧ entry.1.parentComment = none ∧
      ∀ r : Comment, r ∈ entry.2 ↔
        r ∈ s.comments ∧ r.parentComment = some entry.1._id ∧ r.isDeleted = false) ∧
    (∀ (env : Env) (user : User) (content : Option String) (parentComment : Option ObjectId),
      (commentController.createComment s env user taskId content parentComment).response =
          ⟨201, "Comment added"⟩ →
        (∃ t ∈ s.tasks, t._id = taskId) ∧
        (commentController.createComment s env user taskId content parentComment).store.comments =
          s.comments ++
            [⟨s.nextId, jsTrim (content.getD ""), taskId, user._id, parentComment, false,
              false⟩]) := by
  constructor
  · intro entry hentry
    have := getComments_entries h entry hentry
    refine ⟨this.1, this.2.1, this.2.2.2.1, fun r => ?_⟩
    rw [getComments_replies h entry hentry]
    unfold commentService.findReplies
    rw [List.mem_filter]
    simp only [Bool.decide_and, Bool.and_eq_true, decide_eq_true_eq]
  · intro env user content parentComment hok
    cases hf : commentService.findTaskById s taskId with
    | none =>
      exfalso
      simp [commentController.createComment, hf, TaskOutcome.reply] at hok
    | some task =>
      have ht : task ∈ s.tasks ∧ task._id = taskId := by
        unfold commentService.findTaskById at hf
        have hp := List.find?_some hf
        simp only [decide_eq_true_eq] at hp
        exact ⟨List.mem_of_find?_eq_some hf, hp⟩
      refine ⟨⟨task, ht.1, ht.2⟩, ?_⟩
      cases hc : commentService.createComment s content taskId user._id parentComment with
      | error e =>
        exfalso
        have := errorHandler_status e
        simp only [commentController.createComment, hf, hc, TaskOutcome.fail] at hok
        rw [hok] at this
        simp at this
      | ok r =>
        obtain ⟨doc, s1⟩ := r
        have hspec := Comment.create_comment_spec hc
        by_cases hp : env.faults.publish = true
        · exfalso
          simp [commentController.createComment, hf, hc, hp, TaskOutcome.fail, errorHandler]
            at hok
        · simp [commentController.createComment, hf, hc, hp, hspec.2, hspec.1]

/-- The listing of the nested store shows the comment of B with the one reply
to it; the reply to the reply is stored but not listed. -/
theorem comments_listed_one_level_witness :
    commentDraft ∈ nestedStore.comments ∧ commentDraft.parentComment = none ∧
      replyLooksGood ∈ nestedStore.comments ∧
      replyLooksGood.parentComment = some commentDraft._id :=
  have h := (comments_listed_one_level sampleConstants nestedStore 0 none none
    ⟨[(commentDraft, [replyLooksGood])], ⟨.int 1, .int 10, .int 0, 1, .int 1⟩⟩ (by rfl)).1
      (commentDraft, [replyLooksGood]) (List.mem_singleton.mpr rfl)
  ⟨h.1, h.2.2.1, ((h.2.2.2 replyLooksGood).mp (List.mem_singleton.mpr rfl)).1,
    ((h.2.2.2 replyLooksGood).mp (List.mem_singleton.mpr rfl)).2.1⟩

/-! ## Events of the task handlers -/

/-- The events of an `updateTask` answered 200: the `task:assigned` event, if
the guard lets it through, then `task:updated` with the saved task. -/
theorem updateTask_ok_events (enums : TaskEnums) (s : TaskStore) (env : Env) (user : User)
    (id : ObjectId) (body : TaskBody) (task : Task)
    (hf : taskService.findTaskByIdRaw s id = some task)
    (hok : (taskController.updateTask enums s env user id body).response =
      ⟨200, "Task updated"⟩) :
    ∃ updated : Task, updated._id = id ∧
      (taskController.updateTask enums s env user id body).events =
        (match body.assignee with
          | some (some assignee) =>
            if some assignee ≠ task.assignee ∧ assignee ≠ user._id then
              [⟨Room.user assignee, "task:assigned", .task updated⟩]
            else []
          | _ => []) ++ [⟨Room.task id, "task:updated", .task updated⟩] := by
  have hid := (findTaskByIdRaw_some hf).2
  by_cases hauth : task.creator = user._id ∨ task.assignee = some user._id
  · cases hu : taskService.updateTask enums s env.now task body with
    | error e =>
      exfalso
      have := errorHandler_status e
      rcases hauth with ha | ha <;>
        · simp only [taskController.updateTask, hf, ha, hu, TaskOutcome.fail, decide_True,
            Bool.not_true, Bool.false_and, Bool.and_false, Bool.false_eq_true, if_false] at hok
          rw [hok] at this
          simp at this
    | ok r =>
      obtain ⟨updated, s1⟩ := r
      have hu' : Task.save enums s env.now task (taskService.assignUpdates task body) =
          .ok (updated, s1) := hu
      have hupd : updated._id = id := by
        rw [(Task.save_task_spec hu').1, ← hid]
        unfold Task.preSave; split <;> rfl
      by_cases hp : env.faults.publish = true
      · exfalso
        rcases hauth with ha | ha <;>
          simp [taskController.updateTask, hf, ha, hu, hp, TaskOutcome.fail, errorHandler] at hok
      · refine ⟨updated, hupd, ?_⟩
        rcases hauth with ha | ha <;>
          simp [taskController.updateTask, hf, ha, hu, hp, hupd]
  · exfalso
    simp only [not_or] at hauth
    simp [taskController.updateTask, hf, hauth.1, hauth.2, TaskOutcome.reply] at hok

/-- C23: a successful `updateTask` by an actor on a task whose assignee was
`old` emits exactly one `task:updated` event, to the room of the task; it emits
`task:assigned` to the room of user `n` exactly once when the request names an
assignee `n` other than `old` and other than the actor, and not at all
otherwise; nothing goes to the room of `old`. In the scenario where A creates a
task without assignee, assigns it to B and reassigns it to C, the creation
publishes nothing and B and C each receive `task:assigned` exactly once. -/
theorem updateTask_events :
    (∀ (enums : TaskEnums) (s : TaskStore) (env : Env) (user : User) (id : ObjectId)
        (body : TaskBody) (task : Task),
      taskService.findTaskByIdRaw s id = some task →
      (taskController.updateTask enums s env user id body).response =
        ⟨200, "Task updated"⟩ →
      ((taskController.updateTask enums s env user id body).events.filter
          (fun e => e.event = "task:updated")).length = 1 ∧
        (∀ e ∈ (taskController.updateTask enums s env user id body).events,
          e.event = "task:updated" → e.room = Room.task id) ∧
        (∀ n : ObjectId,
          assignedCount (taskController.updateTask enums s env user id body).events n =
            if body.assignee = some (some n) ∧ some n ≠ task.assignee ∧ n ≠ user._id
            then 1 else 0) ∧
        (∀ e ∈ (taskController.updateTask enums s env user id body).events,
          e.event = "task:assigned" → ∃ n : ObjectId, e.room = Room.user n) ∧
        (∀ old : ObjectId, task.assignee = some old →
          ∀ e ∈ (taskController.updateTask enums s env user id body).events,
            e.room ≠ Room.user old)) ∧
    (taskHandle sampleEnums TaskStore.empty
        ⟨sampleEnv, userA, .createTask { TaskBody.none with title := some "Review" }⟩).events
      = [] ∧
    assignedCount (taskEvents sampleEnums TaskStore.empty reassignScenario) 2 = 1 ∧
    assignedCount (taskEvents sampleEnums TaskStore.empty reassignScenario) 3 = 1 := by
  refine ⟨?_, by decide, by decide, by decide⟩
  intro enums s env user id body task hf hok
  obtain ⟨updated, -, hev⟩ := updateTask_ok_events enums s env user id body task hf hok
  rw [hev]
  have hne : ("task:assigned" : String) ≠ "task:updated" := by decide
  rcases hb : body.assignee with _ | _ | a
  · simp [assignedCount]
  · simp [assignedCount]
  · by_cases hg : some a ≠ task.assignee ∧ a ≠ user._id
    · simp only [if_pos hg]
      refine ⟨by simp, ?_, ?_, ?_, ?_⟩
      · intro e he
        simp only [List.singleton_append, List.mem_cons, List.mem_singleton,
          List.not_mem_nil, or_false] at he
        rcases he with rfl | rfl
        · intro h
          exact absurd h hne
        · intro _
          rfl
      · intro n
        by_cases hn : a = n
        · subst hn
          simp [assignedCount, hg.1, hg.2]
        · have hn' : ¬ n = a := fun h => hn h.symm
          simp [assignedCount, hn, hn']
      · intro e he
        simp only [List.singleton_append, List.mem_cons, List.mem_singleton,
          List.not_mem_nil, or_false] at he
        rcases he with rfl | rfl
        · intro _
          exact ⟨a, rfl⟩
        · intro h
          exact absurd h.symm hne
      · intro old ho e he
        simp only [List.singleton_append, List.mem_cons, List.mem_singleton,
          List.not_mem_nil, or_false] at he
        rcases he with rfl | rfl
        · intro h
          injection h with h
          exact hg.1 (by rw [ho, h])
        · intro h
          injection h
    · simp only [if_neg hg]
      refine ⟨by simp, by simp, ?_, by simp, by simp⟩
      intro n
      by_cases hn : a = n
      · subst hn
        simp [assignedCount, hg]
      · have hn' : ¬ n = a := fun h => hn h.symm
        simp [assignedCount, hn, hn']

theorem updateTask_events_witness :
    assignedCount (taskController.updateTask sampleEnums taskStoreA sampleEnv userA 0
      { TaskBody.none with assignee := some (some 3) }).events 3 = 1 ∧
    assignedCount (taskController.updateTask sampleEnums taskStoreA sampleEnv userA 0
      { TaskBody.none with assignee := some (some 3) }).events 2 = 0 :=
  have h := updateTask_events.1 sampleEnums taskStoreA sampleEnv userA 0
    { TaskBody.none with assignee := some (some 3) } taskWrite (by decide) (by decide)
  ⟨(h.2.2.1 3).trans (by decide), (h.2.2.1 2).trans (by decide)⟩

/-- C24, counterexample: a task that its creator assigns to themself is created
(201) and no event is published, although the request names an assignee. -/
theorem createTask_self_assigned :
    (taskController.createTask sampleEnums TaskStore.empty sampleEnv userA
        { TaskBody.none with title := some "Review", assignee := some (some 1) }).response =
      ⟨201, "Task created"⟩ ∧
    (taskController.createTask sampleEnums TaskStore.empty sampleEnv userA
        { TaskBody.none with title := some "Review", assignee := some (some 1) }).events = [] ∧
    (taskController.createTask sampleEnums TaskStore.empty sampleEnv userA
        { TaskBody.none with title := some "Review", assignee := some (some 1) }).store.tasks =
      [⟨0, "Review", "", "open", "medium", none, none, 1, some 1, none, [], false⟩] := by
  decide

/-- C24, amended: a successful `createTask` stores a task of the caller; when
the request names an assignee other than the caller, exactly one event is
published, `task:assigned` with the created task to the room of that assignee;
when it names the caller, or no assignee, nothing is published. -/
theorem createTask_events (enums : TaskEnums) (s : TaskStore) (env : Env) (user : User)
    (body : TaskBody)
    (hok : (taskController.createTask enums s env user body).response =
      ⟨201, "Task created"⟩) :
    ∃ task : Task,
      task ∈ (taskController.createTask enums s env user body).store.tasks ∧
      task.creator = user._id ∧
      (∀ n : ObjectId, body.assignee = some (some n) → n ≠ user._id →
        (taskController.createTask enums s env user body).events =
          [⟨Room.user n, "task:assigned", .task task⟩]) ∧
      (body.assignee = some (some user._id) →
        (taskController.createTask enums s env user body).events = []) ∧
      ((∀ n : ObjectId, body.assignee ≠ some (some n)) →
        (taskController.createTask enums s env user body).events = []) := by
  cases hc : taskService.createTask enums s env.now body user._id with
  | error e =>
    exfalso
    have := errorHandler_status e
    simp only [taskController.createTask, hc, TaskOutcome.fail] at hok
    rw [hok] at this
    simp at this
  | ok r =>
    obtain ⟨task, s1⟩ := r
    have hc' : Task.create enums s env.now body user._id = .ok (task, s1) := hc
    obtain ⟨-, -, hcr, hs1⟩ := Task.create_task_spec hc'
    refine ⟨task, ?_, hcr, ?_, ?_, ?_⟩
    · have hst : (taskController.createTask enums s env user body).store = s1 := by
        simp only [taskController.createTask, hc]
        split
        · split
          · split <;> rfl
          · rfl
        · rfl
      rw [hst, hs1]
      simp
    · intro n hb hn
      by_cases hp : env.faults.publish = true
      · simp [taskController.createTask, hc, hb, hn, hp, TaskOutcome.fail,
          errorHandler] at hok
      · simp [taskController.createTask, hc, hb, hn, hp]
    · intro hb
      simp [taskController.createTask, hc, hb]
    · intro hb
      rcases hb' : body.assignee with _ | _ | a
      · simp [taskController.createTask, hc, hb']
      · simp [taskController.createTask, hc, hb']
      · exact absurd hb' (hb a)

theorem createTask_events_witness :
    ∃ task : Task,
      task ∈ taskStoreA.tasks ∧ task.creator = 1 ∧
      (taskController.createTask sampleEnums TaskStore.empty sampleEnv userA
        { TaskBody.none with title := some "Write", assignee := some (some 2) }).events =
          [⟨Room.user 2, "task:assigned", .task task⟩] :=
  have ⟨task, hm, hc, h, _⟩ := createTask_events sampleEnums TaskStore.empty sampleEnv userA
    { TaskBody.none with title := some "Write", assignee := some (some 2) } (by decide)
  ⟨task, hm, hc, h 2 rfl (by decide)⟩

/-! ## A publish step that throws -/

theorem acceptInvitation_publish_fault (s : Store) (env : Env) (user : User)
    (token : String) :
    teamController.acceptInvitation s env.publishFails user token =
      if (teamController.acceptInvitation s env.publishWorks user token).events = [] then
        teamController.acceptInvitation s env.publishWorks user token
      else
        ⟨(teamController.acceptInvitation s env.publishWorks user token).store,
          ⟨500, "publish failure"⟩, []⟩ := by
  unfold teamController.acceptInvitation
  simp only [Env.publishFails, Env.publishWorks, teamService.acceptInvitation]
  repeat' split
  all_goals simp_all [Outcome.fail, Outcome.reply, errorHandler]

theorem taskHandle_publish_fault (enums : TaskEnums) (s : TaskStore) (env : Env) (user : User)
    (request : TaskRequest) :
    taskHandle enums s ⟨env.publishFails, user, request⟩ =
      if (taskHandle enums s ⟨env.publishWorks, user, request⟩).events = [] then
        taskHandle enums s ⟨env.publishWorks, user, request⟩
      else
        ⟨(taskHandle enums s ⟨env.publishWorks, user, request⟩).store,
          ⟨500, "publish failure"⟩, []⟩ := by
  cases request with
  | createTask body =>
    simp only [taskHandle, taskController.createTask, Env.publishFails, Env.publishWorks]
    repeat' split
    all_goals simp_all [TaskOutcome.fail, TaskOutcome.reply, errorHandler]
  | updateTask id body =>
    simp only [taskHandle, taskController.updateTask, Env.publishFails, Env.publishWorks]
    repeat' split
    all_goals simp_all [TaskOutcome.fail, TaskOutcome.reply, errorHandler]
  | deleteTask id =>
    simp only [taskHandle, taskController.deleteTask]
    repeat' split
    all_goals simp_all [TaskOutcome.fail, TaskOutcome.reply, errorHandler]
  | markComplete id =>
    simp only [taskHandle, taskController.markComplete, Env.publishFails, Env.publishWorks]
    repeat' split
    all_goals simp_all [TaskOutcome.fail, TaskOutcome.reply, errorHandler]
  | createComment taskId content parentComment =>
    simp only [taskHandle, commentController.createComment, Env.publishFails,
      Env.publishWorks]
    repeat' split
    all_goals simp_all [TaskOutcome.fail, TaskOutcome.reply, errorHandler]
  | updateComment id content =>
    simp only [taskHandle, commentController.updateComment, Env.publishFails,
      Env.publishWorks]
    repeat' split
    all_goals simp_all [TaskOutcome.fail, TaskOutcome.reply, errorHandler]
  | deleteComment id =>
    simp only [taskHandle, commentController.deleteComment, Env.publishFails,
      Env.publishWorks]
    repeat' split
    all_goals simp_all [TaskOutcome.fail, TaskOutcome.reply, errorHandler]

/-- C25, counterexample: user B accepts the invitation K while the publish step
throws. The fault-free request is answered 200; with the fault the error goes
to the error handler, the answer is 500, and the membership row and the
consumed invitation are stored all the same. -/
theorem acceptInvitation_publish_throws :
    (teamController.acceptInvitation invitedStore sampleEnv userB "K").response =
      ⟨200, "Joined team successfully"⟩ ∧
    (teamController.acceptInvitation invitedStore publishFailsEnv userB "K").response =
      ⟨500, "publish failure"⟩ ∧
    (teamController.acceptInvitation invitedStore publishFailsEnv userB "K").store =
      joinedStore := by
  decide

/-- C25, amended: when the publish step throws, a request that publishes no
event in the fault-free run ends exactly as in that run, and a request that
publishes one keeps its mutation but is answered by the error handler with 500
and publishes nothing. This holds for `acceptInvitation` and for every task and
comment handler (createTask, updateTask, markComplete, createComment,
updateComment, deleteComment). -/
theorem publish_failure_forwarded (enums : TaskEnums) (s : Store) (ts : TaskStore)
    (env : Env) (user : User) (token : String) (request : TaskRequest) :
    teamController.acceptInvitation s env.publishFails user token =
      (if (teamController.acceptInvitation s env.publishWorks user token).events = [] then
        teamController.acceptInvitation s env.publishWorks user token
      else
        ⟨(teamController.acceptInvitation s env.publishWorks user token).store,
          errorHandler (.other "publish failure"), []⟩) ∧
    taskHandle enums ts ⟨env.publishFails, user, request⟩ =
      (if (taskHandle enums ts ⟨env.publishWorks, user, request⟩).events = [] then
        taskHandle enums ts ⟨env.publishWorks, user, request⟩
      else
        ⟨(taskHandle enums ts ⟨env.publishWorks, user, request⟩).store,
          errorHandler (.other "publish failure"), []⟩) ∧
    (errorHandler (.other "publish failure")).status = 500 :=
  ⟨acceptInvitation_publish_fault s env user token,
    taskHandle_publish_fault enums ts env user request, rfl⟩

/-! ## Rooms of a connection -/

theorem task_room_ne_user_room (a v : String) : "task:" ++ a ≠ "user:" ++ v := by
  intro h
  have := congrArg String.data h
  simp [String.data_append] at this

theorem team_room_ne_user_room (a v : String) : "team:" ++ a ≠ "user:" ++ v := by
  intro h
  have := congrArg String.data h
  simp [String.data_append] at this

theorem user_room_injective {u v : String} (h : "user:" ++ v = "user:" ++ u) : v = u := by
  have := congrArg String.data h
  simp only [String.data_append, List.append_cancel_left_eq] at this
  exact String.ext this

theorem Socket.mem_join {socket : Socket} {room r : String} :
    r ∈ (socket.join room).rooms ↔ r ∈ socket.rooms ∨ r = room := by
  unfold Socket.join
  split
  · constructor
    · exact Or.inl
    · rintro (h | rfl)
      · exact h
      · assumption
  · simp

theorem Socket.mem_leave {socket : Socket} {room r : String} :
    r ∈ (socket.leave room).rooms ↔ r ∈ socket.rooms ∧ r ≠ room := by
  simp [Socket.leave]

/-- The rooms of a connection before and after one message differ at most in
the one room `task:<arg>` or `team:<arg>` the message names. -/
theorem on_rooms (socket : Socket) (message : SocketMessage) (r : String)
    (h : ¬ (r ∈ (socketHandler.onMessage socket message).rooms ↔ r ∈ socket.rooms)) :
    (∃ arg, (message = .taskJoin arg ∨ message = .taskLeave arg) ∧ r = "task:" ++ arg) ∨
    (∃ arg, (message = .teamJoin arg ∨ message = .teamLeave arg) ∧ r = "team:" ++ arg) := by
  cases message with
  | taskJoin a =>
    left
    refine ⟨a, Or.inl rfl, ?_⟩
    by_contra hr
    exact h (by simp [socketHandler.onMessage, Socket.mem_join, hr])
  | taskLeave a =>
    left
    refine ⟨a, Or.inr rfl, ?_⟩
    by_contra hr
    exact h (by simp [socketHandler.onMessage, Socket.mem_leave, hr])
  | teamJoin a =>
    right
    refine ⟨a, Or.inl rfl, ?_⟩
    by_contra hr
    exact h (by simp [socketHandler.onMessage, Socket.mem_join, hr])
  | teamLeave a =>
    right
    refine ⟨a, Or.inr rfl, ?_⟩
    by_contra hr
    exact h (by simp [socketHandler.onMessage, Socket.mem_leave, hr])
  | disconnect => exact absurd Iff.rfl h

theorem on_user_room (socket : Socket) (message : SocketMessage) (v : String) :
    "user:" ++ v ∈ (socketHandler.onMessage socket message).rooms ↔ "user:" ++ v ∈ socket.rooms := by
  by_contra h
  rcases on_rooms socket message _ h with ⟨a, -, ha⟩ | ⟨a, -, ha⟩
  · exact task_room_ne_user_room a v ha.symm
  · exact team_room_ne_user_room a v ha.symm

theorem foldl_on_user_room (messages : List SocketMessage) (socket : Socket) (v : String) :
    "user:" ++ v ∈ (messages.foldl socketHandler.onMessage socket).rooms ↔
      "user:" ++ v ∈ socket.rooms := by
  induction messages generalizing socket with
  | nil => rfl
  | cons m ms ih =>
    rw [List.foldl_cons, ih, on_user_room]

/-- C26: a connection authenticated as user `u` is in room `user:u` at connect
time and after every finite sequence of `task:join`, `task:leave`, `team:join`
and `team:leave` messages (and `disconnect`), whatever their string arguments;
it is in no room `user:v` with `v ≠ u`; and a room whose membership a message
changes is the room `task:<arg>` or `team:<arg>` named by that message. -/
theorem session_rooms (u : String) (messages : List SocketMessage) :
    "user:" ++ u ∈ (socketHandler.connection u).rooms ∧
    "user:" ++ u ∈ (socketHandler.session u messages).rooms ∧
    (∀ v : String, v ≠ u → "user:" ++ v ∉ (socketHandler.session u messages).rooms) ∧
    (∀ (socket : Socket) (message : SocketMessage) (r : String),
      (r ∈ (socketHandler.onMessage socket message).rooms ↔ r ∈ socket.rooms) ∨
      (∃ arg, (message = .taskJoin arg ∨ message = .taskLeave arg) ∧ r = "task:" ++ arg) ∨
      (∃ arg, (message = .teamJoin arg ∨ message = .teamLeave arg) ∧ r = "team:" ++ arg)) := by
  have hc : ∀ v : String, "user:" ++ v ∈ (socketHandler.connection u).rooms ↔ v = u := by
    intro v
    simp only [socketHandler.connection, Socket.mem_join, List.not_mem_nil, false_or]
    exact ⟨user_room_injective, fun h => by rw [h]⟩
  refine ⟨(hc u).mpr rfl, ?_, ?_, ?_⟩
  · unfold socketHandler.session
    rw [foldl_on_user_room]
    exact (hc u).mpr rfl
  · intro v hv hm
    unfold socketHandler.session at hm
    rw [foldl_on_user_room] at hm
    exact hv ((hc v).mp hm)
  · intro socket message r
    by_cases h : (r ∈ (socketHandler.onMessage socket message).rooms ↔ r ∈ socket.rooms)
    · exact Or.inl h
    · exact Or.inr (on_rooms socket message r h)

theorem session_rooms_witness :
    "user:" ++ "7" ∈ (socketHandler.session "7"
        [.taskJoin "user:8", .teamJoin "9", .teamLeave "7", .taskLeave "user:8"]).rooms ∧
      "user:" ++ "8" ∉ (socketHandler.session "7"
        [.taskJoin "user:8", .teamJoin "9", .teamLeave "7", .taskLeave "user:8"]).rooms :=
  have h := session_rooms "7"
    [.taskJoin "user:8", .teamJoin "9", .teamLeave "7", .taskLeave "user:8"]
  ⟨h.2.1, h.2.2.1 "8" (by decide)⟩

/-! ## Creating and then resolving an invitation -/

theorem TeamRole.toString_of_ofString? {r : String} {role : TeamRole}
    (h : TeamRole.ofString? r = some role) : role.toString = r := by
  unfold TeamRole.ofString? at h
  split at h
  · simp only [Option.some.injEq] at h
    subst h
    rename_i hr
    exact hr.symm
  · split at h
    · simp only [Option.some.injEq] at h
      subst h
      rename_i hr
      exact hr.symm
    · split at h
      · simp only [Option.some.injEq] at h
        subst h
        rename_i hr
        exact hr.symm
      · simp at h

theorem TeamInvitation.create_fields {s : Store} {lowerCased : String} {team : ObjectId}
    {email role token : String} {invitedBy : ObjectId} {expiresAt : Date}
    {doc : TeamInvitation} {s1 : Store}
    (h : TeamInvitation.create s lowerCased team email role token invitedBy expiresAt =
      .ok (doc, s1)) :
    doc.email = jsTrim (jsToLowerCase lowerCased email) ∧ doc.role.toString = role := by
  unfold TeamInvitation.create at h
  simp only at h
  cases hr : TeamRole.ofString? role with
  | none => rw [hr] at h; simp at h
  | some r =>
    have hs := TeamRole.toString_of_ofString? hr
    rw [hr] at h
    cases r with
    | owner => simp at h
    | admin =>
      simp only at h
      split at h
      · simp at h
      · split at h
        · simp at h
        · simp only [Except.ok.injEq, Prod.mk.injEq] at h
          obtain ⟨rfl, rfl⟩ := h
          exact ⟨rfl, hs⟩
    | member =>
      simp only at h
      split at h
      · simp at h
      · split at h
        · simp at h
        · simp only [Except.ok.injEq, Prod.mk.injEq] at h
          obtain ⟨rfl, rfl⟩ := h
          exact ⟨rfl, hs⟩

theorem tokensUnique_eq {s : Store} (hu : s.TokensUnique) {a b : TeamInvitation}
    (ha : a ∈ s.invitations) (hb : b ∈ s.invitations) (h : a.token = b.token) : a = b :=
  List.inj_on_of_nodup_map hu ha hb h

/-- In a store with unique tokens that holds the invitation unaccepted,
`findValidInvitation` on its token returns it strictly before its expiry and
nothing from the expiry on. -/
theorem findValidInvitation_of_mem {s : Store} (hu : s.TokensUnique) {inv : TeamInvitation}
    (hm : inv ∈ s.invitations) (hacc : inv.acceptedAt = none) (now : Date) :
    (now < inv.expiresAt →
      teamService.findValidInvitation s inv.token now =
        some (inv, s.teams.find? (fun t => t._id = inv.team))) ∧
    (inv.expiresAt ≤ now → teamService.findValidInvitation s inv.token now = none) := by
  constructor
  · intro hlt
    cases hr : teamService.findValidInvitation s inv.token now with
    | none =>
      exfalso
      unfold teamService.findValidInvitation at hr
      split at hr
      · simp at hr
      · rename_i hnone
        rw [List.find?_eq_none] at hnone
        exact hnone inv hm (by simp [hacc, hlt])
    | some r =>
      obtain ⟨i, populated⟩ := r
      have h1 := findValidInvitation_some hr
      have hi : i = inv := tokensUnique_eq hu h1.1 hm h1.2.1
      subst hi
      rw [h1.2.2.2.2]
  · intro hle
    apply findValidInvitation_eq_none
    intro i hi ht
    have hi' : i = inv := tokensUnique_eq hu hi hm ht
    subst hi'
    exact Or.inl hle

/-- C27, counterexample: an invitation created for the address "B@x.com " is
stored with the address "b@x.com", not with the address given. -/
theorem createInvitation_email_normalised :
    (teamService.createInvitation
        (run Store.empty [⟨sampleEnv, userA, .createTeam (some "Eng") none⟩])
        sampleEnv 0 "B@x.com " "member" 1).map (fun r => r.2.invitations) =
      .ok [⟨2, 0, "b@x.com", TeamRole.member, "K", 1, 1000 + INVITATION_EXPIRES_IN, none⟩] := by
  rfl

/-- C27, amended: an invitation created by `createInvitation` at time `t` is
stored with `acceptedAt = null`, `expiresAt = t + INVITATION_EXPIRES_IN`, the
given team, role and inviter, and the given email as the schema setters leave
it: lower-cased by `toLowerCase` and trimmed, which for an email of ASCII
characters is the email with A to Z mapped to a to z, trimmed.  The returned
token is the stored token.  In every store with unique tokens that still holds
this invitation, `findValidInvitation(token)` returns it, with its team
populated from the stored teams, at every time before `t + INVITATION_EXPIRES_IN`
and returns nothing at every time from then on. -/
theorem createInvitation_round_trip (s : Store) (env : Env) (teamId : ObjectId)
    (email role : String) (invitedBy : ObjectId) (token : String) (s1 : Store)
    (h : teamService.createInvitation s env teamId email role invitedBy = .ok (token, s1)) :
    ∃ inv : TeamInvitation,
      s1.invitations = s.invitations ++ [inv] ∧
      inv.token = token ∧ token = env.uuid ∧
      inv.acceptedAt = none ∧ inv.expiresAt = env.now + INVITATION_EXPIRES_IN ∧
      inv.team = teamId ∧ inv.email = jsTrim (jsToLowerCase env.lowerCased email) ∧
      ((∀ c ∈ email.data, c.toNat < 128) →
        inv.email = jsTrim (String.mk (email.data.map Char.toLower))) ∧
      inv.role.toString = role ∧ inv.invitedBy = invitedBy ∧
      (s.TokensUnique → s1.TokensUnique) ∧
      ∀ s2 : Store, s2.TokensUnique → inv ∈ s2.invitations → ∀ now : Date,
        (now < env.now + INVITATION_EXPIRES_IN →
          teamService.findValidInvitation s2 token now =
            some (inv, s2.teams.find? (fun t => t._id = teamId))) ∧
        (env.now + INVITATION_EXPIRES_IN ≤ now →
          teamService.findValidInvitation s2 token now = none) := by
  unfold teamService.createInvitation at h
  simp only at h
  cases hc : TeamInvitation.create s env.lowerCased teamId email role env.uuid invitedBy
      (env.now + INVITATION_EXPIRES_IN) with
  | error e => rw [hc] at h; simp at h
  | ok r =>
    obtain ⟨inv, s1'⟩ := r
    rw [hc] at h
    simp only [Except.ok.injEq, Prod.mk.injEq] at h
    obtain ⟨rfl, rfl⟩ := h
    obtain ⟨-, ht, -, htok, hacc, hexp, hby, hfresh, hs1⟩ := TeamInvitation.create_ok hc
    obtain ⟨hemail, hrole⟩ := TeamInvitation.create_fields hc
    refine ⟨inv, by rw [hs1], htok, rfl, hacc, hexp, ht, hemail, ?_, hrole, hby, ?_, ?_⟩
    · intro hascii
      rw [hemail]
      unfold jsToLowerCase
      rw [if_pos (List.all_eq_true.mpr (fun c hc => by simpa using hascii c hc))]
    · intro hu
      rw [hs1]
      unfold Store.TokensUnique at hu ⊢
      simp only [List.map_append, List.map_cons, List.map_nil]
      rw [List.nodup_append]
      refine ⟨hu, List.nodup_singleton _, ?_⟩
      intro a ha hb
      simp only [List.mem_singleton] at hb
      obtain ⟨i, hi, rfl⟩ := List.mem_map.mp ha
      exact hfresh i hi (hb.trans htok)
    · intro s2 hu hm now
      have h2 := findValidInvitation_of_mem hu hm hacc now
      rw [htok, hexp, ht] at h2
      exact h2

theorem createInvitation_round_trip_witness :
    ∃ inv : TeamInvitation,
      inv.email = "b@x.com" ∧ inv.expiresAt = 1000 + INVITATION_EXPIRES_IN ∧
      teamService.findValidInvitation invitedStore "K" 2000 = some (inv, some teamEng) ∧
      teamService.findValidInvitation invitedStore "K" (1000 + INVITATION_EXPIRES_IN) = none :=
  have ⟨inv, hs, _, _, _, hexp, _, _, hascii, _, _, _, h⟩ :=
    createInvitation_round_trip
      (run Store.empty [⟨sampleEnv, userA, .createTeam (some "Eng") none⟩])
      sampleEnv 0 "B@x.com " "member" 1 "K" invitedStore (by rfl)
  have hm : inv ∈ invitedStore.invitations := by rw [hs]; simp
  ⟨inv, (hascii (by decide)).trans (by decide), hexp,
    ((h invitedStore (by decide) hm 2000).1 (by decide)).trans
      (congrArg (fun p => some (inv, p))
        (show invitedStore.teams.find? (fun t => t._id = 0) = some teamEng by decide)),
    (h invitedStore (by decide) hm (1000 + INVITATION_EXPIRES_IN)).2 (Nat.le_refl _)⟩

/-! ## The edited flag of a comment -/

/-- C28, counterexample: user B updates the own comment with the content it
already has. The request is answered 200 Comment updated, and the returned and
stored comment has `isEdited = false`. -/
theorem updateComment_same_content :
    (commentController.updateComment commentedStore sampleEnv userB 1
        (some "Draft done")).response = ⟨200, "Comment updated"⟩ ∧
    (commentController.updateComment commentedStore sampleEnv userB 1
        (some "Draft done")).events =
      [⟨Room.task 0, "comment:updated", .comment commentDraft⟩] ∧
    commentService.findCommentById
        (commentController.updateComment commentedStore sampleEnv userB 1
          (some "Draft done")).store 1 = some commentDraft ∧
    commentDraft.isEdited = false := by
  decide

/-- C28, amended: after an `updateComment` answered 200 Comment updated on a
stored comment, the returned comment is the one stored under the id; its content
is the given content trimmed; and its `isEdited` flag is true exactly when that
content differs from the content before the update or the flag was already set.
A comment that has only been created has `isEdited = false`. -/
theorem updateComment_isEdited (s : TaskStore) (env : Env) (user : User) (id : ObjectId)
    (content : Option String) (comment : Comment)
    (hf : commentService.findCommentById s id = some comment)
    (hok : (commentController.updateComment s env user id content).response =
      ⟨200, "Comment updated"⟩) :
    (∃ doc : Comment,
      (commentController.updateComment s env user id content).events =
        [⟨Room.task comment.task, "comment:updated", .comment doc⟩] ∧
      commentService.findCommentById
        (commentController.updateComment s env user id content).store id = some doc ∧
      doc.content = jsTrim (content.getD "") ∧
      (jsTrim (content.getD "") ≠ comment.content → doc.isEdited = true) ∧
      (jsTrim (content.getD "") = comment.content → doc.isEdited = comment.isEdited)) ∧
    (∀ (s0 s1 : TaskStore) (text : Option String) (task author : ObjectId)
        (parent : Option ObjectId) (created : Comment),
      commentService.createComment s0 text task author parent = .ok (created, s1) →
      created.isEdited = false ∧ created ∈ s1.comments) := by
  have hid := (findCommentById_some hf).2
  constructor
  · have hd := updateComment_service_eq s comment content
    have hdid : (Comment.preSave (decide (jsTrim (content.getD "") ≠ comment.content))
        { comment with content := jsTrim (content.getD "") })._id = id := by
      rw [← hid]; unfold Comment.preSave; split <;> rfl
    have hdtask : ∀ (b : Bool) (d : Comment), (Comment.preSave b d).task = d.task := by
      intro b d
      unfold Comment.preSave; split <;> rfl
    by_cases ha : comment.author = user._id
    · by_cases hv : (Comment.preSave (decide (jsTrim (content.getD "") ≠ comment.content))
          { comment with content := jsTrim (content.getD "") }).valid = true
      · rw [if_pos hv] at hd
        by_cases hp : env.faults.publish = true
        · exfalso
          simp [commentController.updateComment, hf, ha, hd, hp, TaskOutcome.fail,
            errorHandler] at hok
        · refine ⟨Comment.preSave (decide (jsTrim (content.getD "") ≠ comment.content))
            { comment with content := jsTrim (content.getD "") }, ?_, ?_, ?_, ?_, ?_⟩
          · simp [commentController.updateComment, hf, ha, hd, hp, hdtask]
          · have hstore : (commentController.updateComment s env user id content).store =
                { s with comments := s.comments.map (fun c => if c._id = id then
                  Comment.preSave (decide (jsTrim (content.getD "") ≠ comment.content))
                    { comment with content := jsTrim (content.getD "") } else c) } := by
              simp [commentController.updateComment, hf, ha, hd, hp, hid]
            rw [hstore]
            have hf' : s.comments.find? (fun c => decide (c._id = id)) = some comment := hf
            exact find?_map_replace (fun c : Comment => c._id) s.comments id comment _ hf' hdid
          · unfold Comment.preSave; split <;> rfl
          · intro hne
            simp [Comment.preSave, hne]
          · intro heq
            simp [Comment.preSave, heq]
      · rw [if_neg hv] at hd
        exfalso
        simp [commentController.updateComment, hf, ha, hd, TaskOutcome.fail, errorHandler] at hok
    · exfalso
      simp [commentController.updateComment, hf, ha, TaskOutcome.reply] at hok
  · intro s0 s1 text task author parent created hc
    have hc' : Comment.create s0 text task author parent = .ok (created, s1) := hc
    obtain ⟨hdoc, hs1⟩ := Comment.create_comment_spec hc'
    refine ⟨by rw [hdoc], ?_⟩
    rw [hs1]
    simp

/-- User B rewrites the own comment: the stored comment has the new content
and is flagged edited. -/
theorem updateComment_isEdited_witness :
    ∃ doc : Comment,
      commentService.findCommentById
        (commentController.updateComment commentedStore sampleEnv userB 1
          (some " Draft revised ")).store 1 = some doc ∧
      doc.content = "Draft revised" ∧ doc.isEdited = true :=
  have ⟨doc, _, hs, hc, he, _⟩ := (updateComment_isEdited commentedStore sampleEnv userB 1
    (some " Draft revised ") commentDraft (by decide) (by decide)).1
  ⟨doc, hs, hc.trans (by decide), he (by decide)⟩

/-! ## Two concurrent `acceptInvitation` requests -/

/-- Run alone, the four steps of a request are the handler. -/
theorem race_solo (a b : AcceptRequest) (s : Store) :
    race a b s [.first, .first, .first, .first] =
      ⟨(teamController.acceptInvitation s a.env a.user a.token).store,
        .finished (teamController.acceptInvitation s a.env a.user a.token).response
          (teamController.acceptInvitation s a.env a.user a.token).events,
        .start⟩ := by
  obtain ⟨env, user, token⟩ := a
  simp only [race, List.foldl_cons, List.foldl_nil, raceStep]
  cases hv : teamService.findValidInvitation s token env.now with
  | none => simp [acceptStep, teamController.acceptInvitation, hv, Outcome.reply]
  | some r =>
    obtain ⟨inv, populated⟩ := r
    by_cases he : inv.email = user.email
    · cases populated with
      | none => simp [acceptStep, teamController.acceptInvitation, hv, he, Outcome.fail]
      | some team =>
        cases hm : teamService.findMembership s team._id user._id with
        | some m =>
          simp [acceptStep, teamController.acceptInvitation, hv, he, hm, Outcome.reply]
        | none =>
          by_cases hf1 : env.faults.memberCreate = true
          · simp [acceptStep, teamController.acceptInvitation, hv, he, hm, hf1, Outcome.fail]
          · cases hc : teamService.createTeamMember s team._id user._id inv.role with
            | error e =>
              simp [acceptStep, teamController.acceptInvitation, hv, he, hm, hf1, hc,
                Outcome.fail]
            | ok r =>
              obtain ⟨m, s1⟩ := r
              by_cases hf2 : env.faults.invitationSave = true
              · simp [acceptStep, teamController.acceptInvitation, hv, he, hm, hf1, hc, hf2,
                  Outcome.fail]
              · cases hs : teamService.acceptInvitation s1 env inv with
                | error e =>
                  simp [acceptStep, teamController.acceptInvitation, hv, he, hm, hf1, hc, hf2,
                    hs, Outcome.fail]
                | ok s2 =>
                  by_cases hf3 : env.faults.publish = true
                  · simp [acceptStep, teamController.acceptInvitation, hv, he, hm, hf1, hc,
                      hf2, hs, hf3, Outcome.fail]
                  · simp [acceptStep, teamController.acceptInvitation, hv, he, hm, hf1, hc,
                      hf2, hs, hf3]
    · simp [acceptStep, teamController.acceptInvitation, hv, he, Outcome.reply]

theorem TeamMember.create_cases (s : Store) (team user : ObjectId) (role : TeamRole) :
    (s.hasMember team user ∧
      TeamMember.create s team user role = .error (.duplicateKey "team")) ∨
    (¬ s.hasMember team user ∧
      TeamMember.create s team user role =
        .ok (⟨s.nextId, team, user, role⟩, s.insertMember team user role)) := by
  by_cases h : s.hasMember team user
  · left
    refine ⟨h, ?_⟩
    unfold TeamMember.create
    have : s.members.any (fun m => decide (m.team = team ∧ m.user = user)) = true := by
      rw [List.any_eq_true]
      obtain ⟨m, hm, h1, h2⟩ := h
      exact ⟨m, hm, by simp [h1, h2]⟩
    rw [if_pos this]
  · right
    exact ⟨h, createTeamMember_of_not_member role (findMembership_eq_none.mpr h)⟩

/-- A store with the same teams and at least the same invitation ids keeps a
run sound. -/
theorem AcceptPoint.Sound.mono {s s1 : Store} {point : AcceptPoint}
    (h : point.Sound s) (ht : s1.teams = s.teams)
    (hi : ∀ x, (∃ i ∈ s.invitations, i._id = x) → ∃ i ∈ s1.invitations, i._id = x) :
    point.Sound s1 := by
  refine ⟨fun inv hinv => ?_, h.2⟩
  obtain ⟨h1, h2⟩ := h.1 inv hinv
  exact ⟨hi _ h1, by rw [ht]; exact h2⟩

/-- The store after `invitation.save()` on an invitation whose team is stored:
teams and membership rows are the old ones, no invitation id is lost, and every
invitation references a stored team. -/
theorem TeamInvitation.save_frame {s s1 : Store} {doc : TeamInvitation}
    (h : TeamInvitation.save s doc = .ok s1) (hinv : s.InvitationTeams)
    (hteam : ∃ t ∈ s.teams, t._id = doc.team) :
    s1.teams = s.teams ∧ s1.members = s.members ∧ s1.InvitationTeams ∧
      ∀ x, (∃ i ∈ s.invitations, i._id = x) → ∃ i ∈ s1.invitations, i._id = x := by
  unfold TeamInvitation.save at h
  split at h
  · simp only [Except.ok.injEq] at h
    subst h
    refine ⟨rfl, rfl, ?_, ?_⟩
    · intro i hi
      simp only [List.mem_map] at hi
      obtain ⟨j, hj, rfl⟩ := hi
      split
      · exact hteam
      · exact hinv j hj
    · rintro x ⟨i, hi, rfl⟩
      by_cases hd : i._id = doc._id
      · exact ⟨doc, List.mem_map.mpr ⟨i, hi, by rw [if_pos hd]⟩, hd.symm⟩
      · exact ⟨i, List.mem_map.mpr ⟨i, hi, by rw [if_neg hd]⟩, rfl⟩
  · simp at h

theorem TeamInvitation.save_ok_of_id {s : Store} {doc : TeamInvitation}
    (h : ∃ i ∈ s.invitations, i._id = doc._id) :
    ∃ s1, TeamInvitation.save s doc = .ok s1 := by
  unfold TeamInvitation.save
  have : s.invitations.any (fun i => decide (i._id = doc._id)) = true := by
    rw [List.any_eq_true]
    obtain ⟨i, hi, hid⟩ := h
    exact ⟨i, hi, by simp [hid]⟩
  rw [if_pos this]
  exact ⟨_, rfl⟩

/-- One step of a fault-free run keeps the membership rows unique, the
invitations on stored teams and the run sound; it leaves the teams alone and
loses no invitation id. -/
theorem acceptStep_sound (s : Store) (env : Env) (user : User) (token : String)
    (point : AcceptPoint) (hf : env.faults = Faults.none) (hu : s.MembersUnique)
    (hinv : s.InvitationTeams) (hp : point.Sound s) :
    (acceptStep s env user token point).1.MembersUnique ∧
    (acceptStep s env user token point).1.InvitationTeams ∧
    (acceptStep s env user token point).2.Sound (acceptStep s env user token point).1 ∧
    (acceptStep s env user token point).1.teams = s.teams ∧
    (∀ x, (∃ i ∈ s.invitations, i._id = x) →
      ∃ i ∈ (acceptStep s env user token point).1.invitations, i._id = x) := by
  have hf1 : env.faults.memberCreate = false := by rw [hf]; rfl
  have hf2 : env.faults.invitationSave = false := by rw [hf]; rfl
  have hf3 : env.faults.publish = false := by rw [hf]; rfl
  have hdone : ∀ (m : String) (ev : List Emitted),
      (AcceptPoint.finished ⟨400, m⟩ ev).Sound s := by
    intro m ev
    refine ⟨fun inv h => ?_, fun r h => ?_⟩
    · simp [AcceptPoint.invitation?] at h
    · simp only [AcceptPoint.response?, Option.some.injEq] at h
      subst h
      exact Or.inr rfl
  cases point with
  | start =>
    cases hv : teamService.findValidInvitation s token env.now with
    | none =>
      simp only [acceptStep, hv]
      exact ⟨hu, hinv, hdone _ _, trivial, fun x h => h⟩
    | some r =>
      obtain ⟨inv, populated⟩ := r
      have hs := findValidInvitation_some hv
      by_cases he : inv.email = user.email
      · cases populated with
        | none =>
          exfalso
          obtain ⟨t, ht, hid⟩ := hinv inv hs.1
          have hnone := hs.2.2.2.2.symm
          rw [List.find?_eq_none] at hnone
          exact hnone t ht (by simp [hid])
        | some team =>
          have ht := findValidInvitation_team hv
          simp only [acceptStep, hv, he, ne_eq, not_true_eq_false, if_false]
          refine ⟨hu, hinv, ⟨fun i hi => ?_, fun r h => ?_⟩, trivial, fun x h => h⟩
          · simp only [AcceptPoint.invitation?, Option.some.injEq] at hi
            subst hi
            exact ⟨⟨inv, hs.1, rfl⟩, ⟨team, ht.2, ht.1⟩⟩
          · simp [AcceptPoint.response?] at h
      · simp only [acceptStep, hv, he, ne_eq, not_false_eq_true, if_true]
        exact ⟨hu, hinv, hdone _ _, trivial, fun x h => h⟩
  | resolved inv team =>
    cases hm : teamService.findMembership s team._id user._id with
    | some m =>
      simp only [acceptStep, hm]
      exact ⟨hu, hinv, hdone _ _, trivial, fun x h => h⟩
    | none =>
      simp only [acceptStep, hm]
      refine ⟨hu, hinv, ⟨fun i hi => ?_, fun r h => ?_⟩, trivial, fun x h => h⟩
      · exact hp.1 i (by simpa [AcceptPoint.invitation?] using hi)
      · simp [AcceptPoint.response?] at h
  | checked inv team =>
    rcases TeamMember.create_cases s team._id user._id inv.role with ⟨_, hc⟩ | ⟨hno, hc⟩
    · simp only [acceptStep, hf1, Bool.false_eq_true, if_false, teamService.createTeamMember,
        hc, errorHandler]
      exact ⟨hu, hinv, hdone _ _, trivial, fun x h => h⟩
    · simp only [acceptStep, hf1, Bool.false_eq_true, if_false, teamService.createTeamMember,
        hc]
      refine ⟨membersUnique_insertMember _ hu hno, hinv, ⟨fun i hi => ?_, fun r h => ?_⟩,
        rfl, fun x h => h⟩
      · exact hp.1 i (by simpa [AcceptPoint.invitation?] using hi)
      · simp [AcceptPoint.response?] at h
  | inserted inv team =>
    obtain ⟨hid, hteam⟩ := hp.1 inv rfl
    have hid' : ∃ i ∈ s.invitations,
        i._id = ({ inv with acceptedAt := some env.now } : TeamInvitation)._id := hid
    obtain ⟨s2, hsave⟩ := TeamInvitation.save_ok_of_id hid'
    obtain ⟨ht2, hm2, hinv2, hids⟩ := TeamInvitation.save_frame hsave hinv hteam
    simp only [acceptStep, hf2, hf3, Bool.false_eq_true, if_false, teamService.acceptInvitation,
      hsave]
    refine ⟨?_, hinv2, ⟨fun i hi => ?_, fun r h => ?_⟩, ht2, hids⟩
    · unfold Store.MembersUnique
      rw [hm2]
      exact hu
    · simp [AcceptPoint.invitation?] at hi
    · simp only [AcceptPoint.response?, Option.some.injEq] at h
      subst h
      exact Or.inl rfl
  | finished response events =>
    simp only [acceptStep]
    exact ⟨hu, hinv, hp, trivial, fun x h => h⟩

/-- One turn of the interleaving keeps the membership rows unique, the
invitations on stored teams and both runs sound. -/
theorem raceStep_sound (a b : AcceptRequest) (hfa : a.env.faults = Faults.none)
    (hfb : b.env.faults = Faults.none) (r : Race) (turn : Turn)
    (h : r.store.MembersUnique ∧ r.store.InvitationTeams ∧ r.first.Sound r.store ∧
      r.second.Sound r.store) :
    (raceStep a b r turn).store.MembersUnique ∧ (raceStep a b r turn).store.InvitationTeams ∧
      (raceStep a b r turn).first.Sound (raceStep a b r turn).store ∧
      (raceStep a b r turn).second.Sound (raceStep a b r turn).store := by
  obtain ⟨hu, hinv, h1, h2⟩ := h
  cases turn with
  | first =>
    obtain ⟨hu', hinv', hs', ht', hi'⟩ :=
      acceptStep_sound r.store a.env a.user a.token r.first hfa hu hinv h1
    exact ⟨hu', hinv', hs', h2.mono ht' hi'⟩
  | second =>
    obtain ⟨hu', hinv', hs', ht', hi'⟩ :=
      acceptStep_sound r.store b.env b.user b.token r.second hfb hu hinv h2
    exact ⟨hu', hinv', h1.mono ht' hi', hs'⟩
  | insert team user role =>
    rcases TeamMember.create_cases r.store team user role with ⟨_, hc⟩ | ⟨hno, hc⟩
    · simp only [raceStep, hc]
      exact ⟨hu, hinv, h1, h2⟩
    · simp only [raceStep, hc]
      exact ⟨membersUnique_insertMember _ hu hno, hinv, h1.mono rfl (fun x hx => hx),
        h2.mono rfl (fun x hx => hx)⟩

theorem foldl_raceStep_sound (a b : AcceptRequest) (hfa : a.env.faults = Faults.none)
    (hfb : b.env.faults = Faults.none) (turns : List Turn) (r : Race)
    (h : r.store.MembersUnique ∧ r.store.InvitationTeams ∧ r.first.Sound r.store ∧
      r.second.Sound r.store) :
    (turns.foldl (raceStep a b) r).store.MembersUnique ∧
      (turns.foldl (raceStep a b) r).first.Sound (turns.foldl (raceStep a b) r).store ∧
      (turns.foldl (raceStep a b) r).second.Sound (turns.foldl (raceStep a b) r).store := by
  induction turns generalizing r with
  | nil => exact ⟨h.1, h.2.2.1, h.2.2.2⟩
  | cons t ts ih => exact ih (raceStep a b r t) (raceStep_sound a b hfa hfb r t h)

/-- A step takes a run one call further, or to its response. -/
theorem acceptStep_rank (s : Store) (env : Env) (user : User) (token : String)
    (point : AcceptPoint) :
    min 4 (point.rank + 1) ≤ (acceptStep s env user token point).2.rank := by
  cases point <;> simp only [acceptStep] <;> repeat' split
  all_goals simp [AcceptPoint.rank]

theorem rank_eq_four {point : AcceptPoint} (h : 4 ≤ point.rank) :
    ∃ response events, point = .finished response events := by
  cases point with
  | finished response events => exact ⟨response, events, rfl⟩
  | _ => simp [AcceptPoint.rank] at h

theorem foldl_raceStep_rank (a b : AcceptRequest) (turns : List Turn) (r : Race) :
    min 4 (r.first.rank + turns.count .first) ≤ (turns.foldl (raceStep a b) r).first.rank ∧
    min 4 (r.second.rank + turns.count .second) ≤
      (turns.foldl (raceStep a b) r).second.rank := by
  induction turns generalizing r with
  | nil => simp
  | cons t ts ih =>
    have h := ih (raceStep a b r t)
    rw [List.foldl_cons]
    cases t with
    | first =>
      have hr := acceptStep_rank r.store a.env a.user a.token r.first
      have h1 : (raceStep a b r .first).first =
          (acceptStep r.store a.env a.user a.token r.first).2 := rfl
      have h2 : (raceStep a b r .first).second = r.second := rfl
      rw [h1, h2] at h
      have c1 : (Turn.first :: ts).count .first = ts.count .first + 1 := by
        simp [List.count_cons]
      have c2 : (Turn.first :: ts).count .second = ts.count .second := by
        simp [List.count_cons]
      rw [c1, c2]
      omega
    | second =>
      have hr := acceptStep_rank r.store b.env b.user b.token r.second
      have h1 : (raceStep a b r .second).second =
          (acceptStep r.store b.env b.user b.token r.second).2 := rfl
      have h2 : (raceStep a b r .second).first = r.first := rfl
      rw [h1, h2] at h
      have c1 : (Turn.second :: ts).count .second = ts.count .second + 1 := by
        simp [List.count_cons]
      have c2 : (Turn.second :: ts).count .first = ts.count .first := by
        simp [List.count_cons]
      rw [c1, c2]
      omega
    | insert team user role =>
      have h1 : (raceStep a b r (.insert team user role)).first = r.first := by
        simp only [raceStep]; split <;> rfl
      have h2 : (raceStep a b r (.insert team user role)).second = r.second := by
        simp only [raceStep]; split <;> rfl
      rw [h1, h2] at h
      have c1 : (Turn.insert team user role :: ts).count .first = ts.count .first := by
        simp [List.count_cons]
      have c2 : (Turn.insert team user role :: ts).count .second = ts.count .second := by
        simp [List.count_cons]
      rw [c1, c2]
      exact h

/-- C30: two `acceptInvitation` requests run concurrently, their awaited
storage calls interleaved in any order with each other and with any number of
other membership inserts, from a store whose membership rows have distinct
(team, user) pairs and whose invitations reference stored teams, with no
storage or publish fault. In the store reached there is at most one membership
row for every (team, user); a request that has answered has answered 200 or 400,
a lost insert being the duplicate key error the error handler answers with 400;
and each request has answered once four of its calls have run. Run alone, the
four steps of a request are the `acceptInvitation` handler. -/
theorem acceptInvitation_race (a b : AcceptRequest) (s : Store) (turns : List Turn)
    (hfa : a.env.faults = Faults.none) (hfb : b.env.faults = Faults.none)
    (hu : s.MembersUnique) (hinv : s.InvitationTeams) :
    (∀ team user : ObjectId, ((race a b s turns).store.rowsOf team user).length ≤ 1) ∧
    (∀ response events, (race a b s turns).first = .finished response events →
      response.status = 200 ∨ response.status = 400) ∧
    (∀ response events, (race a b s turns).second = .finished response events →
      response.status = 200 ∨ response.status = 400) ∧
    (4 ≤ turns.count .first →
      ∃ response events, (race a b s turns).first = .finished response events) ∧
    (4 ≤ turns.count .second →
      ∃ response events, (race a b s turns).second = .finished response events) ∧
    (errorHandler (.duplicateKey "team")).status = 400 ∧
    race a b s [.first, .first, .first, .first] =
      ⟨(teamController.acceptInvitation s a.env a.user a.token).store,
        .finished (teamController.acceptInvitation s a.env a.user a.token).response
          (teamController.acceptInvitation s a.env a.user a.token).events,
        .start⟩ := by
  have hstart : (AcceptPoint.start).Sound s :=
    ⟨fun inv h => by simp [AcceptPoint.invitation?] at h,
      fun r h => by simp [AcceptPoint.response?] at h⟩
  obtain ⟨hu', h1, h2⟩ := foldl_raceStep_sound a b hfa hfb turns ⟨s, .start, .start⟩
    ⟨hu, hinv, hstart, hstart⟩
  obtain ⟨hr1, hr2⟩ := foldl_raceStep_rank a b turns ⟨s, .start, .start⟩
  refine ⟨fun team user => rowsOf_length_le_one hu' team user, ?_, ?_, ?_, ?_, rfl,
    race_solo a b s⟩
  · intro response events he
    apply h1.2 response
    unfold race at he
    rw [he]
    rfl
  · intro response events he
    apply h2.2 response
    unfold race at he
    rw [he]
    rfl
  · intro hc
    apply rank_eq_four
    unfold race
    have hr : min 4 (0 + turns.count .first) ≤
        (turns.foldl (raceStep a b) ⟨s, .start, .start⟩).first.rank := hr1
    omega
  · intro hc
    apply rank_eq_four
    unfold race
    have hr : min 4 (0 + turns.count .second) ≤
        (turns.foldl (raceStep a b) ⟨s, .start, .start⟩).second.rank := hr2
    omega

/-- User B sends the request for the invitation K twice and the two runs take
their calls in turn: both find the invitation valid and no membership row, the
first insert goes through, the second is the duplicate the index rejects. -/
theorem acceptInvitation_race_witness :
    (race acceptK acceptK invitedStore alternating).first =
      .finished ⟨200, "Joined team successfully"⟩
        [⟨Room.team 0, "team:member-joined", 0, userB⟩] ∧
    (race acceptK acceptK invitedStore alternating).second =
      .finished ⟨400, "team already exists"⟩ [] ∧
    ((race acceptK acceptK invitedStore alternating).store.rowsOf 0 2).length ≤ 1 :=
  ⟨by decide, by decide,
    (acceptInvitation_race acceptK acceptK invitedStore alternating rfl rfl
      (by unfold Store.MembersUnique; decide)
      (by unfold Store.InvitationTeams; decide)).1 0 2⟩

end TaskMaster
